import Mathlib

/-!
# Request routing and dispatch of the v8-renderer gateway

A shallow embedding of the dispatch core of the repository:

* `RoundRobin`, `TQueue`, `cache_entry_t`, `cache_map`, `cacheable`
  (src/components.h),
* `BalancerWorker`, `Balancer`, `check_pending_queue` (src/hello-world.cc),
* `_HttpData` with `setResponseHeader`, `setResponseStatus`, `sendResponse`, the
  parser callbacks, `http_read` and `async_callback` (src/httpserver.h),
* the engine parameters (src/parameters.h).

Conventions of the embedding.

* A `balancer_job` is an `HttpData*`; only the identity of the pointer matters
  to the balancer, so a handle is a natural number.
* Mutexes are not modelled: every method below is one atomic step, which is what
  the `lock_guard` in each of them provides.
* `uv_async_send` is modelled by a counter of the calls made on the handle.
* `std::map<const string, T>` is an association list kept in strictly ascending
  key order; iteration over the map is iteration over the list.
* `millis()` is an explicit argument `now`.
* An access `workers[x]` outside the vector or a `take` from an empty queue is
  undefined behaviour in the source; the embedding returns `none` there, as it
  does for an access through a `NULL` pointer and for `CharCopy` of a text whose
  length does not fit the `int` it is passed in.
* A `char*` read as a C string is given by the memory at the pointer; the text is
  what comes before the first NUL (`from_c_str`, `strlen`).
* `http_parser_execute` and libuv are libraries outside the repository: a run of
  the parser is given by the callbacks it makes, and the libuv calls of
  `http_read` and `async_callback` are returned as a list, in the order made.
* The callbacks of the worker pipe (`on_ipc_write`, `on_ipc_read`) act on a
  `WorkerChannel`; the handler lambda of `main` is `main_handler`.
-/

namespace V8Renderer

/-! ## src/components.h : RoundRobin -/

/-- The round robin counter. The member `tmp` is scratch storage that `get`
overwrites before reading it, so it is not part of the state. The fields are
`int` in the source; they start at `0` (`robin`) and at a vector size (`limit`)
and `robin` is only incremented or reset to `0`. They are held as natural numbers
here, which is exact as long as `robin` stays within `int`, that is at most
`2147483647`: the increment of `get` at that value overflows in the source. -/
structure RoundRobin where
  robin : Nat
  limit : Nat
deriving DecidableEq, Repr

namespace RoundRobin

/-- The constructor followed by `set_limit(_limit)`, as done by `Balancer::Balancer`. -/
def init (_limit : Nat) : RoundRobin := { robin := 0, limit := _limit }

/-- `void set_limit(int _limit)`. -/
def set_limit (r : RoundRobin) (_limit : Nat) : RoundRobin := { r with limit := _limit }

/-- `int get()`: `if(robin == limit) robin = 0; tmp = robin; robin ++; return tmp;`.
Returns the value read and the cursor afterwards. -/
def get (r : RoundRobin) : Nat × RoundRobin :=
  let robin := if r.robin = r.limit then 0 else r.robin
  (robin, { r with robin := robin + 1 })

/-- The cursor states that a cursor of limit `n` takes: the fresh one and every
state after a call of `get`. -/
inductive Reachable (n : Nat) : RoundRobin → Prop
  | fresh : Reachable n (init n)
  | get (r : RoundRobin) : Reachable n r → Reachable n r.get.2

/-- The cursor after `n` further calls of `get`. -/
def advance : Nat → RoundRobin → RoundRobin
  | 0, r => r
  | n + 1, r => advance n r.get.2

/-- The values returned by `n` successive calls of `get`, first call first. -/
def reads : Nat → RoundRobin → List Nat
  | 0, _ => []
  | n + 1, r => r.get.1 :: reads n r.get.2

end RoundRobin

/-! ## src/components.h : TQueue -/

/-- The synchronized queue `TQueue<T>`: the underlying `std::queue` (front of the
queue first) and the separate counter `_count`. -/
structure TQueue (T : Type) where
  items : List T
  _count : Nat
deriving DecidableEq, Repr

namespace TQueue

variable {T : Type}

/-- The queue of a `Balancer` with static storage: no element, counter zero. -/
def empty : TQueue T := { items := [], _count := 0 }

/-- `void push(T const& _data)`: `queue<T>::push(_data); _count++;`. -/
def push (q : TQueue T) (_data : T) : TQueue T :=
  { items := q.items ++ [_data], _count := q._count + 1 }

/-- `int count()`. -/
def count (q : TQueue T) : Nat := q._count

/-- `T& take()`: `front()`, `pop()`, `_count --`. The value read through the
returned reference is the element that was at the front. -/
def take (q : TQueue T) : Option (T × TQueue T) :=
  match q.items with
  | [] => none
  | x :: rest => some (x, { items := rest, _count := q._count - 1 })

end TQueue

/-! ## src/hello-world.cc : BalancerWorker -/

/-- A request handle (`typedef HttpData* balancer_job`). -/
abbrev balancer_job := Nat

/-- The part of `BalancerWorker` that `process`, `isWorking` and `reset` touch.
`current_job` is the `job_binder*` (`none` is `NULL`), identified with the job the
binder carries in `binder->data`; `async_write_data` is `async_write.data`;
`async_sends` counts the calls `uv_async_send(&async_write)`. -/
structure BalancerWorker where
  current_job : Option balancer_job
  async_write_data : Option balancer_job
  async_sends : Nat
deriving DecidableEq, Repr

namespace BalancerWorker

/-- `BalancerWorker(const char* _socket_path)`: `current_job = NULL`. -/
def init : BalancerWorker :=
  { current_job := none, async_write_data := none, async_sends := 0 }

/-- `bool process(balancer_job job)`. -/
def process (w : BalancerWorker) (job : balancer_job) : Bool × BalancerWorker :=
  match w.current_job with
  | some _ => (false, w)
  | none =>
    (true, { current_job := some job
             async_write_data := some job
             async_sends := w.async_sends + 1 })

/-- `bool isWorking()`: `return current_job != NULL;`. -/
def isWorking (w : BalancerWorker) : Bool := w.current_job.isSome

/-- `void reset()`: `current_job = NULL;`. -/
def reset (w : BalancerWorker) : BalancerWorker := { w with current_job := none }

end BalancerWorker

/-! ## src/hello-world.cc : Balancer -/

/-- The state of a `Balancer` that `load_balance` and `check_pending_queue` use.
`probes` is a ghost log: the indices `x` of the calls `workers[x]->process(job)`
made so far, oldest first. -/
structure Balancer where
  workers : List BalancerWorker
  pending : TQueue balancer_job
  worker_count : Nat
  robin : RoundRobin
  probes : List Nat
deriving DecidableEq, Repr

namespace Balancer

/-- The balancer after `Balancer(_sockets)` and the start-up loop of `run()` over
`n` socket paths: `n` idle workers, `worker_count = n`, `robin.set_limit(n)`. -/
def init (n : Nat) : Balancer :=
  { workers := List.replicate n BalancerWorker.init
    pending := TQueue.empty
    worker_count := n
    robin := RoundRobin.init n
    probes := [] }

/-- The call `workers[x]->process(job)`; `none` when `x` is outside the vector. -/
def probe (b : Balancer) (x : Nat) (job : balancer_job) : Option (Bool × Balancer) :=
  match b.workers[x]? with
  | none => none
  | some w =>
    let r := w.process job
    some (r.1, { b with workers := b.workers.set x r.2, probes := b.probes ++ [x] })

/-- The loop `for(int i=0; i<worker_count; i++)` of `load_balance` with `n`
iterations left; the result carries the final value of `is_process`. -/
def robin_loop : Nat → Balancer → balancer_job → Option (Bool × Balancer)
  | 0, b, _ => some (false, b)
  | n + 1, b, job =>
    let g := b.robin.get
    match probe { b with robin := g.2 } g.1 job with
    | none => none
    | some (true, b') => some (true, b')
    | some (false, b') => robin_loop n b' job

/-- `void load_balance(balancer_job job)`. -/
def load_balance (b : Balancer) (job : balancer_job) : Option Balancer :=
  if b.worker_count = 1 then
    match probe b 0 job with
    | none => none
    | some (true, b') => some b'
    | some (false, b') => some { b' with pending := b'.pending.push job }
  else
    match robin_loop b.worker_count b job with
    | none => none
    | some (true, b') => some b'
    | some (false, b') => some { b' with pending := b'.pending.push job }

/-- The loop `for(int i=0; i<count; i++) bal->load_balance(pending->take());` of
`check_pending_queue` with `n` iterations left. -/
def drain_loop : Nat → Balancer → Option Balancer
  | 0, b => some b
  | n + 1, b =>
    match b.pending.take with
    | none => none
    | some (job, q) =>
      match load_balance { b with pending := q } job with
      | none => none
      | some b' => drain_loop n b'

/-- `static void check_pending_queue (uv_timer_t* timer, int status)`. -/
def check_pending_queue (b : Balancer) : Option Balancer :=
  let count := b.pending.count
  if count = 0 then some b else drain_loop count b

/-- The reply of worker `i`: `on_ipc_read` ends with `w->reset()`. -/
def reply (b : Balancer) (i : Nat) : Balancer :=
  match b.workers[i]? with
  | none => b
  | some w => { b with workers := b.workers.set i w.reset }

/-- Worker `x` exists and its slot holds a job. -/
def busy (b : Balancer) (x : Nat) : Bool :=
  match b.workers[x]? with
  | none => false
  | some w => w.isWorking

/-- The worker that `process(job)` leaves behind when it succeeds on `w`. -/
def assigned (w : BalancerWorker) (job : balancer_job) : BalancerWorker :=
  { current_job := some job, async_write_data := some job, async_sends := w.async_sends + 1 }

/-- The consistency of the counters of a balancer built by `init` and driven by
`load_balance`, `check_pending_queue` and `reply`: `worker_count` and the cursor
limit are the number of workers, the cursor has not passed its limit, and the
queue counter is the queue length. -/
def WF (b : Balancer) : Prop :=
  b.worker_count = b.workers.length ∧ b.robin.limit = b.workers.length ∧
  b.robin.robin ≤ b.robin.limit ∧ b.pending._count = b.pending.items.length

/-- The number of workers whose slot is empty. -/
def idle_count (b : Balancer) : Nat := b.workers.countP (fun w => !w.isWorking)

/-- The handles held in worker slots, in worker order. -/
def held (b : Balancer) : List balancer_job :=
  b.workers.filterMap BalancerWorker.current_job

/-- Every place a handle can be in: the worker slots, then the pending queue. -/
def places (b : Balancer) : List balancer_job := b.held ++ b.pending.items

/-- The steps of the balancer: a submission of a request that is held nowhere
(`load_balance` called by the HTTP handler), a run of the pending timer
(`check_pending_queue`), and the reply of a busy worker (`reset` at the end of
`on_ipc_read`). -/
inductive Step : Balancer → Balancer → Prop
  | submit (b b' : Balancer) (job : balancer_job) :
      job ∉ b.places → load_balance b job = some b' → Step b b'
  | drain (b b' : Balancer) : check_pending_queue b = some b' → Step b b'
  | reply (b : Balancer) (i : Nat) : b.busy i = true → Step b (b.reply i)

/-- The balancer states reached from the initial state of a pool of `n` workers. -/
inductive Reachable (n : Nat) : Balancer → Prop
  | init : Reachable n (init n)
  | step (b b' : Balancer) : Reachable n b → Step b b' → Reachable n b'

end Balancer

/-! ## std::string and std::map -/

/-- A `std::string`: a sequence of `char`. Comparison of two strings
(`std::less<string>`) is lexicographic on the characters. -/
abbrev string := List Char

/-- `static const string CRLF = "\r\n";` (src/common_functions.h). -/
def CRLF : string := "\r\n".data

/-- The terminator of a C string. -/
def NUL : Char := Char.ofNat 0

/-- The text that a `char*` denotes as a C string, `mem` being the memory at the
pointer: the characters before the first NUL. This is the `std::string` that the
conversion `string(const char*)` builds and the text that `operator<<` writes for a
`char*`. For `s.c_str()` the memory is the text of `s` followed by a NUL, so the
text of `s` can be passed for `mem`. -/
def from_c_str (mem : string) : string := mem.takeWhile (fun c => c ≠ NUL)

/-- `strlen(x)`, `mem` being the memory at `x`. -/
def strlen (mem : string) : Nat := (from_c_str mem).length

/-- The `int` that a `size_t` value becomes when it is passed for an `int`
parameter: its low 32 bits, read in two's complement. -/
def to_int (n : Nat) : Int :=
  if n % 4294967296 < 2147483648 then Int.ofNat (n % 4294967296)
  else Int.ofNat (n % 4294967296) - 4294967296

/-- `CharCopy(const char* x, int len)`: `buf = malloc(len); memcpy(buf, x, len);
buf[len] = 0; return buf;`. The result is the block of `len` bytes at `buf`. The
NUL is stored in the byte that follows the block, which is not part of it: a read
of `buf` as a C string finds the block and then whatever that byte holds at the
time of the read. `none` stands for the fault of a negative `len`: `malloc` is then
asked for more than the address space and returns `NULL`, to which `memcpy`
writes. -/
def CharCopy_len (x : string) (len : Int) : Option string :=
  if len < 0 then none else some (x.take len.toNat)

/-- `CharCopy(const char* x)`: `return CharCopy(x, strlen(x));`, the `size_t` of
`strlen` being passed for the `int len`. -/
def CharCopy (x : string) : Option string := CharCopy_len x (to_int (strlen x))

/-- The text that `operator<<` writes for an `int` in decimal. -/
def dec : Int → string
  | Int.ofNat m => Nat.toDigits 10 m
  | Int.negSucc m => '-' :: Nat.toDigits 10 (m + 1)

/-- The text that `operator<<` writes after `std::hex` for a non-negative value:
lowercase digits, no prefix, no leading zero. -/
def hex (n : Nat) : string := Nat.toDigits 16 n

namespace StdMap

variable {K V : Type} [LinearOrder K]

/-- `map::insert(pair(k, v))`: the pair is added at its place in the key order
when no element has key `k`; otherwise the map is left as it is. -/
def insert : List (K × V) → K → V → List (K × V)
  | [], k, v => [(k, v)]
  | (k', v') :: rest, k, v =>
    if k < k' then (k, v) :: (k', v') :: rest
    else if k' < k then (k', v') :: insert rest k v
    else (k', v') :: rest

/-- `map::find(k)`, as the mapped value of the element found (`none` is `end()`). -/
def find : List (K × V) → K → Option V
  | [], _ => none
  | (k', v') :: rest, k =>
    if k < k' then none
    else if k' < k then find rest k
    else some v'

/-- `map::erase(k)`. -/
def erase : List (K × V) → K → List (K × V)
  | [], _ => []
  | (k', v') :: rest, k =>
    if k < k' then (k', v') :: rest
    else if k' < k then (k', v') :: erase rest k
    else rest

/-- `map::count(k)`: the number of elements with key `k`. -/
def count (m : List (K × V)) (k : K) : Nat := m.countP (fun e => e.1 = k)

/-- The representation invariant of a `std::map`: keys strictly ascending. -/
def WF (m : List (K × V)) : Prop := m.Pairwise (fun a b => a.1 < b.1)

end StdMap

/-! ## src/components.h : cache_entry_t and cache_map -/

/-- `struct cache_entry_t`: `long start; long timeout; string data;`. -/
structure cache_entry_t where
  start : Int
  timeout : Int
  data : string
deriving DecidableEq, Repr

namespace cache_entry_t

/-- `cache_entry_t(const string& _data, long _timeout)`, `now` being `millis()`. -/
def new (_data : string) (_timeout : Int) (now : Int) : cache_entry_t :=
  { start := now, timeout := _timeout, data := _data }

/-- `bool isExpired()`: `return (millis() - start) > timeout;`. -/
def isExpired (e : cache_entry_t) (now : Int) : Bool := decide (now - e.start > e.timeout)

end cache_entry_t

/-- `typedef map<const string, cache_entry> cache_storage;`, the `_map` of a
`cache_map`. -/
abbrev cache_map := List (string × cache_entry_t)

namespace cache_map

/-- `cache_map()`: an empty map. -/
def new : cache_map := []

/-- `string add(const string &key, const string &value, const long timeout)` at
time `now`: `_map->insert(cache_pair(key, make_unique<cache_entry_t>(value, timeout)))`. -/
def add (m : cache_map) (key value : string) (timeout : Int) (now : Int) :
    string × cache_map :=
  (value, StdMap.insert m key (cache_entry_t.new value timeout now))

/-- `int count(const string &key)`. -/
def count (m : cache_map) (key : string) : Nat := StdMap.count m key

/-- `string* get(const string &key)` at time `now`; `none` is `NULL`. -/
def get (m : cache_map) (key : string) (now : Int) : Option string × cache_map :=
  match StdMap.find m key with
  | some entry =>
    if entry.isExpired now then (none, StdMap.erase m key)
    else (some entry.data, m)
  | none => (none, m)

end cache_map

/-! ## src/httpserver.h : _HttpData -/

/-- The request and response record `_HttpData`. `resBuf` is the block of memory
at `resBuf.base` (`none` for `NULL`) and `resBuf_len` is `resBuf.len`; `async_sends`
counts the calls `uv_async_send(&async)`; `server` tells whether the `void* server`
points to the server (`false` for `NULL`); `response_header` is the
`map<const string, const string>`. -/
structure HttpData where
  resBuf : Option string
  resBuf_len : Nat
  server : Bool
  async_sends : Nat
  request_url : string
  request_body : string
  request_method : string
  response_status : Int
  complete : Bool
  response_header : List (string × string)
deriving DecidableEq, Repr

namespace HttpData

/-- `_HttpData()`: `complete = false`, an empty header map,
`resBuf = {.base = NULL, .len = 0}`. The constructor leaves `response_status`
uninitialised; `status` stands for the value found there. It does not set `server`
either, which `http_on_connect` does at once. -/
def new (status : Int) : HttpData :=
  { resBuf := none, resBuf_len := 0, server := false
    async_sends := 0, request_url := [], request_body := []
    request_method := [], response_status := status, complete := false
    response_header := [] }

/-- `parser::on_message_complete`: `wrapper->complete = true;`. -/
def on_message_complete (d : HttpData) : HttpData := { d with complete := true }

/-- `void setResponseHeader (const string key, const string val)`:
`response_header->insert({ key, val });`. -/
def setResponseHeader (d : HttpData) (key val : string) : HttpData :=
  { d with response_header := StdMap.insert d.response_header key val }

/-- `void setResponseStatus(int status)`. -/
def setResponseStatus (d : HttpData) (status : Int) : HttpData :=
  { d with response_status := status }

/-- The text `header.first << ": " << header.second << CRLF` of one header. -/
def header_line (header : string × string) : string :=
  header.1 ++ ": ".data ++ header.2 ++ CRLF

/-- `isChunked` of `sendResponse`: `response_header->count("Transfer-Encoding")
&& (*response_header)["Transfer-Encoding"] == "chunked"`. -/
def isChunked (d : HttpData) : Bool :=
  decide (StdMap.count d.response_header "Transfer-Encoding".data ≠ 0) &&
    decide (StdMap.find d.response_header "Transfer-Encoding".data = some "chunked".data)

/-- The text accumulated in the `ostringstream ss` of `sendResponse(str)`. The
length is held in an `int` and written after `std::hex`, which prints its 32-bit
pattern. -/
def response_stream (d : HttpData) (str : string) : string :=
  let len := str.length % 4294967296
  let ss := "HTTP/1.1 ".data ++ dec d.response_status ++ " OK".data ++ CRLF
  let ss := d.response_header.foldl (fun ss header => ss ++ header_line header) ss
  let ss := ss ++ CRLF
  let ss := if d.isChunked then ss ++ hex len ++ CRLF ++ str ++ CRLF else ss ++ str
  if d.isChunked then ss ++ "0".data ++ CRLF ++ CRLF else ss

/-- `void sendResponse(string str)`: nothing before `complete`; otherwise
`resBuf.base = CharCopy(ss.str().c_str())`, `resBuf.len = strlen(resBuf.base)`, and
the wake handle is sent. The `strlen` follows the copy directly, so the byte after
the block is the NUL that `CharCopy` has just stored. `none` is the fault of
`CharCopy`. -/
def sendResponse (d : HttpData) (str : string) : Option HttpData :=
  if !d.complete then some d
  else
    match CharCopy (response_stream d str) with
    | none => none
    | some base =>
      some { d with resBuf := some base
                    resBuf_len := strlen (base ++ [NUL])
                    async_sends := d.async_sends + 1 }

/-- The status line of the response of `d`: `HTTP/1.1`, a space, the code in
decimal, a space, `OK`, CRLF. -/
def status_line (d : HttpData) : string :=
  "HTTP/1.1 ".data ++ dec d.response_status ++ " OK".data ++ CRLF

/-- The header lines of the response of `d`, in the order of iteration of the
header map. -/
def header_lines (d : HttpData) : string :=
  (d.response_header.map header_line).flatten

/-- The part of the stream text of `sendResponse(str)` that follows the blank
line: the body as one chunk and the terminator when `isChunked`, the body as it is
otherwise. -/
def body_part (d : HttpData) (str : string) : string :=
  if d.isChunked then
    hex (str.length % 4294967296) ++ CRLF ++ str ++ CRLF ++ "0".data ++ CRLF ++ CRLF
  else str

/-- The request after the calls `setResponseHeader(name, value)` for the pairs of
`calls`, first pair first. -/
def setResponseHeaders (d : HttpData) (calls : List (string × string)) : HttpData :=
  calls.foldl (fun d c => d.setResponseHeader c.1 c.2) d

/-- The part of `http_on_connect` that touches the record: `new HttpData()`
followed by `wrapper->server = server`. -/
def http_on_connect (status : Int) : HttpData := { new status with server := true }

end HttpData

/-! ## src/parameters.h -/

/-- The engine parameters; the defaults are the values of the source. -/
structure parameters where
  timeout : Int := 2000
  cache_timeout : Int := 400 * 1000
  num_process : Nat := 4
  num_v8_internal_threads : Nat := 1
  enable_cache : Bool := false
deriving DecidableEq, Repr

/-! ## src/httpserver.h : the parser callbacks -/

/-- The calls that `http_parser_execute` makes on the `http_parser_settings` of
`parser::get_settings`, each with what it passes: for `on_url` the `len` bytes at
`at`, for `on_headers_complete` the text of `http_method_str`, for `on_body` the
memory at `at` (the body bytes and what follows them) and `len`. The parser itself
is a library outside the repository; a run of it is given by the calls it makes
and by the number of bytes it reports as parsed. -/
inductive parser_callback where
  | on_url (url : string)
  | on_header_field
  | on_header_value
  | on_headers_complete (method : string)
  | on_body (mem : string) (len : Nat)
  | on_message_complete
deriving DecidableEq, Repr

/-- One run of `http_parser_execute`: the callbacks in the order of the calls, and
the return value `parsed`. -/
structure parser_run where
  callbacks : List parser_callback
  parsed : Int
deriving DecidableEq, Repr

namespace parser_callback

/-- The effect of one callback of namespace `parser` on the record in
`parser->data`. `on_url` stores `string(at, len)`; `on_body` does
`wrapper->request_body << at` when `(int) len > -1`, which writes the C string at
`at`, whatever `len` is. -/
def apply (wrapper : HttpData) : parser_callback → HttpData
  | on_url url => { wrapper with request_url := url }
  | on_header_field => wrapper
  | on_header_value => wrapper
  | on_headers_complete method => { wrapper with request_method := method }
  | on_body mem len =>
    if to_int len > -1 then
      { wrapper with request_body := wrapper.request_body ++ from_c_str mem }
    else wrapper
  | on_message_complete => wrapper.on_message_complete

end parser_callback

/-! ## src/components.h : cacheable -/

/-- `struct cacheable`: the `map<const string, const bool>` of the URLs that may
be cached. -/
abbrev cacheable := List (string × Bool)

namespace cacheable

/-- The effect of `add` for one argument: `_map->insert({arg, true})`. -/
def add (m : cacheable) (arg : string) : cacheable := StdMap.insert m arg true

/-- `bool is_cache(const string &key)`: `!(_map->find(key) == _map->end())`. -/
def is_cache (m : cacheable) (key : string) : Bool := (StdMap.find m key).isSome

end cacheable

/-! ## src/httpserver.h : HttpServer, http_read, async_callback -/

/-- The members of `HttpServer` that `http_read` and `async_callback` use. -/
structure HttpServer where
  cache : cache_map
  cache_url : cacheable
deriving DecidableEq, Repr

/-- The calls by which `http_read` and `async_callback` act on the outside: the
dispatch callback (`send_to_lambda`, with the record as it is handed over), and
the libuv calls on the handles of the record. For `uv_write` the buffer is given
by its `base` and `len` at the call. -/
inductive uv_call where
  | send_to_lambda (wrapper : HttpData)
  | uv_async_init
  | free_async_handle
  | uv_write (base : Option string) (len : Nat)
  | uv_close
deriving DecidableEq, Repr

namespace uv_call

/-- The call is an invocation of the dispatch callback. -/
def is_dispatch : uv_call → Bool
  | send_to_lambda _ => true
  | _ => false

/-- The call is a `uv_write`. -/
def is_write : uv_call → Bool
  | uv_write _ _ => true
  | _ => false

end uv_call

namespace HttpServer

/-- `HttpServer(_callback)` with the cacheable set as filled before `listen`: an
empty cache. -/
def new (cache_url : cacheable) : HttpServer :=
  { cache := cache_map.new, cache_url := cache_url }

/-- `static void http_read(uv_stream_t* tcp, ssize_t nread, const uv_buf_t* buf)`
on the record `wrapper = tcp->data`, with the run of the parser on the bytes read
and the time `now`. Returns the server, the record and the calls made, in order.
`none` stands for a fault: the access `server->settings` when `wrapper->server` is
`NULL`, and the fault of `CharCopy` on the cached text. -/
def http_read (p : parameters) (server : HttpServer) (wrapper : HttpData) (nread : Int)
    (run : parser_run) (now : Int) : Option (HttpServer × HttpData × List uv_call) :=
  if nread ≥ 0 then
    if !wrapper.server then none
    else
      let wrapper := run.callbacks.foldl parser_callback.apply wrapper
      let closing := if run.parsed < nread then [uv_call.uv_close] else []
      if p.enable_cache then
        let from_cache := server.cache.get wrapper.request_url now
        match from_cache.1 with
        | some bytes =>
          match CharCopy bytes with
          | none => none
          | some base =>
            let wrapper := { wrapper with resBuf := some base
                                          resBuf_len := bytes.length
                                          server := false }
            some ({ server with cache := from_cache.2 }, wrapper,
              closing ++ [uv_call.uv_write wrapper.resBuf wrapper.resBuf_len])
        | none => some ({ server with cache := from_cache.2 }, wrapper, closing)
      else
        some (server, wrapper,
          closing ++ [uv_call.uv_async_init, uv_call.send_to_lambda wrapper])
  else
    some (server, wrapper, [uv_call.uv_close])

/-- `static void async_callback(uv_async_t *handle)` on the record
`wrapper = handle->data` at time `now`. The argument `wrapper->resBuf.base` of
`cache.add` is a `char*` turned into a `string`: the block at `resBuf.base` and the
bytes that lie `behind` it in memory when the callback runs, up to the first NUL.
`uv_write` is given `resBuf` itself, base and length. `none` stands for the
undefined behaviour of a `NULL` in `resBuf.base` or in `wrapper->server`. -/
def async_callback (p : parameters) (server : HttpServer) (wrapper : HttpData)
    (behind : string) (now : Int) : Option (HttpServer × List uv_call) :=
  if wrapper.complete then
    if p.enable_cache then
      if !wrapper.server then none
      else if server.cache_url.is_cache wrapper.request_url then
        match wrapper.resBuf with
        | none => none
        | some base =>
          some ({ server with
                  cache := (server.cache.add wrapper.request_url (from_c_str (base ++ behind))
                    p.cache_timeout now).2 },
            [uv_call.free_async_handle, uv_call.uv_write wrapper.resBuf wrapper.resBuf_len])
      else
        some (server,
          [uv_call.free_async_handle, uv_call.uv_write wrapper.resBuf wrapper.resBuf_len])
    else
      some (server,
        [uv_call.free_async_handle, uv_call.uv_write wrapper.resBuf wrapper.resBuf_len])
  else
    some (server, [uv_call.free_async_handle, uv_call.uv_close])

/-- The steps of the server on its cache: a read on some connection and a wake-up
for some record. -/
inductive Step (p : parameters) : HttpServer → HttpServer → Prop
  | http_read (s s' : HttpServer) (wrapper wrapper' : HttpData) (nread : Int)
      (run : parser_run) (now : Int) (calls : List uv_call) :
      http_read p s wrapper nread run now = some (s', wrapper', calls) → Step p s s'
  | async_callback (s s' : HttpServer) (wrapper : HttpData) (behind : string) (now : Int)
      (calls : List uv_call) :
      async_callback p s wrapper behind now = some (s', calls) → Step p s s'

/-- The server states reached from an empty cache with the cacheable set
`cache_url`. -/
inductive Reachable (p : parameters) (cache_url : cacheable) : HttpServer → Prop
  | init : Reachable p cache_url (new cache_url)
  | step (s s' : HttpServer) : Reachable p cache_url s → Step p s s' →
      Reachable p cache_url s'

end HttpServer

/-! ## src/hello-world.cc : the callbacks of the worker pipe -/

/-- A worker together with its pipe. `pipe_closed` tells whether `uv_close` has been
called on the pipe; `delivered` is a ghost log of the calls
`data->sendResponse(body)` made by `on_ipc_read`, each with the job in the slot
whose record `data` is, oldest first. -/
structure WorkerChannel where
  worker : BalancerWorker
  pipe_closed : Bool
  delivered : List (balancer_job × string)
deriving DecidableEq, Repr

namespace WorkerChannel

/-- A worker after `run()` has opened its pipe. -/
def new : WorkerChannel :=
  { worker := BalancerWorker.init, pipe_closed := false, delivered := [] }

/-- The call `process(job)` on the worker of the channel. -/
def process (c : WorkerChannel) (job : balancer_job) : Bool × WorkerChannel :=
  ((c.worker.process job).1, { c with worker := (c.worker.process job).2 })

/-- `static void on_ipc_write(uv_write_t* req, int status)`: on an error the pipe
is closed, otherwise reading is started. -/
def on_ipc_write (c : WorkerChannel) (status : Int) : WorkerChannel :=
  if status < 0 then { c with pipe_closed := true } else c

/-- `static void on_ipc_read(uv_stream_t* pipe, ssize_t nread, const uv_buf_t* buf)`.
`data` is the record `binder->data` of the job in the slot. The memory at
`buf->base` holds the `nread` bytes received, `reply`, followed by the bytes that
lie `behind` them in the buffer; the argument `buf->base` of `sendResponse` is a
`char*` turned into a `string`, that is this memory up to its first NUL. `none`
stands for the undefined behaviour of `binder == NULL` and for a fault of
`sendResponse`. -/
def on_ipc_read (c : WorkerChannel) (data : HttpData) (nread : Int)
    (reply behind : string) : Option (WorkerChannel × HttpData) :=
  if nread > 0 then
    match c.worker.current_job with
    | none => none
    | some job =>
      match data.sendResponse (from_c_str (reply ++ behind)) with
      | none => none
      | some data' =>
        some ({ c with worker := c.worker.reset
                       delivered := c.delivered ++ [(job, from_c_str (reply ++ behind))] },
          data')
  else
    some ({ c with pipe_closed := true }, data)

/-- What can happen to a worker channel: a `process` call by `load_balance`, the
wake-up `async_pipe_write` (which issues the write of the URL and touches neither
the slot nor the pipe state), the completion of a write, and a read on the pipe.
libuv makes no read callback on a handle after `uv_close`, so a read step needs an
open pipe. -/
inductive Step : WorkerChannel → WorkerChannel → Prop
  | process (c : WorkerChannel) (job : balancer_job) : Step c (c.process job).2
  | async_pipe_write (c : WorkerChannel) : Step c c
  | on_ipc_write (c : WorkerChannel) (status : Int) : Step c (c.on_ipc_write status)
  | on_ipc_read (c c' : WorkerChannel) (data data' : HttpData) (nread : Int)
      (reply behind : string) :
      c.pipe_closed = false → c.on_ipc_read data nread reply behind = some (c', data') →
      Step c c'

/-- The channel states that follow a given one, after any number of steps. -/
inductive Later : WorkerChannel → WorkerChannel → Prop
  | now (c : WorkerChannel) : Later c c
  | step (c c' c'' : WorkerChannel) : Later c c' → Step c' c'' → Later c c''

end WorkerChannel

/-! ## src/hello-world.cc : the handler of main -/

/-- The calls that the handler lambda of `main` makes besides setting status and
headers: `req->sendResponse(body)` and `bal.load_balance(req)`, the latter with
the record as it is handed over. -/
inductive handler_call where
  | sendResponse (body : string)
  | load_balance (req : HttpData)
deriving DecidableEq, Repr

namespace handler_call

/-- The call is `bal.load_balance(req)`. -/
def is_load_balance : handler_call → Bool
  | load_balance _ => true
  | _ => false

/-- The call is `req->sendResponse(body)`. -/
def is_sendResponse : handler_call → Bool
  | sendResponse _ => true
  | _ => false

end handler_call

/-- The lambda that `main` passes to `HttpServer`: the record afterwards (`none`
when `sendResponse` faults) and the calls made, in order. -/
def main_handler (req : HttpData) : Option HttpData × List handler_call :=
  let req := req.setResponseStatus 200
  let req := req.setResponseHeader "Connection".data "keep-alive".data
  let req := req.setResponseHeader "Transfer-Encoding".data "chunked".data
  if req.request_url = "/favicon.ico".data then
    let req := req.setResponseHeader "Content-Type".data "image/vnd.microsoft.icon".data
    (req.sendResponse " ".data, [handler_call.sendResponse " ".data])
  else
    let req := req.setResponseHeader "Content-Type".data "text/html".data
    (some req, [handler_call.load_balance req])

/-! ## Sequences of submissions -/

namespace Balancer

/-- The calls `load_balance(job)` for the jobs of a list, first job first, with no
other step in between. -/
def load_balance_all : Balancer → List balancer_job → Option Balancer
  | b, [] => some b
  | b, job :: jobs =>
    match load_balance b job with
    | none => none
    | some b' => load_balance_all b' jobs

end Balancer

/-! ## Properties of the round robin cursor -/

namespace RoundRobin

theorem get_limit (r : RoundRobin) : r.get.2.limit = r.limit := rfl

theorem get_robin (r : RoundRobin) : r.get.2.robin = r.get.1 + 1 := rfl

theorem get_lt (r : RoundRobin) (h : r.robin ≤ r.limit) (hpos : 0 < r.limit) :
    r.get.1 < r.limit := by
  unfold get
  by_cases e : r.robin = r.limit
  · simp [e, hpos]
  · simp only [e, if_false]; omega

theorem get_get (r : RoundRobin) (h : r.robin ≤ r.limit) (hpos : 0 < r.limit) :
    r.get.2.get.1 = (r.get.1 + 1) % r.limit := by
  have hlt := get_lt r h hpos
  show (if r.get.2.robin = r.get.2.limit then 0 else r.get.2.robin) = _
  rw [get_robin, get_limit]
  by_cases e : r.get.1 + 1 = r.limit
  · simp [e]
  · rw [if_neg e, Nat.mod_eq_of_lt (by omega)]

theorem reachable_inv {n : Nat} {r : RoundRobin} (hn : 0 < n) (h : Reachable n r) :
    r.limit = n ∧ r.robin ≤ r.limit := by
  induction h with
  | fresh => exact ⟨rfl, Nat.zero_le _⟩
  | get r _ ih =>
    obtain ⟨h1, h2⟩ := ih
    refine ⟨by rw [get_limit, h1], ?_⟩
    rw [get_robin, get_limit]
    have := get_lt r h2 (by omega)
    omega

theorem advance_limit (n : Nat) (r : RoundRobin) : (advance n r).limit = r.limit := by
  induction n generalizing r with
  | zero => rfl
  | succ n ih => rw [advance, ih, get_limit]

theorem advance_le (n : Nat) (r : RoundRobin) (h : r.robin ≤ r.limit) (hpos : 0 < r.limit) :
    (advance n r).robin ≤ r.limit := by
  induction n generalizing r with
  | zero => exact h
  | succ n ih =>
    rw [advance]
    have := get_lt r h hpos
    have h2 := ih r.get.2 (by rw [get_robin, get_limit]; omega) (by rw [get_limit]; exact hpos)
    rw [get_limit] at h2
    exact h2

theorem reads_length (n : Nat) (r : RoundRobin) : (reads n r).length = n := by
  induction n generalizing r with
  | zero => rfl
  | succ n ih => simp [reads, ih]

theorem reads_eq (n : Nat) (r : RoundRobin) (h : r.robin ≤ r.limit) (hpos : 0 < r.limit) :
    reads n r = (List.range n).map (fun i => (r.get.1 + i) % r.limit) := by
  induction n generalizing r with
  | zero => rfl
  | succ n ih =>
    have hlt := get_lt r h hpos
    rw [reads, ih r.get.2 (by rw [get_robin, get_limit]; omega) (by rw [get_limit]; exact hpos),
      List.range_succ_eq_map, List.map_cons, List.map_map, get_limit, get_get r h hpos]
    congr 1
    · simp [Nat.mod_eq_of_lt hlt]
    · apply List.map_congr_left
      intro i _
      simp only [Function.comp, Nat.mod_add_mod]
      congr 1
      omega

end RoundRobin

/-! ## Properties of the worker selection -/

namespace Balancer

theorem set_self {α : Type} (l : List α) (x : Nat) (a : α) (h : l[x]? = some a) :
    l.set x a = l := by
  induction l generalizing x with
  | nil => rfl
  | cons y ys ih =>
    cases x with
    | zero => simp at h; simp [h]
    | succ x => simp at h; simp [ih x h]

theorem busy_iff (b : Balancer) (x : Nat) :
    b.busy x = true ↔ ∃ w, b.workers[x]? = some w ∧ w.current_job ≠ none := by
  unfold busy
  cases hw : b.workers[x]? with
  | none => simp
  | some w => cases hc : w.current_job <;> simp [BalancerWorker.isWorking, hc]

theorem not_busy (b : Balancer) (x : Nat) (hx : x < b.workers.length)
    (h : ¬ b.busy x = true) : ∃ w, b.workers[x]? = some w ∧ w.current_job = none := by
  refine ⟨b.workers[x], List.getElem?_eq_getElem hx, ?_⟩
  by_contra hc
  exact h ((busy_iff b x).2 ⟨_, List.getElem?_eq_getElem hx, hc⟩)

theorem probe_busy (b : Balancer) (x : Nat) (job : balancer_job) (h : b.busy x = true) :
    probe b x job = some (false, { b with probes := b.probes ++ [x] }) := by
  obtain ⟨w, hw, hc⟩ := (busy_iff b x).1 h
  obtain ⟨j, hj⟩ := Option.ne_none_iff_exists'.1 hc
  have hp : w.process job = (false, w) := by simp [BalancerWorker.process, hj]
  simp [probe, hw, hp, set_self _ _ _ hw]

theorem probe_idle (b : Balancer) (x : Nat) (job : balancer_job) (w : BalancerWorker)
    (hw : b.workers[x]? = some w) (hc : w.current_job = none) :
    probe b x job = some (true, { b with workers := b.workers.set x (assigned w job)
                                         probes := b.probes ++ [x] }) := by
  have hp : w.process job = (true, assigned w job) := by
    simp [BalancerWorker.process, hc, assigned]
  simp [probe, hw, hp]

/-- When every worker that the next `n` reads of the cursor select is busy, the
loop probes all of them, in that order, and ends with `is_process = false`. -/
theorem robin_loop_all_busy (n : Nat) (b : Balancer) (job : balancer_job)
    (h : ∀ x ∈ RoundRobin.reads n b.robin, b.busy x = true) :
    robin_loop n b job =
      some (false, { b with robin := RoundRobin.advance n b.robin
                            probes := b.probes ++ RoundRobin.reads n b.robin }) := by
  induction n generalizing b with
  | zero => simp [robin_loop, RoundRobin.advance, RoundRobin.reads]
  | succ n ih =>
    have h0 : b.busy b.robin.get.1 = true := h _ (by simp [RoundRobin.reads])
    have hp := probe_busy { b with robin := b.robin.get.2 } b.robin.get.1 job h0
    simp only [robin_loop, hp]
    rw [ih]
    · simp [RoundRobin.advance, RoundRobin.reads]
    · intro x hx
      exact h x (by simp [RoundRobin.reads]; exact Or.inr hx)

/-- When the next reads of the cursor select busy workers `pre` and then the idle
worker `x`, the loop probes `pre` and `x`, assigns the job to `x` and stops. -/
theorem robin_loop_first_idle (pre post : List Nat) (x n : Nat) (b : Balancer)
    (job : balancer_job) (w : BalancerWorker)
    (hr : RoundRobin.reads n b.robin = pre ++ x :: post)
    (hpre : ∀ y ∈ pre, b.busy y = true)
    (hw : b.workers[x]? = some w) (hc : w.current_job = none) :
    robin_loop n b job =
      some (true, { b with robin := RoundRobin.advance (pre.length + 1) b.robin
                           workers := b.workers.set x (assigned w job)
                           probes := b.probes ++ (pre ++ [x]) }) := by
  induction pre generalizing n b with
  | nil =>
    cases n with
    | zero => simp [RoundRobin.reads] at hr
    | succ n =>
      simp only [RoundRobin.reads, List.nil_append, List.cons.injEq] at hr
      have hp := probe_idle { b with robin := b.robin.get.2 } b.robin.get.1 job w
        (by rw [hr.1]; exact hw) hc
      simp only [robin_loop, hp]
      simp [RoundRobin.advance, hr.1]
  | cons p pre ih =>
    cases n with
    | zero => simp [RoundRobin.reads] at hr
    | succ n =>
      simp only [RoundRobin.reads, List.cons_append, List.cons.injEq] at hr
      have h0 : b.busy b.robin.get.1 = true := by rw [hr.1]; exact hpre p (by simp)
      have hp := probe_busy { b with robin := b.robin.get.2 } b.robin.get.1 job h0
      simp only [robin_loop, hp]
      rw [ih n { b with robin := b.robin.get.2, probes := b.probes ++ [b.robin.get.1] } hr.2
        (fun y hy => hpre y (by simp [hy])) hw]
      simp [RoundRobin.advance, hr.1]

/-- A list of worker indices consists of busy workers only, or splits at its first
worker that is not busy. -/
theorem first_not_busy (b : Balancer) (xs : List Nat) :
    (∀ x ∈ xs, b.busy x = true) ∨
    ∃ pre x post, xs = pre ++ x :: post ∧ (∀ y ∈ pre, b.busy y = true) ∧ ¬ b.busy x = true := by
  induction xs with
  | nil => left; simp
  | cons a xs ih =>
    by_cases ha : b.busy a = true
    · rcases ih with h | ⟨pre, x, post, h1, h2, h3⟩
      · left; intro x hx
        rcases List.mem_cons.1 hx with rfl | hx
        · exact ha
        · exact h x hx
      · right
        refine ⟨a :: pre, x, post, by simp [h1], ?_, h3⟩
        intro y hy
        rcases List.mem_cons.1 hy with rfl | hy
        · exact ha
        · exact h2 y hy
    · right; exact ⟨[], a, xs, rfl, by simp, ha⟩

/-- The cyclic order `c, c+1, ..., c+n-1 (mod n)` visits every index below `n`. -/
theorem mem_cyclic (n c j : Nat) (hc : c < n) (hj : j < n) :
    j ∈ (List.range n).map (fun i => (c + i) % n) := by
  rw [List.mem_map]
  by_cases h : c ≤ j
  · exact ⟨j - c, List.mem_range.2 (by omega), by
      show (c + (j - c)) % n = j
      rw [Nat.add_sub_cancel' h, Nat.mod_eq_of_lt hj]⟩
  · refine ⟨j + n - c, List.mem_range.2 (by omega), ?_⟩
    show (c + (j + n - c)) % n = j
    have : c + (j + n - c) = j + n := by omega
    rw [this, Nat.add_mod_right, Nat.mod_eq_of_lt hj]

theorem range_split (n k : Nat) (hk : k < n) :
    List.range n = List.range k ++ k :: List.drop (k + 1) (List.range n) := by
  have h1 := (List.take_append_drop k (List.range n)).symm
  rw [List.take_range, Nat.min_eq_left (Nat.le_of_lt hk),
    List.drop_eq_getElem_cons (by simpa using hk), List.getElem_range] at h1
  exact h1

theorem load_balance_loop_all_busy (b : Balancer) (job : balancer_job)
    (h1 : b.worker_count ≠ 1)
    (h : ∀ x ∈ RoundRobin.reads b.worker_count b.robin, b.busy x = true) :
    load_balance b job =
      some { b with robin := RoundRobin.advance b.worker_count b.robin
                    pending := b.pending.push job
                    probes := b.probes ++ RoundRobin.reads b.worker_count b.robin } := by
  simp [load_balance, h1, robin_loop_all_busy _ b job h]

theorem load_balance_loop_first_idle (pre post : List Nat) (x : Nat) (b : Balancer)
    (job : balancer_job) (w : BalancerWorker) (h1 : b.worker_count ≠ 1)
    (hr : RoundRobin.reads b.worker_count b.robin = pre ++ x :: post)
    (hpre : ∀ y ∈ pre, b.busy y = true)
    (hw : b.workers[x]? = some w) (hc : w.current_job = none) :
    load_balance b job =
      some { b with robin := RoundRobin.advance (pre.length + 1) b.robin
                    workers := b.workers.set x (assigned w job)
                    probes := b.probes ++ (pre ++ [x]) } := by
  simp [load_balance, h1, robin_loop_first_idle pre post x _ b job w hr hpre hw hc]

/-- The two outcomes of `load_balance` on a balancer whose counters are consistent:
the job goes to one idle worker, or every worker is busy and the job is pushed on
the pending queue. Only the cursor and the probe log change besides. -/
theorem load_balance_cases (b : Balancer) (job : balancer_job)
    (hcnt : b.worker_count = b.workers.length) (hlim : b.robin.limit = b.workers.length)
    (hrob : b.robin.robin ≤ b.robin.limit) :
    (∃ x w r p, b.workers[x]? = some w ∧ w.current_job = none ∧
        r.limit = b.robin.limit ∧ r.robin ≤ r.limit ∧
        load_balance b job =
          some { b with workers := b.workers.set x (assigned w job), robin := r, probes := p }) ∨
    ((∀ w ∈ b.workers, w.isWorking = true) ∧ ∃ r p,
        r.limit = b.robin.limit ∧ r.robin ≤ r.limit ∧
        load_balance b job =
          some { b with pending := b.pending.push job, robin := r, probes := p }) := by
  by_cases h1 : b.worker_count = 1
  · -- a single worker: `workers[0]->process(job)`
    have hlen : 0 < b.workers.length := by omega
    by_cases hb : b.busy 0 = true
    · right
      refine ⟨?_, b.robin, b.probes ++ [0], rfl, hrob, ?_⟩
      · intro w hw
        obtain ⟨i, hi⟩ := List.mem_iff_getElem?.1 hw
        have hi0 : i = 0 := by
          have := (List.getElem?_eq_some.1 hi).1
          omega
        subst hi0
        obtain ⟨w', hw', hc'⟩ := (busy_iff b 0).1 hb
        rw [hi] at hw'
        cases hw'
        cases hc : w.current_job with
        | none => exact absurd hc hc'
        | some j => simp [BalancerWorker.isWorking, hc]
      · simp [load_balance, h1, probe_busy b 0 job hb]
    · left
      obtain ⟨w, hw, hc⟩ := not_busy b 0 hlen hb
      exact ⟨0, w, b.robin, b.probes ++ [0], hw, hc, rfl, hrob, by
        simp [load_balance, h1, probe_idle b 0 job w hw hc]⟩
  · by_cases h0 : b.workers.length = 0
    · right
      have hnil : b.workers = [] := List.length_eq_zero.1 h0
      refine ⟨by simp [hnil], b.robin, b.probes, rfl, hrob, ?_⟩
      have hz : b.worker_count = 0 := by omega
      simp [load_balance, hz, robin_loop]
    · have hpos : 0 < b.robin.limit := by omega
      rcases first_not_busy b (RoundRobin.reads b.worker_count b.robin) with h | h
      · right
        refine ⟨?_, _, _, ?_, ?_, load_balance_loop_all_busy b job h1 h⟩
        · intro w hw
          obtain ⟨i, hi⟩ := List.mem_iff_getElem?.1 hw
          have hil : i < b.workers.length := (List.getElem?_eq_some.1 hi).1
          have hmem : i ∈ RoundRobin.reads b.worker_count b.robin := by
            rw [RoundRobin.reads_eq _ _ hrob hpos, hcnt, hlim]
            exact mem_cyclic _ _ _ (by
              have := RoundRobin.get_lt b.robin hrob hpos
              omega) hil
          obtain ⟨w', hw', hc'⟩ := (busy_iff b i).1 (h i hmem)
          rw [hi] at hw'
          cases hw'
          cases hc : w.current_job with
          | none => exact absurd hc hc'
          | some j => simp [BalancerWorker.isWorking, hc]
        · exact RoundRobin.advance_limit _ _
        · rw [RoundRobin.advance_limit]
          exact RoundRobin.advance_le _ _ hrob hpos
      · left
        obtain ⟨pre, x, post, hsplit, hpre, hx⟩ := h
        have hxmem : x ∈ RoundRobin.reads b.worker_count b.robin := by
          rw [hsplit]; simp
        have hxl : x < b.workers.length := by
          rw [RoundRobin.reads_eq _ _ hrob hpos, List.mem_map] at hxmem
          obtain ⟨i, _, hi⟩ := hxmem
          rw [← hi, ← hlim]
          exact Nat.mod_lt _ hpos
        obtain ⟨w, hw, hc⟩ := not_busy b x hxl hx
        refine ⟨x, w, _, _, hw, hc, ?_, ?_,
          load_balance_loop_first_idle pre post x b job w h1 hsplit hpre hw hc⟩
        · exact RoundRobin.advance_limit _ _
        · rw [RoundRobin.advance_limit]
          exact RoundRobin.advance_le _ _ hrob hpos

/-- C1: in a pool of `N ≥ 2` workers with cursor limit `N`, `load_balance(job)`
probes the workers `c, c+1, ..., c+N-1 (mod N)` in this order, `c` being the next
value of the cursor, and stops at the first idle one: if the worker at position `k`
of that order is idle and those before it are busy, exactly the first `k + 1`
workers of the order are probed, the job is put in the slot of that worker and in
no other, and the pending queue is untouched; if all `N` are busy, all `N` are
probed, no worker is changed, and the job is appended at the tail of the pending
queue: the queue afterwards holds the elements it held, in their order, followed by
the job, and its counter is one more. -/
theorem load_balance_cyclic_order (b : Balancer) (job : balancer_job) (N : Nat)
    (hN : 2 ≤ N) (hw : b.workers.length = N) (hc : b.worker_count = N)
    (hr : RoundRobin.Reachable N b.robin) :
    (∀ (k : Nat) (w : BalancerWorker), k < N →
        (∀ i, i < k → b.busy ((b.robin.get.1 + i) % N) = true) →
        b.workers[(b.robin.get.1 + k) % N]? = some w → w.current_job = none →
        load_balance b job = some
          { b with
            robin := RoundRobin.advance (k + 1) b.robin
            workers := b.workers.set ((b.robin.get.1 + k) % N) (assigned w job)
            probes := b.probes ++ (List.range (k + 1)).map (fun i => (b.robin.get.1 + i) % N) }) ∧
    ((∀ i, i < N → b.busy ((b.robin.get.1 + i) % N) = true) →
        load_balance b job = some
          { b with
            robin := RoundRobin.advance N b.robin
            pending := { items := b.pending.items ++ [job], _count := b.pending._count + 1 }
            probes := b.probes ++ (List.range N).map (fun i => (b.robin.get.1 + i) % N) }) := by
  obtain ⟨hlim, hrob⟩ := RoundRobin.reachable_inv (by omega) hr
  have hpos : 0 < b.robin.limit := by omega
  have h1 : b.worker_count ≠ 1 := by omega
  have hreads : RoundRobin.reads b.worker_count b.robin =
      (List.range N).map (fun i => (b.robin.get.1 + i) % N) := by
    rw [RoundRobin.reads_eq _ _ hrob hpos, hc, hlim]
  constructor
  · intro k w hk hbusy hwk hidle
    have hsplit := hreads
    rw [range_split N k hk, List.map_append, List.map_cons] at hsplit
    rw [load_balance_loop_first_idle _ _ _ b job w h1 hsplit ?_ hwk hidle]
    · simp [List.range_succ]
    · intro y hy
      obtain ⟨i, hi, rfl⟩ := List.mem_map.1 hy
      exact hbusy i (List.mem_range.1 hi)
  · intro hbusy
    rw [load_balance_loop_all_busy b job h1 ?_]
    · rw [hreads, hc]
      rfl
    · intro x hx
      rw [hreads] at hx
      obtain ⟨i, hi, rfl⟩ := List.mem_map.1 hx
      exact hbusy i (List.mem_range.1 hi)

/-- C1 on three workers, the cursor having been read once (next value 1). With
worker 1 busy with job 5 and workers 0 and 2 idle, job 9 is offered to worker 1,
then to worker 2, which takes it; worker 0 is not probed. With all three workers
busy and job 4 waiting in the queue, job 9 is offered to workers 1, 2 and 0, and
then stands in the queue behind job 4. -/
theorem load_balance_cyclic_order_witness :
    load_balance
      { workers := [BalancerWorker.init, BalancerWorker.mk (some 5) (some 5) 1, BalancerWorker.init]
        pending := TQueue.empty, worker_count := 3
        robin := (RoundRobin.init 3).get.2, probes := [] } 9 =
    some
      { workers := [BalancerWorker.init, BalancerWorker.mk (some 5) (some 5) 1,
          BalancerWorker.mk (some 9) (some 9) 1]
        pending := TQueue.empty, worker_count := 3
        robin := { robin := 3, limit := 3 }, probes := [1, 2] } ∧
    load_balance
      { workers := [BalancerWorker.mk (some 6) (some 6) 1, BalancerWorker.mk (some 5) (some 5) 1,
          BalancerWorker.mk (some 7) (some 7) 1]
        pending := { items := [4], _count := 1 }, worker_count := 3
        robin := (RoundRobin.init 3).get.2, probes := [] } 9 =
    some
      { workers := [BalancerWorker.mk (some 6) (some 6) 1, BalancerWorker.mk (some 5) (some 5) 1,
          BalancerWorker.mk (some 7) (some 7) 1]
        pending := { items := [4, 9], _count := 2 }, worker_count := 3
        robin := { robin := 1, limit := 3 }, probes := [1, 2, 0] } :=
  ⟨(load_balance_cyclic_order
      { workers := [BalancerWorker.init, BalancerWorker.mk (some 5) (some 5) 1, BalancerWorker.init]
        pending := TQueue.empty, worker_count := 3
        robin := (RoundRobin.init 3).get.2, probes := [] } 9 3 (by decide) rfl rfl
      (RoundRobin.Reachable.get _ RoundRobin.Reachable.fresh)).1 1 BalancerWorker.init
    (by decide) (by decide) rfl rfl,
   (load_balance_cyclic_order
      { workers := [BalancerWorker.mk (some 6) (some 6) 1, BalancerWorker.mk (some 5) (some 5) 1,
          BalancerWorker.mk (some 7) (some 7) 1]
        pending := { items := [4], _count := 1 }, worker_count := 3
        robin := (RoundRobin.init 3).get.2, probes := [] } 9 3 (by decide) rfl rfl
      (RoundRobin.Reachable.get _ RoundRobin.Reachable.fresh)).2 (by decide)⟩

/-- C2: in a pool of `N ≥ 1` workers with cursor limit `N` and a cursor state
reached by calls of `get`, `load_balance(job)` returns, and it appends the job to
the pending queue exactly when every worker is busy (the workers are then
unchanged); otherwise the pending queue is unchanged and exactly one worker, idle
before, now holds the job. With a single worker the job goes to worker 0 when it is
idle and to the pending queue when it is busy. -/
theorem load_balance_idle_or_pending (b : Balancer) (job : balancer_job) (N : Nat)
    (hN : 1 ≤ N) (hw : b.workers.length = N) (hc : b.worker_count = N)
    (hr : RoundRobin.Reachable N b.robin) :
    ∃ b', load_balance b job = some b' ∧
      (b'.pending.items = b.pending.items ++ [job] ↔ ∀ w ∈ b.workers, w.isWorking = true) ∧
      ((∀ w ∈ b.workers, w.isWorking = true) →
        b'.workers = b.workers ∧ b'.pending = b.pending.push job) ∧
      ((¬ ∀ w ∈ b.workers, w.isWorking = true) →
        b'.pending = b.pending ∧
        ∃ x w, b.workers[x]? = some w ∧ w.isWorking = false ∧
          b'.workers = b.workers.set x (assigned w job) ∧
          b'.workers[x]? = some (assigned w job) ∧ (assigned w job).current_job = some job) ∧
      (N = 1 → ∀ w0, b.workers = [w0] →
        (w0.isWorking = false → b'.workers = [assigned w0 job] ∧ b'.pending = b.pending) ∧
        (w0.isWorking = true → b'.workers = [w0] ∧ b'.pending = b.pending.push job)) := by
  obtain ⟨hlim, hrob⟩ := RoundRobin.reachable_inv (by omega) hr
  rcases load_balance_cases b job (by omega) (by omega) hrob with
    ⟨x, w, r, p, hx, hidle, -, -, hlb⟩ | ⟨hall, r, p, -, -, hlb⟩
  · have hnw : w.isWorking = false := by simp [BalancerWorker.isWorking, hidle]
    have hnot : ¬ ∀ w ∈ b.workers, w.isWorking = true := by
      intro hall
      have := hall w (List.mem_iff_getElem?.2 ⟨x, hx⟩)
      rw [hnw] at this
      exact Bool.false_ne_true this
    have hxl : x < b.workers.length := (List.getElem?_eq_some.1 hx).1
    refine ⟨_, hlb, ?_, ?_, ?_, ?_⟩
    · constructor
      · intro h
        simp at h
      · intro h; exact absurd h hnot
    · intro h; exact absurd h hnot
    · intro _
      exact ⟨rfl, x, w, hx, hnw, rfl, by simp [hxl], rfl⟩
    · intro _ w0 hw0
      have hx0 : x = 0 := by
        rw [hw0] at hxl
        simpa using hxl
      subst hx0
      have hww : w = w0 := by
        rw [hw0] at hx
        simpa using hx.symm
      subst hww
      constructor
      · intro _
        exact ⟨by simp [hw0], rfl⟩
      · intro h
        rw [hnw] at h
        exact absurd h Bool.false_ne_true
  · refine ⟨_, hlb, ?_, ?_, ?_, ?_⟩
    · constructor
      · intro _; exact hall
      · intro _; rfl
    · intro _; exact ⟨rfl, rfl⟩
    · intro h; exact absurd hall h
    · intro _ w0 hw0
      constructor
      · intro h
        have := hall w0 (by simp [hw0])
        rw [h] at this
        exact absurd this Bool.false_ne_true
      · intro _
        exact ⟨hw0, rfl⟩

/-- C2 on a single busy worker: the job is appended to the pending queue. -/
theorem load_balance_idle_or_pending_witness :
    ∃ b', load_balance
        { workers := [BalancerWorker.mk (some 5) (some 5) 1]
          pending := { items := [4], _count := 1 }, worker_count := 1
          robin := RoundRobin.init 1, probes := [] } 9 = some b' ∧
      b'.workers = [BalancerWorker.mk (some 5) (some 5) 1] ∧
      b'.pending = { items := [4, 9], _count := 2 } := by
  obtain ⟨b', h1, -, h2, -, -⟩ := load_balance_idle_or_pending
    { workers := [BalancerWorker.mk (some 5) (some 5) 1]
      pending := { items := [4], _count := 1 }, worker_count := 1
      robin := RoundRobin.init 1, probes := [] } 9 1 (by decide) rfl rfl
    RoundRobin.Reachable.fresh
  exact ⟨b', h1, h2 (by decide)⟩

/-! ### Where a request handle is -/

theorem held_set_assigned (ws : List BalancerWorker) (x : Nat) (w : BalancerWorker)
    (job : balancer_job) (hx : ws[x]? = some w) (hc : w.current_job = none) :
    List.Perm ((ws.set x (assigned w job)).filterMap BalancerWorker.current_job)
      (job :: ws.filterMap BalancerWorker.current_job) := by
  induction ws generalizing x with
  | nil => simp at hx
  | cons y ys ih =>
    cases x with
    | zero =>
      simp at hx
      subst hx
      simp [List.filterMap_cons, hc, assigned]
    | succ x =>
      simp at hx
      simp only [List.set_cons_succ, List.filterMap_cons]
      cases hy : y.current_job with
      | none => exact ih x hx
      | some j =>
        exact ((ih x hx).cons j).trans (List.Perm.swap job j _)

theorem held_set_reset (ws : List BalancerWorker) (x : Nat) (w : BalancerWorker)
    (j : balancer_job) (hx : ws[x]? = some w) (hc : w.current_job = some j) :
    List.Perm (ws.filterMap BalancerWorker.current_job)
      (j :: (ws.set x w.reset).filterMap BalancerWorker.current_job) := by
  induction ws generalizing x with
  | nil => simp at hx
  | cons y ys ih =>
    cases x with
    | zero =>
      simp at hx
      subst hx
      simp [List.filterMap_cons, hc, BalancerWorker.reset]
    | succ x =>
      simp at hx
      simp only [List.set_cons_succ, List.filterMap_cons]
      cases hy : y.current_job with
      | none => exact ih x hx
      | some k =>
        exact ((ih x hx).cons k).trans (List.Perm.swap j k _)

/-- On a consistent balancer `load_balance` returns a consistent balancer in which
the job has been added to the places, and the pending queue has not shrunk. -/
theorem load_balance_places (b : Balancer) (job : balancer_job) (h : b.WF) :
    ∃ b', load_balance b job = some b' ∧ b'.WF ∧
      List.Perm b'.places (job :: b.places) ∧
      b.pending.items.length ≤ b'.pending.items.length := by
  obtain ⟨hcnt, hlim, hrob, hq⟩ := h
  rcases load_balance_cases b job hcnt hlim hrob with
    ⟨x, w, r, p, hx, hidle, hrl, hrr, hlb⟩ | ⟨-, r, p, hrl, hrr, hlb⟩
  · refine ⟨_, hlb, ⟨?_, ?_, hrr, hq⟩, ?_, Nat.le_refl _⟩
    · simpa using hcnt
    · simpa [hrl] using hlim
    · exact (held_set_assigned b.workers x w job hx hidle).append_right _
  · refine ⟨_, hlb, ⟨hcnt, by simpa [hrl] using hlim, hrr, ?_⟩, ?_, ?_⟩
    · simp [TQueue.push, hq]
    · show List.Perm (b.held ++ (b.pending.items ++ [job])) (job :: (b.held ++ b.pending.items))
      rw [← List.append_assoc]
      exact List.perm_append_singleton _ _
    · simp [TQueue.push]

/-- The drain loop over at most as many iterations as there are pending jobs
returns, and it moves handles without adding or losing one. -/
theorem drain_loop_places (n : Nat) (b : Balancer) (h : b.WF)
    (hn : n ≤ b.pending.items.length) :
    ∃ b', drain_loop n b = some b' ∧ b'.WF ∧ List.Perm b'.places b.places := by
  induction n generalizing b with
  | zero => exact ⟨b, rfl, h, List.Perm.refl _⟩
  | succ n ih =>
    obtain ⟨hcnt, hlim, hrob, hq⟩ := h
    cases hi : b.pending.items with
    | nil => rw [hi] at hn; simp at hn
    | cons j rest =>
      have htake : b.pending.take = some (j, { items := rest, _count := b.pending._count - 1 }) := by
        simp [TQueue.take, hi]
      have hwf : ({ b with pending := { items := rest, _count := b.pending._count - 1 } } :
          Balancer).WF := by
        refine ⟨hcnt, hlim, hrob, ?_⟩
        show b.pending._count - 1 = rest.length
        rw [hq, hi]; simp
      obtain ⟨b1, hlb, hwf1, hperm1, hlen1⟩ := load_balance_places _ j hwf
      have hn1 : n ≤ b1.pending.items.length := by
        have : rest.length ≤ b1.pending.items.length := hlen1
        rw [hi] at hn
        simp at hn
        omega
      obtain ⟨b2, hd, hwf2, hperm2⟩ := ih b1 hwf1 hn1
      refine ⟨b2, ?_, hwf2, hperm2.trans (hperm1.trans ?_)⟩
      · simp [drain_loop, htake, hlb, hd]
      · show List.Perm (j :: (b.held ++ rest)) (b.held ++ b.pending.items)
        rw [hi]
        exact List.perm_middle.symm

theorem check_pending_queue_places (b : Balancer) (h : b.WF) :
    ∃ b', check_pending_queue b = some b' ∧ b'.WF ∧ List.Perm b'.places b.places := by
  unfold check_pending_queue
  by_cases hz : b.pending.count = 0
  · exact ⟨b, by simp [hz], h, List.Perm.refl _⟩
  · simp only [hz, if_false]
    exact drain_loop_places _ b h (by
      have := h.2.2.2
      simp [TQueue.count, this])

theorem reply_places (b : Balancer) (i : Nat) (h : b.WF) (hb : b.busy i = true) :
    (b.reply i).WF ∧ ∃ j, List.Perm b.places (j :: (b.reply i).places) := by
  obtain ⟨w, hw, hc⟩ := (busy_iff b i).1 hb
  obtain ⟨j, hj⟩ := Option.ne_none_iff_exists'.1 hc
  obtain ⟨hcnt, hlim, hrob, hq⟩ := h
  have hr : b.reply i = { b with workers := b.workers.set i w.reset } := by
    simp [reply, hw]
  rw [hr]
  refine ⟨⟨by simpa using hcnt, by simpa using hlim, hrob, hq⟩, j, ?_⟩
  exact (held_set_reset b.workers i w j hw hj).append_right _

theorem init_WF (n : Nat) : (init n).WF := by
  simp [WF, init, RoundRobin.init, TQueue.empty]

theorem init_places (n : Nat) : (init n).places = [] := by
  have : ∀ m, (List.replicate m BalancerWorker.init).filterMap BalancerWorker.current_job = [] := by
    intro m
    induction m with
    | zero => rfl
    | succ m ih => simp [List.replicate_succ, List.filterMap_cons, BalancerWorker.init, ih]
  simp [places, held, init, TQueue.empty, this]

theorem reachable_inv_places {n : Nat} {b : Balancer} (h : Reachable n b) :
    b.WF ∧ b.places.Nodup := by
  induction h with
  | init => exact ⟨init_WF n, by rw [init_places]; exact List.nodup_nil⟩
  | step b b' _ hstep ih =>
    obtain ⟨hwf, hnd⟩ := ih
    cases hstep with
    | submit _ job hfresh hlb =>
      obtain ⟨b1, hlb1, hwf1, hperm, -⟩ := load_balance_places b job hwf
      rw [hlb] at hlb1
      cases hlb1
      exact ⟨hwf1, (hperm.nodup_iff).2 (List.nodup_cons.2 ⟨hfresh, hnd⟩)⟩
    | drain _ hd =>
      obtain ⟨b1, hd1, hwf1, hperm⟩ := check_pending_queue_places b hwf
      rw [hd] at hd1
      cases hd1
      exact ⟨hwf1, (hperm.nodup_iff).2 hnd⟩
    | reply i hb =>
      obtain ⟨hwf1, j, hperm⟩ := reply_places b i hwf hb
      exact ⟨hwf1, (List.nodup_cons.1 ((hperm.nodup_iff).1 hnd)).2⟩

/-- C4: in every balancer state reached from the initial state (all workers idle,
pending queue empty) by submissions of requests held nowhere, runs of
`check_pending_queue` and replies of busy workers, every request handle is in at
most one place: no two worker slots hold the same handle, no handle is twice in
the pending queue, and no handle is both in a worker slot and in the pending
queue. In such a state `load_balance` and `check_pending_queue` always return. -/
theorem reachable_single_place (n : Nat) (b : Balancer) (h : Reachable n b) :
    (b.held ++ b.pending.items).Nodup ∧
    b.held.Nodup ∧ b.pending.items.Nodup ∧ (∀ j ∈ b.held, j ∉ b.pending.items) ∧
    (∀ job, ∃ b', load_balance b job = some b') ∧
    (∃ b', check_pending_queue b = some b') := by
  obtain ⟨hwf, hnd⟩ := reachable_inv_places h
  have hnd' : (b.held ++ b.pending.items).Nodup := hnd
  obtain ⟨h1, h2, h3⟩ := List.nodup_append.1 hnd'
  refine ⟨hnd', h1, h2, fun j hj hq => h3 hj hq, ?_, ?_⟩
  · intro job
    obtain ⟨b', hlb, -⟩ := load_balance_places b job hwf
    exact ⟨b', hlb⟩
  · obtain ⟨b', hd, -⟩ := check_pending_queue_places b hwf
    exact ⟨b', hd⟩

/-- C4 on one worker after the submissions of the requests 7 and 8: request 7 is
in the slot of worker 0, request 8 in the pending queue, and neither is anywhere
else. -/
theorem reachable_single_place_witness :
    (Balancer.held
        { workers := [BalancerWorker.mk (some 7) (some 7) 1]
          pending := { items := [8], _count := 1 }, worker_count := 1
          robin := RoundRobin.init 1, probes := [0, 0] } ++ [8]).Nodup :=
  (reachable_single_place 1
    { workers := [BalancerWorker.mk (some 7) (some 7) 1]
      pending := { items := [8], _count := 1 }, worker_count := 1
      robin := RoundRobin.init 1, probes := [0, 0] }
    (Reachable.step _ _
      (Reachable.step (init 1)
        { workers := [BalancerWorker.mk (some 7) (some 7) 1]
          pending := TQueue.empty, worker_count := 1
          robin := RoundRobin.init 1, probes := [0] }
        Reachable.init
        (Step.submit _ _ 7 (by decide) (by decide)))
      (Step.submit _ _ 8 (by decide) (by decide)))).1

end Balancer

/-! ## Properties of a worker channel -/

/-- C3: `process(job)` returns true exactly when the slot is empty; on success the
slot holds `job` and the wake handle has been sent once more; on failure the worker
is unchanged (same job in the slot, no send). `isWorking` is true exactly when the
slot is non-empty, and after `reset` the slot is empty and the next `process`
succeeds. -/
theorem BalancerWorker.process_contract (w : BalancerWorker) (job : balancer_job) :
    ((w.process job).1 = true ↔ w.current_job = none) ∧
    ((w.process job).1 = true →
      (w.process job).2.current_job = some job ∧
      (w.process job).2.async_sends = w.async_sends + 1) ∧
    ((w.process job).1 = false →
      (w.process job).2 = w ∧ ∃ earlier, (w.process job).2.current_job = some earlier ∧
        w.current_job = some earlier) ∧
    (w.isWorking = true ↔ w.current_job ≠ none) ∧
    w.reset.current_job = none ∧
    (∀ next : balancer_job, (w.reset.process next).1 = true ∧
      (w.reset.process next).2.current_job = some next) := by
  cases w with
  | mk cur d s =>
    cases cur with
    | none => simp [BalancerWorker.process, BalancerWorker.isWorking, BalancerWorker.reset]
    | some j => simp [BalancerWorker.process, BalancerWorker.isWorking, BalancerWorker.reset]

/-- C3 at a busy worker (slot holds 7, sent once) and the job 9: `process` fails
and changes nothing; after `reset` it succeeds with a second send. -/
theorem BalancerWorker.process_contract_witness :
    ((BalancerWorker.mk (some 7) (some 7) 1).process 9).2 = BalancerWorker.mk (some 7) (some 7) 1 ∧
    (((BalancerWorker.mk (some 7) (some 7) 1).reset.process 9).2.current_job = some 9 ∧
      ((BalancerWorker.mk (some 7) (some 7) 1).reset.process 9).2.async_sends = 2) :=
  ⟨((BalancerWorker.process_contract (BalancerWorker.mk (some 7) (some 7) 1) 9).2.2.1
      (by decide)).1,
   (BalancerWorker.process_contract (BalancerWorker.mk (some 7) (some 7) 1).reset 9).2.1
      (by decide)⟩

/-! ## Properties of std::map -/

namespace StdMap

variable {K V : Type} [LinearOrder K]

theorem WF_cons {k : K} {v : V} {m : List (K × V)} :
    WF ((k, v) :: m) ↔ (∀ e ∈ m, k < e.1) ∧ WF m := by
  simp [WF, List.pairwise_cons]

theorem mem_insert {m : List (K × V)} {k : K} {v : V} {e : K × V}
    (h : e ∈ insert m k v) : e = (k, v) ∨ e ∈ m := by
  induction m with
  | nil => simpa [insert] using h
  | cons a rest ih =>
    obtain ⟨k', v'⟩ := a
    unfold insert at h
    split_ifs at h with h1 h2
    · simpa using h
    · rcases List.mem_cons.1 h with h | h
      · right; simp [h]
      · rcases ih h with h | h
        · left; exact h
        · right; exact List.mem_cons_of_mem _ h
    · right; exact h

theorem WF_insert {m : List (K × V)} (k : K) (v : V) (h : WF m) : WF (insert m k v) := by
  induction m with
  | nil => simp [insert, WF]
  | cons a rest ih =>
    obtain ⟨k', v'⟩ := a
    obtain ⟨hlt, hrest⟩ := WF_cons.1 h
    unfold insert
    split_ifs with h1 h2
    · refine WF_cons.2 ⟨?_, h⟩
      intro e he
      rcases List.mem_cons.1 he with rfl | he
      · exact h1
      · exact lt_trans h1 (hlt e he)
    · refine WF_cons.2 ⟨?_, ih hrest⟩
      intro e he
      rcases mem_insert he with rfl | he
      · exact h2
      · exact hlt e he
    · exact h

theorem find_insert_self (m : List (K × V)) (k : K) (v : V) :
    find (insert m k v) k = some ((find m k).getD v) := by
  induction m with
  | nil => simp [insert, find]
  | cons a rest ih =>
    obtain ⟨k', v'⟩ := a
    unfold insert
    split_ifs with h1 h2
    · simp [find, h1]
    · simp [find, h1, h2, ih]
    · simp [find, h1, h2]

theorem insert_of_find_some {m : List (K × V)} {k : K} {e : V} (v : V)
    (h : find m k = some e) : insert m k v = m := by
  induction m with
  | nil => simp [find] at h
  | cons a rest ih =>
    obtain ⟨k', v'⟩ := a
    unfold find at h
    unfold insert
    split_ifs at h ⊢ with h1 h2
    · rw [ih h]
    · rfl

theorem find_none_of_lt {m : List (K × V)} {k : K} (h : ∀ e ∈ m, k < e.1) :
    find m k = none := by
  cases m with
  | nil => rfl
  | cons a rest =>
    obtain ⟨k', v'⟩ := a
    have : k < k' := h (k', v') (by simp)
    simp [find, this]

theorem count_zero_of_lt {m : List (K × V)} {k : K} (h : ∀ e ∈ m, k < e.1) :
    count m k = 0 := by
  unfold count
  rw [List.countP_eq_zero]
  intro e he
  have := h e he
  simpa using (ne_of_gt this)

theorem count_eq (m : List (K × V)) (k : K) (h : WF m) :
    count m k = if (find m k).isSome then 1 else 0 := by
  induction m with
  | nil => simp [count, find]
  | cons a rest ih =>
    obtain ⟨k', v'⟩ := a
    obtain ⟨hlt, hrest⟩ := WF_cons.1 h
    have hc : count ((k', v') :: rest) k = count rest k + if k' = k then 1 else 0 := by
      unfold count
      rw [List.countP_cons]
      simp
    rw [hc]
    rcases lt_trichotomy k k' with hk | hk | hk
    · have hne : ¬ k' = k := ne_of_gt hk
      rw [count_zero_of_lt (fun e he => lt_trans hk (hlt e he))]
      simp [find, hk, hne]
    · subst hk
      rw [count_zero_of_lt hlt]
      simp [find]
    · have hne : ¬ k' = k := ne_of_lt hk
      have hnl : ¬ k < k' := not_lt_of_gt hk
      rw [ih hrest]
      simp [find, hk, hnl, hne]

theorem erase_of_find_none {m : List (K × V)} {k : K} (h : find m k = none) :
    erase m k = m := by
  induction m with
  | nil => rfl
  | cons a rest ih =>
    obtain ⟨k', v'⟩ := a
    unfold find at h
    unfold erase
    split_ifs at h ⊢ with h1 h2
    · rfl
    · rw [ih h]

theorem mem_erase {m : List (K × V)} {k : K} {e : K × V} (h : e ∈ erase m k) : e ∈ m := by
  induction m with
  | nil => simp [erase] at h
  | cons a rest ih =>
    obtain ⟨k', v'⟩ := a
    unfold erase at h
    split_ifs at h with h1 h2
    · exact h
    · rcases List.mem_cons.1 h with h | h
      · simp [h]
      · exact List.mem_cons_of_mem _ (ih h)
    · exact List.mem_cons_of_mem _ h

theorem WF_erase {m : List (K × V)} (k : K) (h : WF m) : WF (erase m k) := by
  induction m with
  | nil => simpa [erase] using h
  | cons a rest ih =>
    obtain ⟨k', v'⟩ := a
    obtain ⟨hlt, hrest⟩ := WF_cons.1 h
    unfold erase
    split_ifs with h1 h2
    · exact h
    · exact WF_cons.2 ⟨fun e he => hlt e (mem_erase he), ih hrest⟩
    · exact hrest

/-- On a well-formed map `erase(k)` removes the element with key `k` and keeps
every other element, in order. -/
theorem erase_eq_filter {m : List (K × V)} (k : K) (h : WF m) :
    erase m k = m.filter (fun e => decide (e.1 ≠ k)) := by
  induction m with
  | nil => rfl
  | cons a rest ih =>
    obtain ⟨k', v'⟩ := a
    obtain ⟨hlt, hrest⟩ := WF_cons.1 h
    have hkeep : ∀ k0 : K, (∀ e ∈ rest, k0 < e.1) →
        rest.filter (fun e => decide (e.1 ≠ k0)) = rest := by
      intro k0 h0
      rw [List.filter_eq_self]
      intro e he
      simpa using ne_of_gt (h0 e he)
    unfold erase
    rcases lt_trichotomy k k' with hk | hk | hk
    · have hne : ¬ k' = k := ne_of_gt hk
      rw [if_pos hk, List.filter_cons_of_pos (by simpa using hne),
        hkeep k (fun e he => lt_trans hk (hlt e he))]
    · subst hk
      rw [if_neg (lt_irrefl _), if_neg (lt_irrefl _),
        List.filter_cons_of_neg (by simp), hkeep k hlt]
    · have hne : ¬ k' = k := ne_of_lt hk
      rw [if_neg (not_lt_of_gt hk), if_pos hk, List.filter_cons_of_pos (by simpa using hne),
        ih hrest]

theorem find_erase_self {m : List (K × V)} (k : K) (h : WF m) :
    find (erase m k) k = none := by
  induction m with
  | nil => rfl
  | cons a rest ih =>
    obtain ⟨k', v'⟩ := a
    obtain ⟨hlt, hrest⟩ := WF_cons.1 h
    unfold erase
    rcases lt_trichotomy k k' with hk | hk | hk
    · simp [hk, find]
    · subst hk
      simp only [lt_irrefl, if_false]
      exact find_none_of_lt hlt
    · simp [hk, not_lt_of_gt hk, find, ih hrest]

theorem find_erase_ne {m : List (K × V)} {k u : K} (hu : u ≠ k) (h : WF m) :
    find (erase m k) u = find m u := by
  induction m with
  | nil => rfl
  | cons a rest ih =>
    obtain ⟨k', v'⟩ := a
    obtain ⟨hlt, hrest⟩ := WF_cons.1 h
    unfold erase
    rcases lt_trichotomy k k' with hk | hk | hk
    · simp [hk]
    · subst hk
      simp only [lt_irrefl, if_false]
      rcases lt_or_gt_of_ne hu with h1 | h1
      · rw [find_none_of_lt (fun e he => lt_trans h1 (hlt e he))]
        simp [find, h1]
      · simp [find, h1, not_lt_of_gt h1]
    · simp only [hk, not_lt_of_gt hk, if_false, if_true]
      simp [find, ih hrest]

theorem count_erase_self {m : List (K × V)} (k : K) (h : WF m) : count (erase m k) k = 0 := by
  rw [count_eq _ _ (WF_erase k h), find_erase_self k h]
  rfl

end StdMap

/-! ## Properties of the response cache -/

namespace cache_map

/-- C5, counterexample: the cache holds an entry for `/p` with bytes `old`, added
at time 0 with ttl 100. After `add("/p", "new", 100)` at time 10, `get("/p")` at
time 10 returns `old` and not `new`, although `10 - 10 ≤ 100`. -/
theorem add_then_get_counterexample :
    StdMap.WF [("/p".data, cache_entry_t.mk 0 100 "old".data)] ∧
    (10 : Int) ≤ 10 ∧ (10 : Int) - 10 ≤ 100 ∧
    (get (add [("/p".data, cache_entry_t.mk 0 100 "old".data)]
        "/p".data "new".data 100 10).2 "/p".data 10).1 = some "old".data ∧
    (get (add [("/p".data, cache_entry_t.mk 0 100 "old".data)]
        "/p".data "new".data 100 10).2 "/p".data 10).1 ≠ some "new".data := by
  refine ⟨by simp [StdMap.WF], by decide, by decide, by decide, by decide⟩

/-- C5, amended: for a cache that holds no entry for `url`, after
`add(url, b, ttl)` at time `t`, `get(url)` at time `t'` returns `b` if and only if
`t' - t ≤ ttl` and returns `NULL` otherwise. When the cache already holds an
entry for `url`, `add` leaves the cache as it is and `get` answers from that
entry: its bytes if it is unexpired at `t'`, `NULL` otherwise. -/
theorem add_then_get (m : cache_map) (url b : string) (ttl t t' : Int) :
    (StdMap.find m url = none →
      ((get (add m url b ttl t).2 url t').1 = some b ↔ t' - t ≤ ttl) ∧
      (¬ t' - t ≤ ttl → (get (add m url b ttl t).2 url t').1 = none)) ∧
    (∀ e, StdMap.find m url = some e →
      (add m url b ttl t).2 = m ∧
      (get (add m url b ttl t).2 url t').1 =
        if t' - e.start ≤ e.timeout then some e.data else none) := by
  constructor
  · intro hnone
    have hf : StdMap.find (add m url b ttl t).2 url = some (cache_entry_t.new b ttl t) := by
      simp [add, StdMap.find_insert_self, hnone]
    by_cases hle : t' - t ≤ ttl
    · have hex : (cache_entry_t.new b ttl t).isExpired t' = false := by
        simp [cache_entry_t.isExpired, cache_entry_t.new, hle]
      rw [get, hf]
      simp only [hex]
      simp [hle, cache_entry_t.new]
    · have hex : (cache_entry_t.new b ttl t).isExpired t' = true := by
        simp only [cache_entry_t.isExpired, cache_entry_t.new, decide_eq_true_eq]
        omega
      rw [get, hf]
      simp only [hex]
      simp [hle]
  · intro e he
    have hadd : (add m url b ttl t).2 = m := StdMap.insert_of_find_some _ he
    refine ⟨hadd, ?_⟩
    rw [hadd]
    by_cases hle : t' - e.start ≤ e.timeout
    · have hex : e.isExpired t' = false := by
        simp [cache_entry_t.isExpired, hle]
      simp [get, he, hex, hle]
    · have hex : e.isExpired t' = true := by
        simp only [cache_entry_t.isExpired, decide_eq_true_eq]
        omega
      simp [get, he, hex, hle]

/-- C5, amended, on the empty cache: `new` added at time 10 with ttl 100 is
returned at time 110. -/
theorem add_then_get_witness :
    (get (add [] "/p".data "new".data 100 10).2 "/p".data 110).1 = some "new".data :=
  (((add_then_get [] "/p".data "new".data 100 10 110).1 rfl).1).2 (by decide)

/-- C6, counterexample: the cache holds an entry for `/p` (bytes `old`, ttl 100,
inserted at time 0). After `add("/p", "new", 5)` at time 10 the entry for `/p`
is still the old one, not one with the new bytes, the new ttl and insertion
time 10. -/
theorem add_overwrites_counterexample :
    StdMap.find (add [("/p".data, cache_entry_t.mk 0 100 "old".data)]
        "/p".data "new".data 5 10).2 "/p".data = some (cache_entry_t.mk 0 100 "old".data) ∧
    StdMap.find (add [("/p".data, cache_entry_t.mk 0 100 "old".data)]
        "/p".data "new".data 5 10).2 "/p".data ≠ some (cache_entry_t.mk 10 5 "new".data) := by
  refine ⟨by decide, by decide⟩

/-- C6, amended: `add(url, bytes, ttl)` inserts and never overwrites. For a cache
that already holds an entry for `url` (expired or not), `add` leaves the whole
cache unchanged, so the entry keeps its bytes, ttl and insertion time, and the
cache still holds exactly one entry for `url`. For a cache that holds no entry for
`url`, after `add` the entry for `url` holds the new bytes, the new ttl and the
time of the `add` as insertion time, and the cache holds exactly one entry for
`url`. In both cases `add` returns the bytes it was given. -/
theorem add_inserts_if_absent (m : cache_map) (url b : string) (ttl t : Int)
    (hwf : StdMap.WF m) :
    (∀ e, StdMap.find m url = some e →
      (add m url b ttl t).2 = m ∧
      StdMap.find (add m url b ttl t).2 url = some e ∧
      count (add m url b ttl t).2 url = 1) ∧
    (StdMap.find m url = none →
      StdMap.find (add m url b ttl t).2 url =
        some { start := t, timeout := ttl, data := b } ∧
      count (add m url b ttl t).2 url = 1) ∧
    (add m url b ttl t).1 = b ∧ StdMap.WF (add m url b ttl t).2 := by
  have hwf' : StdMap.WF (add m url b ttl t).2 := StdMap.WF_insert _ _ hwf
  refine ⟨?_, ?_, rfl, hwf'⟩
  · intro e he
    have hadd : (add m url b ttl t).2 = m := StdMap.insert_of_find_some _ he
    refine ⟨hadd, by rw [hadd]; exact he, ?_⟩
    rw [hadd, count, StdMap.count_eq _ _ hwf, he]
    rfl
  · intro hnone
    have hf : StdMap.find (add m url b ttl t).2 url = some (cache_entry_t.new b ttl t) := by
      simp [add, StdMap.find_insert_self, hnone]
    refine ⟨hf, ?_⟩
    rw [count, StdMap.count_eq _ _ hwf', hf]
    rfl

/-- C6, amended, on a cache with an entry for `/p`: a second `add` for `/p` changes
nothing. -/
theorem add_inserts_if_absent_witness :
    (add [("/p".data, cache_entry_t.mk 0 100 "old".data)] "/p".data "new".data 5 10).2 =
      [("/p".data, cache_entry_t.mk 0 100 "old".data)] :=
  ((add_inserts_if_absent [("/p".data, cache_entry_t.mk 0 100 "old".data)]
      "/p".data "new".data 5 10 (by simp [StdMap.WF])).1
    (cache_entry_t.mk 0 100 "old".data) (by decide)).1

/-- C7: when the entry of `url` is expired at time `t` (`t - start > timeout`),
`get(url)` returns `NULL` and removes exactly that entry: `count(url)` is 0
afterwards, the elements of the map are the former ones without the one of `url`,
and the lookup of every other URL gives what it gave before. When the entry is
unexpired `get` returns its bytes and leaves the cache unchanged, and when the URL
is absent `get` returns `NULL` and leaves the cache unchanged. -/
theorem get_evicts_expired (m : cache_map) (url : string) (t : Int)
    (hwf : StdMap.WF m) :
    (∀ e, StdMap.find m url = some e → t - e.start > e.timeout →
      (get m url t).1 = none ∧
      count (get m url t).2 url = 0 ∧
      (get m url t).2 = m.filter (fun p => decide (p.1 ≠ url)) ∧
      (∀ u, u ≠ url → StdMap.find (get m url t).2 u = StdMap.find m u) ∧
      (∀ u, u ≠ url → count (get m url t).2 u = count m u)) ∧
    (∀ e, StdMap.find m url = some e → ¬ t - e.start > e.timeout →
      get m url t = (some e.data, m)) ∧
    (StdMap.find m url = none → get m url t = (none, m)) := by
  refine ⟨?_, ?_, ?_⟩
  · intro e he hexp
    have hex : e.isExpired t = true := by
      simp only [cache_entry_t.isExpired, decide_eq_true_eq]
      exact hexp
    have hg : get m url t = (none, StdMap.erase m url) := by
      simp [get, he, hex]
    rw [hg]
    refine ⟨rfl, StdMap.count_erase_self url hwf, ?_, ?_, ?_⟩
    · show StdMap.erase m url = _
      rw [StdMap.erase_eq_filter url hwf]
      congr
      funext p
      congr
    · intro u hu
      exact StdMap.find_erase_ne hu hwf
    · intro u hu
      show StdMap.count (StdMap.erase m url) u = StdMap.count m u
      rw [StdMap.count_eq _ _ (StdMap.WF_erase url hwf), StdMap.count_eq _ _ hwf,
        StdMap.find_erase_ne hu hwf]
  · intro e he hexp
    have hex : e.isExpired t = false := by
      simp only [cache_entry_t.isExpired, decide_eq_false_iff_not]
      exact hexp
    simp [get, he, hex]
  · intro hnone
    simp [get, hnone]

/-- C7 on a cache with the entries of `/a` (inserted at 0 with ttl 50) and `/b`
(inserted at 0 with ttl 500) at time 80: `get("/a")` returns `NULL` and leaves
only the entry of `/b`. -/
theorem get_evicts_expired_witness :
    get [("/a".data, cache_entry_t.mk 0 50 "A".data), ("/b".data, cache_entry_t.mk 0 500 "B".data)]
        "/a".data 80 =
      (none, [("/b".data, cache_entry_t.mk 0 500 "B".data)]) := by
  have h := (get_evicts_expired
    [("/a".data, cache_entry_t.mk 0 50 "A".data), ("/b".data, cache_entry_t.mk 0 500 "B".data)]
    "/a".data 80 (by simp [StdMap.WF]; decide)).1 (cache_entry_t.mk 0 50 "A".data)
    (by decide) (by decide)
  exact Prod.ext h.1 (h.2.2.1.trans (by decide))

end cache_map

/-! ## Properties of the response text -/

theorem from_c_str_append {a : string} (b : string) (h : ∀ c ∈ a, c ≠ NUL) :
    from_c_str (a ++ b) = a ++ from_c_str b := by
  unfold from_c_str
  exact List.takeWhile_append_of_pos (fun c hc => by simpa using h c hc)

theorem from_c_str_self {a : string} (h : ∀ c ∈ a, c ≠ NUL) : from_c_str a = a := by
  unfold from_c_str
  exact List.takeWhile_eq_self_iff.2 (fun c hc => by simpa using h c hc)

theorem from_c_str_ne_NUL (x : string) : ∀ c ∈ from_c_str x, c ≠ NUL := by
  intro c hc
  have := List.mem_takeWhile_imp hc
  simpa using this

theorem from_c_str_idem (x : string) : from_c_str (from_c_str x) = from_c_str x :=
  from_c_str_self (from_c_str_ne_NUL x)

theorem strlen_le (x : string) : strlen x ≤ x.length :=
  (List.takeWhile_prefix _).length_le

/-- The block followed by the NUL that `CharCopy` stores after it reads as the
block. -/
theorem strlen_append_NUL {a : string} (h : ∀ c ∈ a, c ≠ NUL) :
    strlen (a ++ [NUL]) = a.length := by
  unfold strlen
  rw [from_c_str_append _ h]
  simp [from_c_str]

theorem take_length_takeWhile {α : Type} (q : α → Bool) (l : List α) :
    l.take (l.takeWhile q).length = l.takeWhile q := by
  induction l with
  | nil => rfl
  | cons c cs ih =>
    by_cases hc : q c = true
    · simp [List.takeWhile, hc, ih]
    · simp [List.takeWhile, hc]

theorem take_strlen (x : string) : x.take (strlen x) = from_c_str x :=
  take_length_takeWhile _ x

theorem to_int_of_lt {n : Nat} (h : n < 2147483648) : to_int n = Int.ofNat n := by
  unfold to_int
  have h1 : n % 4294967296 = n := Nat.mod_eq_of_lt (by omega)
  rw [h1, if_pos h]

/-- A text whose C string is shorter than `2^31` is copied up to its first NUL. -/
theorem CharCopy_of_lt {x : string} (h : strlen x < 2147483648) :
    CharCopy x = some (from_c_str x) := by
  unfold CharCopy CharCopy_len
  rw [to_int_of_lt h]
  have hn : ¬ (Int.ofNat (strlen x) < 0) := by
    have : (0 : Int) ≤ Int.ofNat (strlen x) := Int.ofNat_nonneg _
    omega
  rw [if_neg hn]
  show some (x.take (strlen x)) = _
  rw [take_strlen]

theorem ite_ne_NUL (p : Prop) [Decidable p] (a b : Char) (ha : a ≠ NUL) (hb : b ≠ NUL) :
    (if p then a else b) ≠ NUL := by
  by_cases h : p
  · rw [if_pos h]; exact ha
  · rw [if_neg h]; exact hb

theorem digitChar_ne_NUL (n : Nat) : Nat.digitChar n ≠ NUL := by
  unfold Nat.digitChar
  repeat' apply ite_ne_NUL
  all_goals decide

theorem toDigitsCore_ne_NUL (base : Nat) (fuel n : Nat) (ds : List Char)
    (h : ∀ c ∈ ds, c ≠ NUL) : ∀ c ∈ Nat.toDigitsCore base fuel n ds, c ≠ NUL := by
  induction fuel generalizing n ds with
  | zero => simpa [Nat.toDigitsCore] using h
  | succ fuel ih =>
    have hcons : ∀ c ∈ Nat.digitChar (n % base) :: ds, c ≠ NUL := by
      intro c hc
      rcases List.mem_cons.1 hc with rfl | hc
      · exact digitChar_ne_NUL _
      · exact h c hc
    unfold Nat.toDigitsCore
    dsimp only
    split_ifs
    · exact hcons
    · exact ih _ _ hcons

theorem toDigits_ne_NUL (base n : Nat) : ∀ c ∈ Nat.toDigits base n, c ≠ NUL :=
  toDigitsCore_ne_NUL base _ n [] (by simp)

theorem dec_ne_NUL (i : Int) : ∀ c ∈ dec i, c ≠ NUL := by
  cases i with
  | ofNat m => exact toDigits_ne_NUL 10 m
  | negSucc m =>
    intro c hc
    rcases List.mem_cons.1 hc with rfl | hc
    · decide
    · exact toDigits_ne_NUL 10 _ c hc

theorem hex_ne_NUL (n : Nat) : ∀ c ∈ hex n, c ≠ NUL := toDigits_ne_NUL 16 n

namespace StdMap

variable {K V : Type} [LinearOrder K]

theorem find_of_mem {m : List (K × V)} {k : K} {v : V} (h : WF m) (hm : (k, v) ∈ m) :
    find m k = some v := by
  induction m with
  | nil => simp at hm
  | cons a rest ih =>
    obtain ⟨k', v'⟩ := a
    obtain ⟨hlt, hrest⟩ := WF_cons.1 h
    rcases List.mem_cons.1 hm with heq | hm
    · cases heq
      simp [find]
    · have hk : k' < k := hlt (k, v) hm
      simp [find, hk, not_lt_of_gt hk, ih hrest hm]

theorem insert_perm {m : List (K × V)} {k : K} (v : V) (h : ∀ e ∈ m, e.1 ≠ k) :
    List.Perm (insert m k v) ((k, v) :: m) := by
  induction m with
  | nil => simp [insert]
  | cons a rest ih =>
    obtain ⟨k', v'⟩ := a
    have hne : k' ≠ k := h (k', v') (by simp)
    unfold insert
    split_ifs with h1 h2
    · exact List.Perm.refl _
    · exact ((ih (fun e he => h e (List.mem_cons_of_mem _ he))).cons (k', v')).trans
        (List.Perm.swap _ _ _)
    · exact absurd (le_antisymm (not_lt.1 h1) (not_lt.1 h2)) hne

/-- Inserting pairs with pairwise distinct keys, none of them in the map, adds
exactly these pairs and keeps the keys in strictly ascending order. -/
theorem foldl_insert (calls : List (K × V)) (m : List (K × V)) (hwf : WF m)
    (hnew : ∀ c ∈ calls, ∀ e ∈ m, e.1 ≠ c.1) (hd : (calls.map Prod.fst).Nodup) :
    List.Perm (calls.foldl (fun m c => insert m c.1 c.2) m) (m ++ calls) ∧
    WF (calls.foldl (fun m c => insert m c.1 c.2) m) := by
  induction calls generalizing m with
  | nil => simpa using hwf
  | cons c cs ih =>
    rw [List.map_cons, List.nodup_cons] at hd
    have hperm := insert_perm c.2 (hnew c (by simp))
    have hnew' : ∀ c' ∈ cs, ∀ e ∈ insert m c.1 c.2, e.1 ≠ c'.1 := by
      intro c' hc' e he
      rcases mem_insert he with rfl | he
      · intro heq
        exact hd.1 (List.mem_map.2 ⟨c', hc', heq.symm⟩)
      · exact hnew c' (List.mem_cons_of_mem _ hc') e he
    obtain ⟨h1, h2⟩ := ih (insert m c.1 c.2) (WF_insert _ _ hwf) hnew' hd.2
    refine ⟨?_, h2⟩
    rw [List.foldl_cons]
    exact h1.trans ((hperm.append_right cs).trans (by simpa using List.perm_middle.symm))

end StdMap

namespace HttpData

theorem foldl_header_line (hs : List (string × string)) (ss : string) :
    hs.foldl (fun ss header => ss ++ header_line header) ss =
      ss ++ (hs.map header_line).flatten := by
  induction hs generalizing ss with
  | nil => simp
  | cons h hs ih => simp [ih, List.append_assoc]

/-- The stream text of `sendResponse` is the status line, the header lines in map
order, the blank line, and the body: framed as one chunk when `isChunked`, as it is
otherwise. -/
theorem response_stream_eq (d : HttpData) (str : string) :
    response_stream d str =
      status_line d ++ header_lines d ++ CRLF ++ body_part d str := by
  unfold response_stream
  simp only [foldl_header_line, status_line, header_lines, body_part]
  by_cases h : d.isChunked = true
  · simp [h, List.append_assoc]
  · simp [h, List.append_assoc]

theorem status_line_ne_NUL (d : HttpData) : ∀ c ∈ status_line d, c ≠ NUL := by
  intro c hc
  simp only [status_line, List.mem_append] at hc
  rcases hc with ((hc | hc) | hc) | hc
  · revert c; decide
  · exact dec_ne_NUL _ c hc
  · revert c; decide
  · revert c; decide

theorem CRLF_ne_NUL : ∀ c ∈ CRLF, c ≠ NUL := by decide

theorem header_lines_ne_NUL (d : HttpData)
    (h : ∀ hd ∈ d.response_header, (∀ c ∈ hd.1, c ≠ NUL) ∧ (∀ c ∈ hd.2, c ≠ NUL)) :
    ∀ c ∈ header_lines d, c ≠ NUL := by
  intro c hc
  simp only [header_lines, List.mem_flatten, List.mem_map] at hc
  obtain ⟨l, ⟨hd, hhd, rfl⟩, hcl⟩ := hc
  simp only [header_line, List.mem_append] at hcl
  rcases hcl with ((hc | hc) | hc) | hc
  · exact (h hd hhd).1 c hc
  · revert c; decide
  · exact (h hd hhd).2 c hc
  · exact CRLF_ne_NUL c hc

theorem isChunked_of_mem (d : HttpData) (hwf : StdMap.WF d.response_header)
    (hm : ("Transfer-Encoding".data, "chunked".data) ∈ d.response_header) :
    d.isChunked = true := by
  have hf := StdMap.find_of_mem hwf hm
  have hc := StdMap.count_eq d.response_header "Transfer-Encoding".data hwf
  rw [hf] at hc
  unfold isChunked
  rw [hf, hc]
  simp

theorem length_le_response_stream (d : HttpData) (str : string) :
    str.length ≤ (response_stream d str).length := by
  rw [response_stream_eq]
  unfold body_part
  split_ifs <;> simp only [List.length_append] <;> omega

/-- On a completed request whose response text, read as a C string, is shorter
than `2^31`, `sendResponse` returns: the block at `resBuf.base` is this C string,
`resBuf.len` its length, and the wake handle is sent once. -/
theorem sendResponse_complete (d : HttpData) (str : string) (hc : d.complete = true)
    (hlen : strlen (response_stream d str) < 2147483648) :
    d.sendResponse str =
      some { d with resBuf := some (from_c_str (response_stream d str))
                    resBuf_len := (from_c_str (response_stream d str)).length
                    async_sends := d.async_sends + 1 } := by
  simp [sendResponse, hc, CharCopy_of_lt hlen, strlen_append_NUL (from_c_str_ne_NUL _)]

/-- The fields that `sendResponse` leaves alone. -/
theorem sendResponse_fields (d d' : HttpData) (str : string)
    (h : d.sendResponse str = some d') :
    d'.complete = d.complete ∧
    d'.response_header = d.response_header ∧
    d'.response_status = d.response_status ∧
    d'.request_url = d.request_url ∧
    d'.server = d.server := by
  unfold sendResponse at h
  by_cases hc : d.complete = true
  · cases hcopy : CharCopy (response_stream d str) with
    | none => simp [hc, hcopy] at h
    | some base =>
      simp only [hc, hcopy, Bool.not_true, Bool.false_eq_true, if_false,
        Option.some.injEq] at h
      subst h
      exact ⟨hc.symm, rfl, rfl, rfl, rfl⟩
  · simp only [hc, Bool.not_eq_true] at h
    have hf : d.complete = false := by simpa using hc
    simp only [hf, Bool.not_false, if_true, Option.some.injEq] at h
    subst h
    exact ⟨rfl, rfl, rfl, rfl, rfl⟩

/-- The response text of a chunked response whose headers and body hold no NUL
and which is shorter than `2^31` is copied whole into `resBuf`. -/
theorem chunked_resBuf (d : HttpData) (body : string)
    (hc : d.complete = true) (hwf : StdMap.WF d.response_header)
    (hm : ("Transfer-Encoding".data, "chunked".data) ∈ d.response_header)
    (hnh : ∀ hd ∈ d.response_header, (∀ c ∈ hd.1, c ≠ NUL) ∧ (∀ c ∈ hd.2, c ≠ NUL))
    (hnb : ∀ c ∈ body, c ≠ NUL)
    (hlen : (response_stream d body).length < 2147483648) :
    d.sendResponse body =
      some { d with
        resBuf := some (status_line d ++ header_lines d ++ CRLF ++
          (hex body.length ++ CRLF ++ body ++ CRLF ++ "0".data ++ CRLF ++ CRLF))
        resBuf_len := (status_line d ++ header_lines d ++ CRLF ++
          (hex body.length ++ CRLF ++ body ++ CRLF ++ "0".data ++ CRLF ++ CRLF)).length
        async_sends := d.async_sends + 1 } := by
  have hb := length_le_response_stream d body
  have hmod : body.length % 4294967296 = body.length := Nat.mod_eq_of_lt (by omega)
  have hT : response_stream d body = status_line d ++ header_lines d ++ CRLF ++
      (hex body.length ++ CRLF ++ body ++ CRLF ++ "0".data ++ CRLF ++ CRLF) := by
    rw [response_stream_eq, body_part, isChunked_of_mem d hwf hm, if_pos rfl, hmod]
  have hnul : ∀ c ∈ status_line d ++ header_lines d ++ CRLF ++
      (hex body.length ++ CRLF ++ body ++ CRLF ++ "0".data ++ CRLF ++ CRLF), c ≠ NUL := by
    intro c hcm
    simp only [List.mem_append] at hcm
    rcases hcm with ((hcm | hcm) | hcm) | hcm
    · exact status_line_ne_NUL d c hcm
    · exact header_lines_ne_NUL d hnh c hcm
    · exact CRLF_ne_NUL c hcm
    · rcases hcm with (((((hcm | hcm) | hcm) | hcm) | hcm) | hcm) | hcm
      · exact hex_ne_NUL _ c hcm
      · exact CRLF_ne_NUL c hcm
      · exact hnb c hcm
      · exact CRLF_ne_NUL c hcm
      · revert c; decide
      · exact CRLF_ne_NUL c hcm
      · exact CRLF_ne_NUL c hcm
  have hs := strlen_le (response_stream d body)
  rw [sendResponse_complete d body hc (by omega), hT, from_c_str_self hnul]

set_option maxRecDepth 20000 in
/-- C8, counterexample: a completed request with status 200 and the single header
`Transfer-Encoding: chunked`, and the three-byte body `a`, NUL, `b`. The bytes
that `sendResponse` leaves in `resBuf` end after `3` CRLF `a`: the rest of the
body, the CRLF after it and the terminator `0` CRLF CRLF are missing. -/
theorem sendResponse_chunked_counterexample :
    ((((HttpData.new 0).on_message_complete.setResponseStatus 200).setResponseHeader
        "Transfer-Encoding".data "chunked".data).sendResponse "a\x00b".data).map
        HttpData.resBuf =
      some (some "HTTP/1.1 200 OK\r\nTransfer-Encoding: chunked\r\n\r\n3\r\na".data) ∧
    ((((HttpData.new 0).on_message_complete.setResponseStatus 200).setResponseHeader
        "Transfer-Encoding".data "chunked".data).sendResponse "a\x00b".data).map
        HttpData.resBuf ≠
      some (some ("HTTP/1.1 200 OK\r\nTransfer-Encoding: chunked\r\n\r\n".data ++
        "3\r\na\x00b\r\n0\r\n\r\n".data)) := by
  refine ⟨by decide, by decide⟩

/-- C8, amended: for every completed request whose response headers contain
`Transfer-Encoding` with value `chunked` and hold no NUL character, and every body
string without NUL character for which the whole response text is shorter than
`2^31` bytes, `sendResponse(body)` returns and the bytes that it leaves in `resBuf`
are the status line, the header lines, the blank line, and then exactly: the body
length in lowercase hexadecimal, CRLF, the body, CRLF, `0` CRLF CRLF; `resBuf.len`
is the number of these bytes and the wake handle is sent once. The line
`Transfer-Encoding: chunked` CRLF is among the header lines. For the body
`<h1>hello</h1>` and status 200 the status line is `HTTP/1.1 200 OK` CRLF and the
frame is `e` CRLF `<h1>hello</h1>` CRLF `0` CRLF CRLF. -/
theorem sendResponse_chunked (d : HttpData) (body : string)
    (hc : d.complete = true) (hwf : StdMap.WF d.response_header)
    (hm : ("Transfer-Encoding".data, "chunked".data) ∈ d.response_header)
    (hnh : ∀ hd ∈ d.response_header, (∀ c ∈ hd.1, c ≠ NUL) ∧ (∀ c ∈ hd.2, c ≠ NUL))
    (hnb : ∀ c ∈ body, c ≠ NUL)
    (hlen : (response_stream d body).length < 2147483648) :
    d.sendResponse body =
      some { d with
        resBuf := some (status_line d ++ header_lines d ++ CRLF ++
          (hex body.length ++ CRLF ++ body ++ CRLF ++ "0".data ++ CRLF ++ CRLF))
        resBuf_len := (status_line d ++ header_lines d ++ CRLF ++
          (hex body.length ++ CRLF ++ body ++ CRLF ++ "0".data ++ CRLF ++ CRLF)).length
        async_sends := d.async_sends + 1 } ∧
    (∃ before after, header_lines d =
      before ++ "Transfer-Encoding: chunked\r\n".data ++ after) ∧
    (d.response_status = 200 → status_line d = "HTTP/1.1 200 OK\r\n".data) ∧
    (body = "<h1>hello</h1>".data →
      hex body.length ++ CRLF ++ body ++ CRLF ++ "0".data ++ CRLF ++ CRLF =
        "e\r\n<h1>hello</h1>\r\n0\r\n\r\n".data) := by
  refine ⟨chunked_resBuf d body hc hwf hm hnh hnb hlen, ?_, ?_, ?_⟩
  · obtain ⟨l1, l2, hsplit⟩ := List.append_of_mem hm
    refine ⟨(l1.map header_line).flatten, (l2.map header_line).flatten, ?_⟩
    rw [header_lines, hsplit]
    simp [header_line, CRLF, List.append_assoc]
  · intro h200
    rw [status_line, h200]
    decide
  · intro hb
    rw [hb]
    decide

set_option maxRecDepth 20000 in
/-- C8, amended, on scenario S1: the request of the gateway handler (status 200,
headers `Connection`, `Transfer-Encoding: chunked`, `Content-Type`) and the body
`<h1>hello</h1>`. The response has 120 bytes. -/
theorem sendResponse_chunked_witness :
    (((((HttpData.new 0).on_message_complete.setResponseStatus 200).setResponseHeaders
        [("Connection".data, "keep-alive".data), ("Transfer-Encoding".data, "chunked".data),
         ("Content-Type".data, "text/html".data)]).sendResponse "<h1>hello</h1>".data).map
        (fun r => (r.resBuf, r.resBuf_len))) =
      some (some ("HTTP/1.1 200 OK\r\n".data ++
        "Connection: keep-alive\r\nContent-Type: text/html\r\nTransfer-Encoding: chunked\r\n".data ++
        "\r\n".data ++ "e\r\n<h1>hello</h1>\r\n0\r\n\r\n".data), 120) :=
  (congrArg (Option.map (fun r => (r.resBuf, r.resBuf_len))) (sendResponse_chunked
    (((HttpData.new 0).on_message_complete.setResponseStatus 200).setResponseHeaders
        [("Connection".data, "keep-alive".data), ("Transfer-Encoding".data, "chunked".data),
         ("Content-Type".data, "text/html".data)])
    "<h1>hello</h1>".data rfl (by unfold StdMap.WF; decide) (by decide) (by decide)
    (by decide) (by decide)).1).trans (by decide)

set_option maxRecDepth 20000 in
/-- C9, counterexample: the gateway handler sets `Connection`, then
`Transfer-Encoding`, then `Content-Type`. `sendResponse` emits the line of
`Content-Type` before the line of `Transfer-Encoding`, which is not the order in
which the headers were set. And when the headers `B` with the one-byte value NUL,
`A: 1` and `C: 2` are set, in this order, the bytes left in `resBuf` end inside the
line of `B`, which comes second: the line of `C` is not emitted at all. -/
theorem sendResponse_header_order_counterexample :
    (((((HttpData.new 0).on_message_complete.setResponseStatus 200).setResponseHeaders
        [("Connection".data, "keep-alive".data), ("Transfer-Encoding".data, "chunked".data),
         ("Content-Type".data, "text/html".data)]).sendResponse "x".data).map
        HttpData.resBuf) =
      some (some ("HTTP/1.1 200 OK\r\n".data ++
        "Connection: keep-alive\r\nContent-Type: text/html\r\nTransfer-Encoding: chunked\r\n".data ++
        "\r\n1\r\nx\r\n0\r\n\r\n".data)) ∧
    (((((HttpData.new 0).on_message_complete.setResponseStatus 200).setResponseHeaders
        [("Connection".data, "keep-alive".data), ("Transfer-Encoding".data, "chunked".data),
         ("Content-Type".data, "text/html".data)]).sendResponse "x".data).map
        HttpData.resBuf) ≠
      some (some ("HTTP/1.1 200 OK\r\n".data ++
        "Connection: keep-alive\r\nTransfer-Encoding: chunked\r\nContent-Type: text/html\r\n".data ++
        "\r\n1\r\nx\r\n0\r\n\r\n".data)) ∧
    (((((HttpData.new 0).on_message_complete.setResponseStatus 200).setResponseHeaders
        [("B".data, "\x00".data), ("A".data, "1".data),
         ("C".data, "2".data)]).sendResponse "x".data).map HttpData.resBuf) =
      some (some "HTTP/1.1 200 OK\r\nA: 1\r\nB: ".data) := by
  refine ⟨by decide, by decide, by decide⟩

theorem setResponseHeaders_header (d : HttpData) (calls : List (string × string)) :
    (d.setResponseHeaders calls).response_header =
      calls.foldl (fun m c => StdMap.insert m c.1 c.2) d.response_header ∧
    (d.setResponseHeaders calls).complete = d.complete ∧
    (d.setResponseHeaders calls).response_status = d.response_status := by
  unfold setResponseHeaders
  induction calls generalizing d with
  | nil => exact ⟨rfl, rfl, rfl⟩
  | cons c cs ih =>
    rw [List.foldl_cons, List.foldl_cons]
    obtain ⟨h1, h2, h3⟩ := ih (d.setResponseHeader c.1 c.2)
    exact ⟨h1, h2, h3⟩

/-- C9, amended: for every sequence of `setResponseHeader` calls with pairwise
distinct header names on a completed request without headers, names and values
holding no NUL character and the whole response text being shorter than `2^31`
bytes, `sendResponse` returns and emits the header lines `Name: Value` CRLF in
ascending lexicographic order of the header names, whatever the order in which the
headers were set: the header map holds exactly the pairs that were set, sorted
strictly ascending by name, and the bytes left in `resBuf` are the status line,
the lines of all these pairs in that sorted order, the blank line, and then the
body part up to its first NUL. -/
theorem sendResponse_header_order (d : HttpData) (calls : List (string × string))
    (body : string) (hc : d.complete = true) (hempty : d.response_header = [])
    (hd : (calls.map Prod.fst).Nodup)
    (hnh : ∀ c ∈ calls, (∀ x ∈ c.1, x ≠ NUL) ∧ (∀ x ∈ c.2, x ≠ NUL))
    (hlen : (response_stream (d.setResponseHeaders calls) body).length < 2147483648) :
    List.Perm (d.setResponseHeaders calls).response_header calls ∧
    (d.setResponseHeaders calls).response_header.Pairwise (fun a b => a.1 < b.1) ∧
    ∃ d', (d.setResponseHeaders calls).sendResponse body = some d' ∧
      d'.resBuf = some (status_line d ++
        ((d.setResponseHeaders calls).response_header.map header_line).flatten ++ CRLF ++
        from_c_str (body_part (d.setResponseHeaders calls) body)) := by
  obtain ⟨h1, h2, h3⟩ := setResponseHeaders_header d calls
  obtain ⟨hp, hw⟩ := StdMap.foldl_insert calls d.response_header
    (by rw [hempty]; exact List.Pairwise.nil) (by rw [hempty]; simp) hd
  rw [← h1, hempty] at hp
  rw [← h1] at hw
  have hp' : List.Perm (d.setResponseHeaders calls).response_header calls := by simpa using hp
  have hnh' : ∀ hd ∈ (d.setResponseHeaders calls).response_header,
      (∀ c ∈ hd.1, c ≠ NUL) ∧ (∀ c ∈ hd.2, c ≠ NUL) :=
    fun e he => hnh e (hp'.mem_iff.1 he)
  have hs := strlen_le (response_stream (d.setResponseHeaders calls) body)
  refine ⟨hp', hw, _, sendResponse_complete _ body (by rw [h2]; exact hc) (by omega), ?_⟩
  show some (from_c_str (response_stream (d.setResponseHeaders calls) body)) = _
  rw [response_stream_eq, List.append_assoc, List.append_assoc, List.append_assoc,
    from_c_str_append _ (status_line_ne_NUL _),
    from_c_str_append _ (header_lines_ne_NUL _ hnh'),
    from_c_str_append _ CRLF_ne_NUL]
  simp [status_line, header_lines, h3, List.append_assoc]

set_option maxRecDepth 20000 in
/-- C9, amended, on the calls of the gateway handler (`Connection`,
`Transfer-Encoding`, `Content-Type`, in this order): the lines come out as
`Connection`, `Content-Type`, `Transfer-Encoding`. -/
theorem sendResponse_header_order_witness :
    (((HttpData.new 0).on_message_complete.setResponseStatus 200).setResponseHeaders
        [("Connection".data, "keep-alive".data), ("Transfer-Encoding".data, "chunked".data),
         ("Content-Type".data, "text/html".data)]).response_header.Pairwise
      (fun a b => a.1 < b.1) ∧
    ∃ d', (((HttpData.new 0).on_message_complete.setResponseStatus 200).setResponseHeaders
        [("Connection".data, "keep-alive".data), ("Transfer-Encoding".data, "chunked".data),
         ("Content-Type".data, "text/html".data)]).sendResponse "x".data = some d' ∧
      d'.resBuf = some ("HTTP/1.1 200 OK\r\n".data ++
        "Connection: keep-alive\r\nContent-Type: text/html\r\nTransfer-Encoding: chunked\r\n".data ++
        "\r\n1\r\nx\r\n0\r\n\r\n".data) := by
  obtain ⟨-, h2, d', h3, h4⟩ :=
    sendResponse_header_order ((HttpData.new 0).on_message_complete.setResponseStatus 200)
      [("Connection".data, "keep-alive".data), ("Transfer-Encoding".data, "chunked".data),
       ("Content-Type".data, "text/html".data)] "x".data rfl rfl (by decide) (by decide)
      (by decide)
  exact ⟨h2, d', h3, h4.trans (by decide)⟩

end HttpData

/-! ## Further properties of sendResponse -/

namespace StdMap

variable {K V : Type} [LinearOrder K]

theorem mem_of_find {m : List (K × V)} {k : K} {v : V} (h : find m k = some v) :
    (k, v) ∈ m := by
  induction m with
  | nil => simp [find] at h
  | cons a rest ih =>
    obtain ⟨k', v'⟩ := a
    unfold find at h
    split_ifs at h with h1 h2
    · exact List.mem_cons_of_mem _ (ih h)
    · have hk : k = k' := le_antisymm (not_lt.1 h2) (not_lt.1 h1)
      cases h
      simp [hk]

end StdMap

namespace HttpData

theorem isChunked_false_of_not_mem (d : HttpData)
    (h : ("Transfer-Encoding".data, "chunked".data) ∉ d.response_header) :
    d.isChunked = false := by
  have hf : StdMap.find d.response_header "Transfer-Encoding".data ≠ some "chunked".data :=
    fun hf => h (StdMap.mem_of_find hf)
  simp [isChunked, hf]

set_option maxRecDepth 20000 in
/-- C11, counterexample: a completed request with status 200 and the single header
`Content-Type: text/html`, and the three-byte body `a`, NUL, `b`. The bytes that
`sendResponse` leaves in `resBuf` end after the `a`: the body is not there
verbatim. -/
theorem sendResponse_plain_counterexample :
    ((((HttpData.new 0).on_message_complete.setResponseStatus 200).setResponseHeader
        "Content-Type".data "text/html".data).sendResponse "a\x00b".data).map
        HttpData.resBuf =
      some (some "HTTP/1.1 200 OK\r\nContent-Type: text/html\r\n\r\na".data) ∧
    ((((HttpData.new 0).on_message_complete.setResponseStatus 200).setResponseHeader
        "Content-Type".data "text/html".data).sendResponse "a\x00b".data).map
        HttpData.resBuf ≠
      some (some ("HTTP/1.1 200 OK\r\nContent-Type: text/html\r\n\r\n".data ++
        "a\x00b".data)) := by
  refine ⟨by decide, by decide⟩

/-- C11, amended: for every completed request whose response headers do not
contain `Transfer-Encoding: chunked` and hold no NUL character, and every body
without NUL character for which the whole response text is shorter than `2^31`
bytes, `sendResponse(body)` returns and the bytes that it leaves in `resBuf` are
exactly the status line, one line per header of the header map, the blank line
and the body as it is; `resBuf.len` is the number of these bytes. Nothing else is
added: no further header, nothing before or after the body. -/
theorem sendResponse_plain (d : HttpData) (body : string)
    (hc : d.complete = true)
    (hm : ("Transfer-Encoding".data, "chunked".data) ∉ d.response_header)
    (hnh : ∀ hd ∈ d.response_header, (∀ c ∈ hd.1, c ≠ NUL) ∧ (∀ c ∈ hd.2, c ≠ NUL))
    (hnb : ∀ c ∈ body, c ≠ NUL)
    (hlen : (response_stream d body).length < 2147483648) :
    d.sendResponse body =
      some { d with
        resBuf := some (status_line d ++ (d.response_header.map header_line).flatten ++
          CRLF ++ body)
        resBuf_len := (status_line d ++ (d.response_header.map header_line).flatten ++
          CRLF ++ body).length
        async_sends := d.async_sends + 1 } := by
  have hcopy : from_c_str (response_stream d body) =
      status_line d ++ (d.response_header.map header_line).flatten ++ CRLF ++ body := by
    rw [response_stream_eq, body_part, isChunked_false_of_not_mem d hm]
    simp only [Bool.false_eq_true, if_false]
    rw [from_c_str_self]
    · rfl
    · intro c hcm
      simp only [List.mem_append] at hcm
      rcases hcm with ((hcm | hcm) | hcm) | hcm
      · exact status_line_ne_NUL d c hcm
      · exact header_lines_ne_NUL d hnh c hcm
      · exact CRLF_ne_NUL c hcm
      · exact hnb c hcm
  have hs := strlen_le (response_stream d body)
  rw [sendResponse_complete d body hc (by omega), hcopy]

set_option maxRecDepth 20000 in
/-- C11, amended, on the favicon reply without chunking: status 200, the header
`Content-Type: image/vnd.microsoft.icon` and the body of one space. -/
theorem sendResponse_plain_witness :
    ((((HttpData.new 0).on_message_complete.setResponseStatus 200).setResponseHeader
        "Content-Type".data "image/vnd.microsoft.icon".data).sendResponse " ".data).map
        (fun r => (r.resBuf, r.resBuf_len)) =
      some (some "HTTP/1.1 200 OK\r\nContent-Type: image/vnd.microsoft.icon\r\n\r\n ".data,
        60) :=
  (congrArg (Option.map (fun r => (r.resBuf, r.resBuf_len))) (sendResponse_plain
    (((HttpData.new 0).on_message_complete.setResponseStatus 200).setResponseHeader
        "Content-Type".data "image/vnd.microsoft.icon".data)
    " ".data rfl (by decide) (by decide) (by decide) (by decide))).trans (by decide)

theorem response_stream_congr (d d' : HttpData) (str : string)
    (h1 : d'.response_header = d.response_header)
    (h2 : d'.response_status = d.response_status) :
    response_stream d' str = response_stream d str := by
  simp [response_stream, isChunked, h1, h2]

set_option maxRecDepth 20000 in
/-- C12, counterexample: on a completed request with status 200 and no header,
after `sendResponse("a")` followed by `sendResponse("b")` the recorded bytes are
those serialised from `b`, not those from `a`, and the wake handle has been sent
twice. -/
theorem sendResponse_twice_counterexample :
    ((((HttpData.new 0).on_message_complete.setResponseStatus 200).sendResponse
        "a".data).bind (fun r => r.sendResponse "b".data)).map HttpData.resBuf =
      some (some "HTTP/1.1 200 OK\r\n\r\nb".data) ∧
    (((HttpData.new 0).on_message_complete.setResponseStatus 200).sendResponse
        "a".data).map HttpData.resBuf = some (some "HTTP/1.1 200 OK\r\n\r\na".data) ∧
    ((((HttpData.new 0).on_message_complete.setResponseStatus 200).sendResponse
        "a".data).bind (fun r => r.sendResponse "b".data)).map HttpData.resBuf ≠
      (((HttpData.new 0).on_message_complete.setResponseStatus 200).sendResponse
        "a".data).map HttpData.resBuf ∧
    ((((HttpData.new 0).on_message_complete.setResponseStatus 200).sendResponse
        "a".data).bind (fun r => r.sendResponse "b".data)).map HttpData.async_sends =
      some 2 := by
  refine ⟨by decide, by decide, by decide, by decide⟩

/-- C12, amended: every call of `sendResponse` on a completed request takes
effect. For bodies `b1`, `b2` whose response texts are shorter than `2^31` bytes,
`sendResponse(b1)` and then `sendResponse(b2)` both return, and afterwards the
recorded response bytes (`resBuf` and its length) are those serialised from `b2`,
the same as after `sendResponse(b2)` alone, and the wake handle of the request has
been sent twice, once by each call. -/
theorem sendResponse_twice (d : HttpData) (b1 b2 : string) (hc : d.complete = true)
    (hlen1 : (response_stream d b1).length < 2147483648)
    (hlen2 : (response_stream d b2).length < 2147483648) :
    ∃ d1 d2 d2', d.sendResponse b1 = some d1 ∧ d1.sendResponse b2 = some d2 ∧
      d.sendResponse b2 = some d2' ∧
      d2.resBuf = d2'.resBuf ∧
      d2.resBuf = some (from_c_str (response_stream d b2)) ∧
      d2.resBuf_len = d2'.resBuf_len ∧
      d2.resBuf_len = (from_c_str (response_stream d b2)).length ∧
      d1.async_sends = d.async_sends + 1 ∧
      d2.async_sends = d.async_sends + 2 := by
  have hs1 := strlen_le (response_stream d b1)
  have hs2 := strlen_le (response_stream d b2)
  have e1 := sendResponse_complete d b1 hc (by omega)
  have e2' := sendResponse_complete d b2 hc (by omega)
  obtain ⟨h1, h2, h3, -, -⟩ := sendResponse_fields d _ b1 e1
  have hs := response_stream_congr d _ b2 h2 h3
  have e2 := sendResponse_complete _ b2 (h1.trans hc) (by rw [hs]; omega)
  rw [hs] at e2
  exact ⟨_, _, _, e1, e2, e2', rfl, rfl, rfl, rfl, rfl, rfl⟩

set_option maxRecDepth 20000 in
/-- C12, amended, on a completed request with status 200 and no header: after the
bodies `a` and `b` the buffer holds the response for `b`. -/
theorem sendResponse_twice_witness :
    ∃ d1 d2, ((HttpData.new 0).on_message_complete.setResponseStatus 200).sendResponse
        "a".data = some d1 ∧ d1.sendResponse "b".data = some d2 ∧
      d2.resBuf = some "HTTP/1.1 200 OK\r\n\r\nb".data ∧ d2.async_sends = 2 := by
  obtain ⟨d1, d2, -, h1, h2, -, -, h3, -, -, -, h4⟩ :=
    sendResponse_twice ((HttpData.new 0).on_message_complete.setResponseStatus 200)
      "a".data "b".data rfl (by decide) (by decide)
  exact ⟨d1, d2, h1, h2, h3.trans (by decide), h4⟩

/-- C13: on a request whose `complete` flag is false, `sendResponse(body)` returns
and changes nothing: the record afterwards is the record before, field by field
(`resBuf` and its length, status, headers, URL, method, body, `server`), and the
wake handle is not sent. -/
theorem sendResponse_incomplete (d : HttpData) (body : string) (hc : d.complete = false) :
    d.sendResponse body = some d ∧
    (d.sendResponse body).map HttpData.resBuf = some d.resBuf ∧
    (d.sendResponse body).map HttpData.resBuf_len = some d.resBuf_len ∧
    (d.sendResponse body).map HttpData.response_status = some d.response_status ∧
    (d.sendResponse body).map HttpData.response_header = some d.response_header ∧
    (d.sendResponse body).map HttpData.async_sends = some d.async_sends := by
  have h : d.sendResponse body = some d := by simp [sendResponse, hc]
  rw [h]
  exact ⟨rfl, rfl, rfl, rfl, rfl, rfl⟩

/-- C13 on a fresh request with status and headers set, before the parser has
signalled the end of the message. -/
theorem sendResponse_incomplete_witness :
    (((HttpData.new 0).setResponseStatus 200).setResponseHeader
        "Content-Type".data "text/html".data).sendResponse "x".data =
      some (((HttpData.new 0).setResponseStatus 200).setResponseHeader
        "Content-Type".data "text/html".data) :=
  (sendResponse_incomplete (((HttpData.new 0).setResponseStatus 200).setResponseHeader
        "Content-Type".data "text/html".data) "x".data rfl).1

end HttpData

/-! ## The values read from a fresh cursor -/

namespace RoundRobin

theorem advance_get (k : Nat) (r : RoundRobin) (h : r.robin ≤ r.limit) (hpos : 0 < r.limit) :
    (advance k r).get.1 = (r.get.1 + k) % r.limit := by
  induction k generalizing r with
  | zero =>
    rw [advance, Nat.add_zero, Nat.mod_eq_of_lt (get_lt r h hpos)]
  | succ k ih =>
    have hlt := get_lt r h hpos
    rw [advance, ih r.get.2 (by rw [get_robin, get_limit]; omega) (by rw [get_limit]; exact hpos),
      get_limit, get_get r h hpos, Nat.mod_add_mod]
    congr 1
    omega

/-- C20: for every `N ≥ 1`, a cursor constructed fresh with limit `N` returns
`k mod N` on its `k`-th call of `get` (`k = 0, 1, 2, ...`). Every value returned is
below `N`, the value of the next call is the value of this call plus one modulo
`N`, and the first `k` values are `0 mod N, 1 mod N, ..., (k-1) mod N`. -/
theorem fresh_cursor_reads (N k : Nat) (hN : 1 ≤ N) :
    (advance k (init N)).get.1 = k % N ∧
    (advance k (init N)).get.1 < N ∧
    (advance (k + 1) (init N)).get.1 = ((advance k (init N)).get.1 + 1) % N ∧
    reads k (init N) = (List.range k).map (fun i => i % N) := by
  have h0 : (init N).get.1 = 0 := by
    have : ¬ (0 = N) := by omega
    simp [init, get, this]
  have hk : ∀ j, (advance j (init N)).get.1 = j % N := by
    intro j
    rw [advance_get j (init N) (Nat.zero_le _) hN, h0, Nat.zero_add]
    rfl
  refine ⟨hk k, ?_, ?_, ?_⟩
  · rw [hk k]
    exact Nat.mod_lt _ hN
  · rw [hk (k + 1), hk k, Nat.mod_add_mod]
  · rw [reads_eq k (init N) (Nat.zero_le _) hN, h0]
    simp [init]

/-- C20 on a cursor of limit 3: the call number 7 returns 1, and the first seven
calls return 0, 1, 2, 0, 1, 2, 0. -/
theorem fresh_cursor_reads_witness :
    (advance 7 (init 3)).get.1 = 1 ∧ reads 7 (init 3) = [0, 1, 2, 0, 1, 2, 0] :=
  ⟨(fresh_cursor_reads 3 7 (by decide)).1, (fresh_cursor_reads 3 7 (by decide)).2.2.2⟩

end RoundRobin

/-! ## The run of the pending timer -/

namespace Balancer

theorem idle_count_zero_iff (b : Balancer) :
    b.idle_count = 0 ↔ ∀ w ∈ b.workers, w.isWorking = true := by
  unfold idle_count
  rw [List.countP_eq_zero]
  constructor
  · intro h w hw
    have := h w hw
    simpa using this
  · intro h w hw
    simp [h w hw]

theorem countP_set_assigned (ws : List BalancerWorker) (x : Nat) (w : BalancerWorker)
    (job : balancer_job) (hx : ws[x]? = some w) (hc : w.current_job = none) :
    (ws.set x (assigned w job)).countP (fun w => !w.isWorking) + 1 =
      ws.countP (fun w => !w.isWorking) := by
  induction ws generalizing x with
  | nil => simp at hx
  | cons y ys ih =>
    cases x with
    | zero =>
      simp at hx
      subst hx
      simp [List.countP_cons, BalancerWorker.isWorking, hc, assigned]
    | succ x =>
      simp at hx
      simp only [List.set_cons_succ, List.countP_cons]
      have := ih x hx
      omega

/-- One `load_balance` on a consistent balancer, by the number of idle workers:
with an idle worker the job goes to a worker and the queue is untouched; with none
the job is pushed and the workers are untouched. -/
theorem load_balance_by_idle (b : Balancer) (job : balancer_job) (h : b.WF) :
    ∃ b', load_balance b job = some b' ∧ b'.WF ∧
      (0 < b.idle_count → b'.pending = b.pending ∧ b'.idle_count + 1 = b.idle_count ∧
        List.Perm b'.held (job :: b.held)) ∧
      (b.idle_count = 0 → b'.pending = b.pending.push job ∧ b'.workers = b.workers) := by
  obtain ⟨hcnt, hlim, hrob, hq⟩ := h
  rcases load_balance_cases b job hcnt hlim hrob with
    ⟨x, w, r, p, hx, hidle, hrl, hrr, hlb⟩ | ⟨hall, r, p, hrl, hrr, hlb⟩
  · have hcp := countP_set_assigned b.workers x w job hx hidle
    refine ⟨_, hlb, ⟨by simpa using hcnt, by simpa [hrl] using hlim, hrr, hq⟩, ?_, ?_⟩
    · intro _
      exact ⟨rfl, hcp, held_set_assigned b.workers x w job hx hidle⟩
    · intro hz
      unfold idle_count at hz
      omega
  · refine ⟨_, hlb, ⟨hcnt, by simpa [hrl] using hlim, hrr, by simp [TQueue.push, hq]⟩, ?_, ?_⟩
    · intro hpos
      have := (idle_count_zero_iff b).2 hall
      omega
    · intro _
      exact ⟨rfl, rfl⟩

/-- The drain loop after `n` iterations on a queue of at least `n` jobs, with
`idle_count b` idle workers at the start: the first `n` jobs have been taken
from the front, in order; those among them for which an idle worker was left are in
worker slots, the others are back at the tail, behind the jobs not yet taken. -/
theorem drain_loop_spec (n : Nat) (b : Balancer) (h : b.WF)
    (hn : n ≤ b.pending.items.length) :
    ∃ b', drain_loop n b = some b' ∧ b'.WF ∧
      b'.pending.items =
        b.pending.items.drop n ++ (b.pending.items.take n).drop b.idle_count ∧
      List.Perm b'.held (b.held ++ (b.pending.items.take n).take b.idle_count) ∧
      b'.idle_count = b.idle_count - n ∧
      (b.idle_count = 0 → b'.workers = b.workers) := by
  induction n generalizing b with
  | zero => exact ⟨b, rfl, h, by simp, by simp, by simp, fun _ => rfl⟩
  | succ n ih =>
    obtain ⟨hcnt, hlim, hrob, hq⟩ := h
    cases hi : b.pending.items with
    | nil => rw [hi] at hn; simp at hn
    | cons j rest =>
      have hnr : n ≤ rest.length := by
        rw [hi] at hn
        simpa using hn
      have htake : b.pending.take = some (j, { items := rest, _count := b.pending._count - 1 }) := by
        simp [TQueue.take, hi]
      have hwf0 : ({ b with pending := { items := rest, _count := b.pending._count - 1 } } :
          Balancer).WF := by
        refine ⟨hcnt, hlim, hrob, ?_⟩
        show b.pending._count - 1 = rest.length
        rw [hq, hi]; simp
      obtain ⟨b1, hlb, hwf1, hpos, hzero⟩ := load_balance_by_idle _ j hwf0
      have hidle0 : ({ b with pending := { items := rest, _count := b.pending._count - 1 } } :
          Balancer).idle_count = b.idle_count := rfl
      have hheld0 : ({ b with pending := { items := rest, _count := b.pending._count - 1 } } :
          Balancer).held = b.held := rfl
      rw [hidle0] at hpos hzero
      rw [hheld0] at hpos
      have hd : drain_loop (n + 1) b = drain_loop n b1 := by
        simp [drain_loop, htake, hlb]
      rw [hd]
      rcases Nat.eq_zero_or_pos b.idle_count with hk | hk
      · -- no idle worker: the job goes back to the tail
        obtain ⟨hp1, hw1⟩ := hzero hk
        have hitems : b1.pending.items = rest ++ [j] := by rw [hp1]; rfl
        have hidle1 : b1.idle_count = 0 := by
          unfold idle_count
          rw [hw1]
          exact hk
        obtain ⟨b2, hd2, hwf2, hi2, hh2, hc2, hw2⟩ := ih b1 hwf1 (by rw [hitems]; simp; omega)
        have hheld1 : b1.held = b.held := by
          unfold held
          rw [hw1]
        refine ⟨b2, hd2, hwf2, ?_, ?_, ?_, ?_⟩
        · rw [hi2, hitems, hidle1, hk, List.drop_append_of_le_length hnr,
            List.take_append_of_le_length hnr]
          simp
        · rw [hk]
          rw [hidle1, hheld1] at hh2
          simpa using hh2
        · rw [hc2, hidle1, hk]
          omega
        · intro _
          rw [hw2 hidle1]
          exact hw1
      · -- an idle worker takes the job
        obtain ⟨hp1, hc1, hh1⟩ := hpos hk
        have hitems : b1.pending.items = rest := by rw [hp1]
        obtain ⟨b2, hd2, hwf2, hi2, hh2, hc2, -⟩ := ih b1 hwf1 (by rw [hitems]; exact hnr)
        obtain ⟨k', hk'⟩ : ∃ k', b.idle_count = k' + 1 := ⟨b.idle_count - 1, by omega⟩
        have hidle1 : b1.idle_count = k' := by omega
        refine ⟨b2, hd2, hwf2, ?_, ?_, ?_, ?_⟩
        · rw [hi2, hitems, hidle1, hk']
          simp
        · rw [hk']
          rw [hidle1, hitems] at hh2
          refine hh2.trans ((hh1.append_right _).trans ?_)
          simp only [List.take_succ_cons, List.cons_append]
          exact List.perm_middle.symm
        · rw [hc2, hidle1, hk']
          omega
        · intro hz
          omega

theorem check_pending_queue_eq (b : Balancer) (h : b.WF) :
    check_pending_queue b = drain_loop b.pending.items.length b := by
  unfold check_pending_queue
  have hq : b.pending.count = b.pending.items.length := h.2.2.2
  rw [hq]
  by_cases hz : b.pending.items.length = 0
  · simp [hz, drain_loop]
  · simp [hz]

/-- C18: on a consistent balancer with `m` pending jobs (`m ≥ 1`, and also
`m = 0`), `check_pending_queue` returns and is `m` iterations of the loop. After `i ≤ m`
iterations the first `i` jobs have each been taken once from the front, in order,
and passed to `load_balance`: the queue is the jobs not yet taken followed by
those taken that could not be placed, the placed ones are in worker slots. After
the run the pending queue consists of exactly the jobs that could not be placed, in
their original relative order, and when every worker is busy the queue and the
workers after the run are those before it. -/
theorem check_pending_queue_requeues (b : Balancer) (hwf : b.WF) :
    ∃ b', check_pending_queue b = some b' ∧
      drain_loop b.pending.items.length b = some b' ∧
      (∀ i, i ≤ b.pending.items.length → ∃ bi, drain_loop i b = some bi ∧
        bi.pending.items =
          b.pending.items.drop i ++ (b.pending.items.take i).drop b.idle_count ∧
        List.Perm bi.held (b.held ++ (b.pending.items.take i).take b.idle_count)) ∧
      b'.pending.items = b.pending.items.drop b.idle_count ∧
      List.Sublist b'.pending.items b.pending.items ∧
      List.Perm b'.held (b.held ++ b.pending.items.take b.idle_count) ∧
      ((∀ w ∈ b.workers, w.isWorking = true) →
        b'.pending = b.pending ∧ b'.workers = b.workers) := by
  obtain ⟨b', hd, hwf', hi, hh, -, hw⟩ := drain_loop_spec _ b hwf (Nat.le_refl _)
  rw [List.drop_length, List.take_length, List.nil_append] at hi
  rw [List.take_length] at hh
  refine ⟨b', by rw [check_pending_queue_eq b hwf]; exact hd, hd, ?_, hi, ?_, hh, ?_⟩
  · intro i hi'
    obtain ⟨bi, h1, -, h2, h3, -, -⟩ := drain_loop_spec i b hwf hi'
    exact ⟨bi, h1, h2, h3⟩
  · rw [hi]
    exact List.drop_sublist _ _
  · intro hall
    have hz := (idle_count_zero_iff b).2 hall
    rw [hz, List.drop_zero] at hi
    refine ⟨?_, hw hz⟩
    have hc' : b'.pending._count = b'.pending.items.length := hwf'.2.2.2
    have hc : b.pending._count = b.pending.items.length := hwf.2.2.2
    cases hb' : b'.pending with
    | mk items' count' =>
      cases hb : b.pending with
      | mk items0 count0 =>
        rw [hb'] at hi hc'
        rw [hb] at hi hc
        simp only at hi hc hc'
        rw [hc, hc', hi]

/-- C18 on three workers, worker 0 busy with job 5 and workers 1 and 2 idle, and
the pending jobs 7, 8, 9: the run places 7 and 8 and leaves 9 pending. -/
theorem check_pending_queue_requeues_witness :
    ∃ b', check_pending_queue
        { workers := [BalancerWorker.mk (some 5) (some 5) 1, BalancerWorker.init,
            BalancerWorker.init]
          pending := { items := [7, 8, 9], _count := 3 }, worker_count := 3
          robin := RoundRobin.init 3, probes := [] } = some b' ∧
      b'.pending.items = [9] := by
  obtain ⟨b', h1, -, -, h2, -⟩ := check_pending_queue_requeues
    { workers := [BalancerWorker.mk (some 5) (some 5) 1, BalancerWorker.init,
        BalancerWorker.init]
      pending := { items := [7, 8, 9], _count := 3 }, worker_count := 3
      robin := RoundRobin.init 3, probes := [] }
    ⟨rfl, rfl, by decide, rfl⟩
  exact ⟨b', h1, h2⟩

/-- C19: on a consistent balancer with `k` idle workers and `m` pending jobs,
`check_pending_queue` returns; it dispatches exactly the first `min k m` jobs of
the queue to worker slots and leaves the other `m - min k m` jobs pending, in
their order, with `k - min k m` workers idle. The dispatch is in queue order:
after `i ≤ min k m` iterations of the loop exactly the first `i` jobs have left
the queue for worker slots, so no job leaves the queue before one that entered it
earlier. -/
theorem check_pending_queue_fifo (b : Balancer) (hwf : b.WF) :
    ∃ b', check_pending_queue b = some b' ∧
      List.Perm b'.held
        (b.held ++ b.pending.items.take (min b.idle_count b.pending.items.length)) ∧
      b'.pending.items =
        b.pending.items.drop (min b.idle_count b.pending.items.length) ∧
      b'.pending.items.length =
        b.pending.items.length - min b.idle_count b.pending.items.length ∧
      b'.idle_count = b.idle_count - min b.idle_count b.pending.items.length ∧
      (∀ i, i ≤ min b.idle_count b.pending.items.length →
        ∃ bi, drain_loop i b = some bi ∧
          bi.pending.items = b.pending.items.drop i ∧
          List.Perm bi.held (b.held ++ b.pending.items.take i)) := by
  obtain ⟨b', hd, -, hi, hh, hc, -⟩ := drain_loop_spec _ b hwf (Nat.le_refl _)
  rw [List.drop_length, List.take_length, List.nil_append] at hi
  rw [List.take_length] at hh
  have hdrop : b.pending.items.drop (min b.idle_count b.pending.items.length) =
      b.pending.items.drop b.idle_count := by
    rcases Nat.le_total b.idle_count b.pending.items.length with h | h
    · rw [Nat.min_eq_left h]
    · rw [Nat.min_eq_right h, List.drop_of_length_le h, List.drop_length]
  have htake : b.pending.items.take (min b.idle_count b.pending.items.length) =
      b.pending.items.take b.idle_count := by
    rcases Nat.le_total b.idle_count b.pending.items.length with h | h
    · rw [Nat.min_eq_left h]
    · rw [Nat.min_eq_right h, List.take_of_length_le h, List.take_length]
  refine ⟨b', by rw [check_pending_queue_eq b hwf]; exact hd, ?_, ?_, ?_, ?_, ?_⟩
  · rw [htake]; exact hh
  · rw [hdrop]; exact hi
  · rw [hi, List.length_drop]
    omega
  · rw [hc]
    omega
  · intro i hi'
    have hil : i ≤ b.pending.items.length := le_trans hi' (Nat.min_le_right _ _)
    have hik : i ≤ b.idle_count := le_trans hi' (Nat.min_le_left _ _)
    obtain ⟨bi, h1, -, h2, h3, -, -⟩ := drain_loop_spec i b hwf hil
    have hlen : (b.pending.items.take i).length ≤ b.idle_count := by
      rw [List.length_take]; omega
    refine ⟨bi, h1, ?_, ?_⟩
    · rw [h2, List.drop_of_length_le hlen, List.append_nil]
    · rw [List.take_of_length_le hlen] at h3
      exact h3

/-- C19 on two workers, both idle, and the pending jobs 7, 8, 9: the run
dispatches 7 and 8, in this order, and leaves 9 pending. -/
theorem check_pending_queue_fifo_witness :
    ∃ b', check_pending_queue
        { workers := [BalancerWorker.init, BalancerWorker.init]
          pending := { items := [7, 8, 9], _count := 3 }, worker_count := 2
          robin := RoundRobin.init 2, probes := [] } = some b' ∧
      b'.pending.items = [9] ∧ b'.idle_count = 0 := by
  obtain ⟨b', h1, -, h2, -, h3, -⟩ := check_pending_queue_fifo
    { workers := [BalancerWorker.init, BalancerWorker.init]
      pending := { items := [7, 8, 9], _count := 3 }, worker_count := 2
      robin := RoundRobin.init 2, probes := [] }
    ⟨rfl, rfl, by decide, rfl⟩
  exact ⟨b', h1, h2, h3⟩

end Balancer

/-! ## The cache in the server -/

namespace cache_map

theorem get_subset (m : cache_map) (key : string) (now : Int) :
    ∀ e ∈ (get m key now).2, e ∈ m := by
  intro e he
  unfold get at he
  cases hf : StdMap.find m key with
  | none => simpa [hf] using he
  | some entry =>
    by_cases hx : entry.isExpired now = true
    · simp only [hf, hx, if_true] at he
      exact StdMap.mem_erase he
    · simpa [hf, hx] using he

theorem get_WF (m : cache_map) (key : string) (now : Int) (h : StdMap.WF m) :
    StdMap.WF (get m key now).2 := by
  unfold get
  cases hf : StdMap.find m key with
  | none => simpa using h
  | some entry =>
    by_cases hx : entry.isExpired now = true
    · simp only [hx, if_true]
      exact StdMap.WF_erase _ h
    · simpa [hx] using h

theorem get_some_mem (m : cache_map) (key : string) (now : Int) (bytes : string)
    (h : (get m key now).1 = some bytes) : ∃ e, (key, e) ∈ m ∧ e.data = bytes := by
  unfold get at h
  cases hf : StdMap.find m key with
  | none => simp [hf] at h
  | some entry =>
    by_cases hx : entry.isExpired now = true
    · simp [hf, hx] at h
    · simp only [hf, hx] at h
      exact ⟨entry, StdMap.mem_of_find hf, by simpa using h⟩

end cache_map

namespace HttpServer

/-- The result of `http_read` on a record whose server pointer is set, for
`nread ≥ 0`. -/
theorem http_read_of_server (p : parameters) (server : HttpServer) (wrapper : HttpData)
    (nread : Int) (run : parser_run) (now : Int) (hn : 0 ≤ nread)
    (hs : wrapper.server = true) :
    http_read p server wrapper nread run now =
      if p.enable_cache then
        match (server.cache.get (run.callbacks.foldl parser_callback.apply
          wrapper).request_url now).1 with
        | some bytes =>
          match CharCopy bytes with
          | none => none
          | some base =>
            some ({ server with cache := (server.cache.get (run.callbacks.foldl
                parser_callback.apply wrapper).request_url now).2 },
              { run.callbacks.foldl parser_callback.apply wrapper with
                resBuf := some base, resBuf_len := bytes.length, server := false },
              (if run.parsed < nread then [uv_call.uv_close] else []) ++
                [uv_call.uv_write (some base) bytes.length])
        | none =>
          some ({ server with cache := (server.cache.get (run.callbacks.foldl
              parser_callback.apply wrapper).request_url now).2 },
            run.callbacks.foldl parser_callback.apply wrapper,
            if run.parsed < nread then [uv_call.uv_close] else [])
      else
        some (server, run.callbacks.foldl parser_callback.apply wrapper,
          (if run.parsed < nread then [uv_call.uv_close] else []) ++
            [uv_call.uv_async_init,
             uv_call.send_to_lambda (run.callbacks.foldl parser_callback.apply wrapper)]) := by
  have hn' : nread ≥ 0 := hn
  unfold http_read
  simp only [hn', hs, if_true, Bool.not_true, Bool.false_eq_true, if_false]

/-- What `http_read` does to the server: nothing, or one `cache.get`. -/
theorem http_read_cache (p : parameters) (s s' : HttpServer) (wrapper wrapper' : HttpData)
    (nread : Int) (run : parser_run) (now : Int) (calls : List uv_call)
    (h : http_read p s wrapper nread run now = some (s', wrapper', calls)) :
    s'.cache_url = s.cache_url ∧
    (s'.cache = s.cache ∨ ∃ key, s'.cache = (s.cache.get key now).2) := by
  by_cases hn : 0 ≤ nread
  · by_cases hs : wrapper.server = true
    · rw [http_read_of_server p s wrapper nread run now hn hs] at h
      by_cases he : p.enable_cache = true
      · simp only [he, if_true] at h
        split at h
        · split at h
          · exact absurd h (by simp)
          · simp only [Option.some.injEq, Prod.mk.injEq] at h
            obtain ⟨rfl, -, -⟩ := h
            exact ⟨rfl, Or.inr ⟨_, rfl⟩⟩
        · simp only [Option.some.injEq, Prod.mk.injEq] at h
          obtain ⟨rfl, -, -⟩ := h
          exact ⟨rfl, Or.inr ⟨_, rfl⟩⟩
      · simp only [he, Bool.false_eq_true, if_false, Option.some.injEq, Prod.mk.injEq] at h
        obtain ⟨rfl, -, -⟩ := h
        exact ⟨rfl, Or.inl rfl⟩
    · have hn' : nread ≥ 0 := hn
      simp [http_read, hn', hs] at h
  · have hn' : ¬ nread ≥ 0 := hn
    simp only [http_read, hn', if_false, Option.some.injEq, Prod.mk.injEq] at h
    obtain ⟨rfl, -, -⟩ := h
    exact ⟨rfl, Or.inl rfl⟩

/-- With caching enabled `http_read` makes no call of the dispatch callback. -/
theorem http_read_enabled_calls (p : parameters) (s s' : HttpServer)
    (wrapper wrapper' : HttpData) (nread : Int) (run : parser_run) (now : Int)
    (calls : List uv_call) (he : p.enable_cache = true)
    (h : http_read p s wrapper nread run now = some (s', wrapper', calls)) :
    calls.filter uv_call.is_dispatch = [] := by
  by_cases hn : 0 ≤ nread
  · by_cases hs : wrapper.server = true
    · rw [http_read_of_server p s wrapper nread run now hn hs] at h
      simp only [he, if_true] at h
      split at h
      · split at h
        · exact absurd h (by simp)
        · simp only [Option.some.injEq, Prod.mk.injEq] at h
          obtain ⟨-, -, rfl⟩ := h
          by_cases hp : run.parsed < nread <;> simp [hp, uv_call.is_dispatch]
      · simp only [Option.some.injEq, Prod.mk.injEq] at h
        obtain ⟨-, -, rfl⟩ := h
        by_cases hp : run.parsed < nread <;> simp [hp, uv_call.is_dispatch]
    · have hn' : nread ≥ 0 := hn
      simp [http_read, hn', hs] at h
  · have hn' : ¬ nread ≥ 0 := hn
    simp only [http_read, hn', if_false, Option.some.injEq, Prod.mk.injEq] at h
    obtain ⟨-, -, rfl⟩ := h
    simp [uv_call.is_dispatch]

/-- What `async_callback` does to the server: nothing, or, for a completed request
with caching enabled and a cacheable URL, one `cache.add` of the C string at
`resBuf.base` under the URL of the request. -/
theorem async_callback_cache (p : parameters) (s s' : HttpServer) (wrapper : HttpData)
    (behind : string) (now : Int) (calls : List uv_call)
    (h : async_callback p s wrapper behind now = some (s', calls)) :
    s' = s ∨
    (wrapper.complete = true ∧ p.enable_cache = true ∧
      s.cache_url.is_cache wrapper.request_url = true ∧
      ∃ base, wrapper.resBuf = some base ∧
        s' = { s with cache := (s.cache.add wrapper.request_url (from_c_str (base ++ behind))
          p.cache_timeout now).2 }) := by
  unfold async_callback at h
  by_cases hc : wrapper.complete = true
  · by_cases he : p.enable_cache = true
    · by_cases hs : wrapper.server = true
      · by_cases hu : s.cache_url.is_cache wrapper.request_url = true
        · cases hb : wrapper.resBuf with
          | none => simp [hc, he, hs, hu, hb] at h
          | some base =>
            simp only [hc, he, hs, hu, hb, if_true, Bool.not_true, Bool.false_eq_true,
              if_false, Option.some.injEq, Prod.mk.injEq] at h
            exact Or.inr ⟨hc, he, hu, base, rfl, h.1.symm⟩
        · simp only [hc, he, hs, hu, if_true, Bool.not_true, Bool.false_eq_true,
            if_false, Option.some.injEq, Prod.mk.injEq] at h
          exact Or.inl h.1.symm
      · simp [hc, he, hs] at h
    · simp only [hc, he, if_true, Bool.false_eq_true, if_false, Option.some.injEq,
        Prod.mk.injEq] at h
      exact Or.inl h.1.symm
  · simp only [hc, Bool.false_eq_true, if_false, Option.some.injEq, Prod.mk.injEq] at h
    exact Or.inl h.1.symm

/-- The invariant of the server states: the cache is a well-formed map, the
cacheable set is the initial one, and every entry of the cache has a cacheable URL,
was added with caching enabled, and holds bytes without NUL. -/
theorem reachable_cache_inv {p : parameters} {cache_url : cacheable} {s : HttpServer}
    (h : Reachable p cache_url s) :
    StdMap.WF s.cache ∧ s.cache_url = cache_url ∧
    ∀ e ∈ s.cache, p.enable_cache = true ∧ cache_url.is_cache e.1 = true ∧
      ∀ c ∈ e.2.data, c ≠ NUL := by
  induction h with
  | init => exact ⟨List.Pairwise.nil, rfl, by simp [new, cache_map.new]⟩
  | step s s' _ hstep ih =>
    obtain ⟨hwf, hcu, hall⟩ := ih
    cases hstep with
    | http_read wrapper wrapper' nread run now calls hread =>
      obtain ⟨h1, h2⟩ := http_read_cache p s s' wrapper wrapper' nread run now calls hread
      refine ⟨?_, by rw [h1]; exact hcu, ?_⟩
      · rcases h2 with h2 | ⟨key, h2⟩
        · rw [h2]; exact hwf
        · rw [h2]; exact cache_map.get_WF _ _ _ hwf
      · intro e he
        rcases h2 with h2 | ⟨key, h2⟩
        · rw [h2] at he; exact hall e he
        · rw [h2] at he; exact hall e (cache_map.get_subset _ _ _ e he)
    | async_callback wrapper behind now calls hac =>
      rcases async_callback_cache p s s' wrapper behind now calls hac with
        rfl | ⟨-, he, hu, base, -, rfl⟩
      · exact ⟨hwf, hcu, hall⟩
      · refine ⟨StdMap.WF_insert _ _ hwf, hcu, ?_⟩
        intro e hmem
        rcases StdMap.mem_insert hmem with rfl | hmem
        · exact ⟨he, by rw [← hcu]; exact hu, from_c_str_ne_NUL _⟩
        · exact hall e hmem

/-- C14, the code on the failing input. With caching enabled `http_read` never
calls the dispatch callback, whatever is read: the `else` that holds
`send_to_lambda` belongs to `if(enable_cache)`. On a record whose server pointer
is set, a read that misses the cache returns, and the only call it can make is the
`uv_close` of a parse error. On an empty cache, a complete request for `/p` read
with caching enabled is not dispatched and nothing is written; the same request
read with caching disabled is dispatched once. -/
theorem http_read_miss_not_dispatched :
    (∀ (t ct : Int) (np nt : Nat) (server : HttpServer) (wrapper : HttpData) (nread : Int)
        (run : parser_run) (now : Int) (r : HttpServer × HttpData × List uv_call),
      http_read { timeout := t, cache_timeout := ct, num_process := np,
                  num_v8_internal_threads := nt, enable_cache := true }
        server wrapper nread run now = some r →
      r.2.2.filter uv_call.is_dispatch = []) ∧
    (∀ (t ct : Int) (np nt : Nat) (server : HttpServer) (wrapper : HttpData) (nread : Int)
        (run : parser_run) (now : Int), 0 ≤ nread → wrapper.server = true →
      (server.cache.get (run.callbacks.foldl parser_callback.apply wrapper).request_url
        now).1 = none →
      (http_read { timeout := t, cache_timeout := ct, num_process := np,
                   num_v8_internal_threads := nt, enable_cache := true }
        server wrapper nread run now).map (fun r => r.2.2) =
        some (if run.parsed < nread then [uv_call.uv_close] else [])) ∧
    (cache_map.get (HttpServer.new [("/p".data, true)]).cache "/p".data 0).1 = none ∧
    (http_read { enable_cache := true } (HttpServer.new [("/p".data, true)])
        (HttpData.http_on_connect 0) 30
        { callbacks := [parser_callback.on_url "/p".data,
            parser_callback.on_headers_complete "GET".data,
            parser_callback.on_message_complete], parsed := 30 } 0).map (fun r => r.2.2) =
      some [] ∧
    (http_read { enable_cache := false } (HttpServer.new [("/p".data, true)])
        (HttpData.http_on_connect 0) 30
        { callbacks := [parser_callback.on_url "/p".data,
            parser_callback.on_headers_complete "GET".data,
            parser_callback.on_message_complete], parsed := 30 } 0).map (fun r => r.2.2) =
      some [uv_call.uv_async_init,
       uv_call.send_to_lambda
        { HttpData.http_on_connect 0 with
          request_url := "/p".data, request_method := "GET".data, complete := true }] := by
  refine ⟨?_, ?_, by decide, by decide, by decide⟩
  · intro t ct np nt server wrapper nread run now r hr
    obtain ⟨s', w', calls⟩ := r
    exact http_read_enabled_calls _ _ _ _ _ _ _ _ _ rfl hr
  · intro t ct np nt server wrapper nread run now hn hs hmiss
    rw [http_read_of_server _ server wrapper nread run now hn hs]
    simp only [if_true, hmiss]
    rfl

/-- C16: in every server state reached from an empty cache by the steps
`http_read` and `async_callback`, `cache.count(u) > 0` implies that
`enable_cache` is true and that `cache_url.is_cache(u)` is true, for every URL
`u`; the cacheable set is the initial one. With `enable_cache` false the cache is
empty. A step `async_callback` changes the cache only for a completed request
whose URL is in the cacheable set while caching is enabled, and `http_read` adds no
entry. -/
theorem cacheability_gate (p : parameters) (cache_url : cacheable) (s : HttpServer)
    (hr : Reachable p cache_url s) :
    (∀ u, 0 < s.cache.count u →
      p.enable_cache = true ∧ s.cache_url.is_cache u = true) ∧
    s.cache_url = cache_url ∧
    (p.enable_cache = false → s.cache = []) ∧
    (∀ wrapper behind now s' calls,
      async_callback p s wrapper behind now = some (s', calls) →
      s'.cache ≠ s.cache →
      wrapper.complete = true ∧ p.enable_cache = true ∧
        s.cache_url.is_cache wrapper.request_url = true) ∧
    (∀ wrapper nread run now s' wrapper' calls,
      http_read p s wrapper nread run now = some (s', wrapper', calls) →
      ∀ e ∈ s'.cache, e ∈ s.cache) := by
  obtain ⟨-, hcu, hall⟩ := reachable_cache_inv hr
  refine ⟨?_, hcu, ?_, ?_, ?_⟩
  · intro u hu
    unfold cache_map.count StdMap.count at hu
    rw [List.countP_pos_iff] at hu
    obtain ⟨e, he, heq⟩ := hu
    have hk : e.1 = u := by simpa using heq
    obtain ⟨h1, h2, -⟩ := hall e he
    rw [hk] at h2
    exact ⟨h1, by rw [hcu]; exact h2⟩
  · intro hoff
    cases hc : s.cache with
    | nil => rfl
    | cons e rest =>
      have := (hall e (by rw [hc]; simp)).1
      rw [hoff] at this
      exact absurd this Bool.false_ne_true
  · intro wrapper behind now s' calls hac hne
    rcases async_callback_cache p s s' wrapper behind now calls hac with
      rfl | ⟨h1, h2, h3, -⟩
    · exact absurd rfl hne
    · exact ⟨h1, h2, h3⟩
  · intro wrapper nread run now s' wrapper' calls hread e he
    rcases (http_read_cache p s s' wrapper wrapper' nread run now calls hread).2 with
      h | ⟨key, h⟩
    · rw [h] at he; exact he
    · rw [h] at he; exact cache_map.get_subset _ _ _ e he

set_option maxRecDepth 20000 in
/-- C16 on the server with caching enabled and cacheable set `/p`, after the
wake-up for a completed request for `/p`: the cache holds `/p`, and `/p` is
cacheable. -/
theorem cacheability_gate_witness :
    cacheable.is_cache [("/p".data, true)] "/p".data = true :=
  ((cacheability_gate { enable_cache := true } [("/p".data, true)]
    { cache := [("/p".data, cache_entry_t.mk 0 400000 "HTTP/1.1 200 OK\r\n\r\nA".data)]
      cache_url := [("/p".data, true)] }
    (Reachable.step _ _ Reachable.init
      (Step.async_callback _ _
        { HttpData.http_on_connect 0 with
          request_url := "/p".data, complete := true, response_status := 200
          resBuf := some "HTTP/1.1 200 OK\r\n\r\nA".data, resBuf_len := 20
          async_sends := 1 }
        "\x00".data 0
        [uv_call.free_async_handle,
         uv_call.uv_write (some "HTTP/1.1 200 OK\r\n\r\nA".data) 20]
        (by decide)))).1 "/p".data (by decide)).2

end HttpServer

/-! ## Scenarios of the worker selection -/

namespace Balancer

/-- C21, scenario S5: three workers, a fresh cursor, worker 0 busy with a job `j0`
for good and workers 1 and 2 idle. Three `load_balance` calls, each after the
reset of the worker that took the previous job, go to worker 1, then to worker 2,
then to worker 1. The calls probe the workers 0, 1, then 2, then 0, 1: the cursor
goes on from where the previous call left it (2, then 3, then after the wrap 2)
and worker 0 is passed over whenever the cursor reaches it. The pending queue stays
empty. -/
theorem scenario_round_robin_advance (j0 j1 j2 j3 : balancer_job) :
    ∃ b1 b2 b3 : Balancer,
      load_balance
        { workers := [BalancerWorker.mk (some j0) (some j0) 1, BalancerWorker.init,
            BalancerWorker.init]
          pending := TQueue.empty, worker_count := 3
          robin := RoundRobin.init 3, probes := [] } j1 = some b1 ∧
      b1.probes = [0, 1] ∧ b1.robin.robin = 2 ∧
      b1.workers = [BalancerWorker.mk (some j0) (some j0) 1,
        BalancerWorker.mk (some j1) (some j1) 1, BalancerWorker.init] ∧
      load_balance (b1.reply 1) j2 = some b2 ∧
      b2.probes = [0, 1, 2] ∧ b2.robin.robin = 3 ∧
      b2.workers = [BalancerWorker.mk (some j0) (some j0) 1,
        BalancerWorker.mk none (some j1) 1, BalancerWorker.mk (some j2) (some j2) 1] ∧
      load_balance (b2.reply 2) j3 = some b3 ∧
      b3.probes = [0, 1, 2, 0, 1] ∧ b3.robin.robin = 2 ∧
      b3.workers = [BalancerWorker.mk (some j0) (some j0) 1,
        BalancerWorker.mk (some j3) (some j3) 2, BalancerWorker.mk none (some j2) 1] ∧
      b3.pending = TQueue.empty :=
  ⟨{ workers := [BalancerWorker.mk (some j0) (some j0) 1,
        BalancerWorker.mk (some j1) (some j1) 1, BalancerWorker.init]
     pending := TQueue.empty, worker_count := 3
     robin := { robin := 2, limit := 3 }, probes := [0, 1] },
   { workers := [BalancerWorker.mk (some j0) (some j0) 1,
        BalancerWorker.mk none (some j1) 1, BalancerWorker.mk (some j2) (some j2) 1]
     pending := TQueue.empty, worker_count := 3
     robin := { robin := 3, limit := 3 }, probes := [0, 1, 2] },
   { workers := [BalancerWorker.mk (some j0) (some j0) 1,
        BalancerWorker.mk (some j3) (some j3) 2, BalancerWorker.mk none (some j2) 1]
     pending := TQueue.empty, worker_count := 3
     robin := { robin := 2, limit := 3 }, probes := [0, 1, 2, 0, 1] },
   rfl, rfl, rfl, rfl, rfl, rfl, rfl, rfl, rfl, rfl, rfl, rfl, rfl⟩

theorem probe_some (b : Balancer) (x : Nat) (job : balancer_job) (hx : x < b.workers.length) :
    ∃ ok b', probe b x job = some (ok, b') ∧ b'.probes = b.probes ++ [x] ∧
      b'.workers.length = b.workers.length ∧ b'.robin = b.robin ∧
      b'.pending = b.pending ∧ b'.worker_count = b.worker_count := by
  unfold probe
  rw [List.getElem?_eq_getElem hx]
  exact ⟨_, _, rfl, rfl, by simp, rfl, rfl, rfl⟩

/-- The loop of `load_balance` on a cursor that has not passed its limit, the
limit being the number of workers: it returns, and every index it probes is the
index of a worker. -/
theorem robin_loop_probes (n : Nat) (b : Balancer) (job : balancer_job)
    (hlim : b.robin.limit = b.workers.length) (hrob : b.robin.robin ≤ b.robin.limit)
    (hpos : 0 < b.robin.limit) :
    ∃ ok b' new, robin_loop n b job = some (ok, b') ∧ b'.probes = b.probes ++ new ∧
      (∀ x ∈ new, x < b.workers.length) ∧ b'.workers.length = b.workers.length ∧
      b'.robin.limit = b.robin.limit ∧ b'.robin.robin ≤ b'.robin.limit ∧
      b'.pending = b.pending ∧ b'.worker_count = b.worker_count := by
  induction n generalizing b with
  | zero => exact ⟨false, b, [], rfl, by simp, by simp, rfl, rfl, hrob, rfl, rfl⟩
  | succ n ih =>
    have hlt := RoundRobin.get_lt b.robin hrob hpos
    have hx : b.robin.get.1 < ({ b with robin := b.robin.get.2 } : Balancer).workers.length := by
      show b.robin.get.1 < b.workers.length
      omega
    obtain ⟨ok, b1, hp, hpr, hlen, hr, hq, hwc⟩ :=
      probe_some { b with robin := b.robin.get.2 } b.robin.get.1 job hx
    have hlim1 : b1.robin.limit = b.robin.limit := by rw [hr]; rfl
    have hrob1 : b1.robin.robin ≤ b1.robin.limit := by
      rw [hr]
      show b.robin.get.2.robin ≤ b.robin.get.2.limit
      rw [RoundRobin.get_robin, RoundRobin.get_limit]
      omega
    cases ok with
    | true =>
      refine ⟨true, b1, [b.robin.get.1], by simp [robin_loop, hp], hpr, ?_, hlen, hlim1,
        hrob1, hq, hwc⟩
      intro x hxm
      rw [List.mem_singleton] at hxm
      rw [hxm]
      exact hx
    | false =>
      obtain ⟨ok2, b2, new, h2, hpr2, hall2, hlen2, hlim2, hrob2, hq2, hwc2⟩ :=
        ih b1 (by rw [hlim1, hlim, hlen]) hrob1 (by rw [hlim1]; exact hpos)
      refine ⟨ok2, b2, b.robin.get.1 :: new, by simp [robin_loop, hp, h2], ?_, ?_,
        by rw [hlen2, hlen], by rw [hlim2, hlim1], hrob2, by rw [hq2, hq], by rw [hwc2, hwc]⟩
      · rw [hpr2, hpr]
        simp
      · intro x hxm
        rcases List.mem_cons.1 hxm with rfl | hxm
        · exact hx
        · have := hall2 x hxm
          rw [hlen] at this
          exact this

/-- One `load_balance` on a pool of `N ≥ 2` workers with a consistent cursor
returns, and the indices it probes are below `N`; the counters stay consistent. -/
theorem load_balance_probes (b : Balancer) (job : balancer_job)
    (hN : 2 ≤ b.workers.length) (hcnt : b.worker_count = b.workers.length)
    (hlim : b.robin.limit = b.workers.length) (hrob : b.robin.robin ≤ b.robin.limit) :
    ∃ b' new, load_balance b job = some b' ∧ b'.probes = b.probes ++ new ∧
      (∀ x ∈ new, x < b.workers.length) ∧ b'.workers.length = b.workers.length ∧
      b'.worker_count = b.worker_count ∧
      b'.robin.limit = b.robin.limit ∧ b'.robin.robin ≤ b'.robin.limit := by
  have h1 : b.worker_count ≠ 1 := by omega
  obtain ⟨ok, b1, new, hl, hpr, hall, hlen, hlim1, hrob1, -, hwc⟩ :=
    robin_loop_probes b.worker_count b job hlim hrob (by omega)
  cases ok with
  | true =>
    exact ⟨b1, new, by simp [load_balance, h1, hl], hpr, hall, hlen, hwc, hlim1, hrob1⟩
  | false =>
    exact ⟨{ b1 with pending := b1.pending.push job }, new, by simp [load_balance, h1, hl],
      hpr, hall, hlen, hwc, hlim1, hrob1⟩

theorem load_balance_all_probes (jobs : List balancer_job) (b : Balancer)
    (hN : 2 ≤ b.workers.length) (hcnt : b.worker_count = b.workers.length)
    (hlim : b.robin.limit = b.workers.length) (hrob : b.robin.robin ≤ b.robin.limit) :
    ∃ b' new, load_balance_all b jobs = some b' ∧ b'.probes = b.probes ++ new ∧
      (∀ x ∈ new, x < b.workers.length) := by
  induction jobs generalizing b with
  | nil => exact ⟨b, [], rfl, by simp, by simp⟩
  | cons j js ih =>
    obtain ⟨b1, new1, h1, hp1, ha1, hl1, hw1, hlim1, hrob1⟩ :=
      load_balance_probes b j hN hcnt hlim hrob
    obtain ⟨b2, new2, h2, hp2, ha2⟩ := ih b1 (by rw [hl1]; exact hN) (by rw [hw1, hl1]; exact hcnt)
      (by rw [hlim1, hl1]; exact hlim) hrob1
    refine ⟨b2, new1 ++ new2, by simp [load_balance_all, h1, h2], ?_, ?_⟩
    · rw [hp2, hp1, List.append_assoc]
    · intro x hx
      rcases List.mem_append.1 hx with hx | hx
      · exact ha1 x hx
      · have := ha2 x hx
        rw [hl1] at this
        exact this

end Balancer

namespace RoundRobin

theorem get_passed (r : RoundRobin) (h : r.limit = 0 ∨ r.limit < r.robin) :
    r.get.1 = r.robin ∧ r.get.2.robin = r.robin + 1 ∧ r.get.2.limit < r.get.2.robin := by
  by_cases e : r.robin = r.limit
  · have h0 : r.limit = 0 := by omega
    have hr0 : r.robin = 0 := by omega
    have hg : r.get = (0, { r with robin := 1 }) := by simp [get, e]
    rw [hg, hr0]
    refine ⟨rfl, rfl, ?_⟩
    show r.limit < 1
    omega
  · have hg : r.get = (r.robin, { r with robin := r.robin + 1 }) := by simp [get, e]
    rw [hg]
    refine ⟨rfl, rfl, ?_⟩
    show r.limit < r.robin + 1
    omega

theorem advance_passed (k : Nat) (r : RoundRobin) (h : r.limit = 0 ∨ r.limit < r.robin) :
    (advance k r).get.1 = r.robin + k := by
  induction k generalizing r with
  | zero => exact (get_passed r h).1
  | succ k ih =>
    obtain ⟨-, h2, h3⟩ := get_passed r h
    rw [advance, ih r.get.2 (Or.inr h3), h2]
    omega

theorem advance_passed_robin (k : Nat) (r : RoundRobin)
    (h : r.limit = 0 ∨ r.limit < r.robin) :
    (advance k r).robin = r.robin + k := by
  induction k generalizing r with
  | zero => rfl
  | succ k ih =>
    obtain ⟨-, h2, h3⟩ := get_passed r h
    rw [advance, ih r.get.2 (Or.inr h3), h2]
    omega

end RoundRobin

namespace Balancer

theorem load_balance_length (b b' : Balancer) (job : balancer_job) (h : b.WF)
    (hlb : load_balance b job = some b') : b'.workers.length = b.workers.length := by
  obtain ⟨hcnt, hlim, hrob, -⟩ := h
  rcases load_balance_cases b job hcnt hlim hrob with
    ⟨x, w, r, p, -, -, -, -, h1⟩ | ⟨-, r, p, -, -, h1⟩
  · rw [h1] at hlb
    cases hlb
    simp
  · rw [h1] at hlb
    cases hlb
    rfl

/-- As many `load_balance` calls in a row as there are idle workers, at most: all
return, every job goes to a worker slot and the pending queue is untouched. -/
theorem load_balance_all_idle (jobs : List balancer_job) (b : Balancer) (h : b.WF)
    (hk : jobs.length ≤ b.idle_count) :
    ∃ b', load_balance_all b jobs = some b' ∧ b'.WF ∧ b'.pending = b.pending ∧
      b'.idle_count + jobs.length = b.idle_count ∧
      List.Perm b'.held (b.held ++ jobs) ∧ b'.workers.length = b.workers.length := by
  induction jobs generalizing b with
  | nil => exact ⟨b, rfl, h, rfl, rfl, by simp, rfl⟩
  | cons j js ih =>
    have hpos : 0 < b.idle_count := by
      simp only [List.length_cons] at hk
      omega
    obtain ⟨b1, hlb, hwf1, hp, -⟩ := load_balance_by_idle b j h
    obtain ⟨hq1, hc1, hh1⟩ := hp hpos
    have hl1 := load_balance_length b b1 j h hlb
    obtain ⟨b2, h2, hwf2, hq2, hc2, hh2, hl2⟩ := ih b1 hwf1 (by
      simp only [List.length_cons] at hk
      omega)
    refine ⟨b2, by simp [load_balance_all, hlb, h2], hwf2, by rw [hq2, hq1], ?_, ?_,
      by rw [hl2, hl1]⟩
    · simp only [List.length_cons]
      omega
    · exact hh2.trans ((hh1.append_right js).trans (by simpa using List.perm_middle.symm))

theorem map_current_job_of_busy (ws : List BalancerWorker)
    (h : ∀ w ∈ ws, w.isWorking = true) :
    ws.map BalancerWorker.current_job =
      (ws.filterMap BalancerWorker.current_job).map some := by
  induction ws with
  | nil => rfl
  | cons w ws ih =>
    have hw := h w (by simp)
    cases hc : w.current_job with
    | none => simp [BalancerWorker.isWorking, hc] at hw
    | some j =>
      rw [List.map_cons, List.filterMap_cons_some hc, List.map_cons, hc,
        ih (fun w' hw' => h w' (List.mem_cons_of_mem _ hw'))]

/-- C22, scenario S4 for every pool size: for every `N ≥ 1` and every cursor state
reached by `get` calls, from `N` idle workers and an empty pending queue, `N`
`load_balance` calls in a row all return, leave the pending queue empty and put
the `N` jobs in the `N` slots, one job in each slot (the slots, in worker order, are
a rearrangement of the jobs); the call number `N + 1` leaves every worker as it is
and puts its job in the pending queue. -/
theorem scenario_fill_then_queue (N : Nat) (b : Balancer) (jobs : List balancer_job)
    (extra : balancer_job) (hN : 1 ≤ N) (hw : b.workers.length = N)
    (hc : b.worker_count = N) (hr : RoundRobin.Reachable N b.robin)
    (hidle : ∀ w ∈ b.workers, w.isWorking = false) (hq : b.pending = TQueue.empty)
    (hj : jobs.length = N) :
    ∃ bN, load_balance_all b jobs = some bN ∧ bN.pending = TQueue.empty ∧
      bN.workers.length = N ∧
      List.Perm (bN.workers.map BalancerWorker.current_job) (jobs.map some) ∧
      ∃ b', load_balance bN extra = some b' ∧ b'.workers = bN.workers ∧
        b'.pending = TQueue.push TQueue.empty extra ∧ b'.pending.items = [extra] := by
  obtain ⟨hlim, hrob⟩ := RoundRobin.reachable_inv (by omega) hr
  have hwf : b.WF := ⟨by omega, by omega, hrob, by rw [hq]; rfl⟩
  have hcount : b.idle_count = N := by
    unfold idle_count
    rw [← hw, List.countP_eq_length]
    intro w hwm
    simp [hidle w hwm]
  have hheld : b.held = [] := by
    unfold held
    rw [List.filterMap_eq_nil_iff]
    intro w hwm
    have := hidle w hwm
    cases hcj : w.current_job with
    | none => rfl
    | some j => simp [BalancerWorker.isWorking, hcj] at this
  obtain ⟨bN, h1, hwfN, hqN, hcN, hhN, hlN⟩ := load_balance_all_idle jobs b hwf (by omega)
  have hzero : bN.idle_count = 0 := by omega
  have hbusy := (idle_count_zero_iff bN).1 hzero
  obtain ⟨b', hlb, hwf', -, hz⟩ := load_balance_by_idle bN extra hwfN
  obtain ⟨hp', hw'⟩ := hz hzero
  refine ⟨bN, h1, by rw [hqN, hq], by rw [hlN, hw], ?_, b', hlb, hw', ?_, ?_⟩
  · rw [map_current_job_of_busy _ hbusy]
    rw [hheld, List.nil_append] at hhN
    exact hhN.map some
  · rw [hp', hqN, hq]
  · rw [hp', hqN, hq]
    rfl

/-- C22 on two idle workers and the jobs 7, 8 and then 9. -/
theorem scenario_fill_then_queue_witness :
    ∃ bN, load_balance_all (init 2) [7, 8] = some bN ∧ bN.pending = TQueue.empty ∧
      bN.workers.length = 2 ∧
      List.Perm (bN.workers.map BalancerWorker.current_job) [some 7, some 8] ∧
      ∃ b', load_balance bN 9 = some b' ∧ b'.workers = bN.workers ∧
        b'.pending = TQueue.push TQueue.empty 9 ∧ b'.pending.items = [9] :=
  scenario_fill_then_queue 2 (init 2) [7, 8] 9 (by decide) rfl rfl
    RoundRobin.Reachable.fresh (by decide) rfl rfl

/-- C28, counterexample: a cursor of limit 0. After `2147483647` reads its counter
is `2147483647`, the largest `int`. The next read returns this value and increments
the counter to `2147483648`, which is not a value of `int`: the increment of the
`int robin` overflows, and the 32-bit value that takes its place is `-2147483648`.
The reads do not go on `0, 1, 2, ...` without bound. -/
theorem worker_index_counter_overflow_counterexample :
    (RoundRobin.advance 2147483647 (RoundRobin.init 0)).robin = 2147483647 ∧
    (RoundRobin.get { robin := 2147483647, limit := 0 }).1 = 2147483647 ∧
    (RoundRobin.get { robin := 2147483647, limit := 0 }).2.robin = 2147483648 ∧
    to_int (RoundRobin.get { robin := 2147483647, limit := 0 }).2.robin ≠ 2147483648 ∧
    to_int (RoundRobin.get { robin := 2147483647, limit := 0 }).2.robin = -2147483648 :=
  ⟨(RoundRobin.advance_passed_robin 2147483647 (RoundRobin.init 0) (Or.inl rfl)).trans
      (Nat.zero_add 2147483647),
    by decide, by decide, by decide, by decide⟩

/-- C28, amended: for every balancer whose cursor limit and `worker_count` are its
number of workers `N ≥ 2`, with a cursor state reached by `get` calls, every
sequence of `load_balance` calls returns, and every index `x` that is probed in it,
which is every value returned by `robin.get()`, is below `N`, so `workers[x]` is a
worker. For a cursor whose limit is 0, or whose value has passed its limit, `get`
never wraps at the limit: as long as the counter stays within `int`, that is while
the value returned is below `2147483647`, the call number `k` returns the cursor
value plus `k` and leaves the counter one higher, so a fresh cursor of limit 0
returns 0, 1, 2, ... up to `2147483646`. -/
theorem worker_index_safety (N : Nat) (b : Balancer) (jobs : List balancer_job)
    (hN : 2 ≤ N) (hw : b.workers.length = N) (hc : b.worker_count = N)
    (hr : RoundRobin.Reachable N b.robin) :
    (∃ b' new, load_balance_all b jobs = some b' ∧ b'.probes = b.probes ++ new ∧
      ∀ x ∈ new, x < N) ∧
    (∀ (r : RoundRobin) (k : Nat), (r.limit = 0 ∨ r.limit < r.robin) →
      r.robin + k < 2147483647 →
      (RoundRobin.advance k r).get.1 = r.robin + k ∧
      (RoundRobin.advance k r).get.2.robin = r.robin + k + 1 ∧
      (RoundRobin.advance k r).get.2.robin ≤ 2147483647) ∧
    (∀ k : Nat, k < 2147483647 →
      (RoundRobin.advance k (RoundRobin.init 0)).get.1 = k) := by
  obtain ⟨hlim, hrob⟩ := RoundRobin.reachable_inv (by omega) hr
  refine ⟨?_, ?_, ?_⟩
  · obtain ⟨b', new, h1, h2, h3⟩ := load_balance_all_probes jobs b (by omega) (by omega)
      (by omega) hrob
    exact ⟨b', new, h1, h2, fun x hx => by rw [← hw]; exact h3 x hx⟩
  · intro r k h hk
    have h1 := RoundRobin.advance_passed k r h
    have h2 : (RoundRobin.advance k r).get.2.robin = r.robin + k + 1 := by
      rw [RoundRobin.get_robin, h1]
    exact ⟨h1, h2, by rw [h2]; omega⟩
  · intro k _
    have := RoundRobin.advance_passed k (RoundRobin.init 0) (Or.inl rfl)
    rw [this]
    simp [RoundRobin.init]

/-- C28, amended, on three idle workers and four jobs in a row: the indices probed
are 0, 1, 2, and then 0, 1, 2 again for the job that finds every worker busy. -/
theorem worker_index_safety_witness :
    ∃ b' new, load_balance_all (init 3) [7, 8, 9, 10] = some b' ∧
      b'.probes = [] ++ new ∧ ∀ x ∈ new, x < 3 :=
  (worker_index_safety 3 (init 3) [7, 8, 9, 10] (by decide) rfl rfl
    RoundRobin.Reachable.fresh).1

end Balancer

/-! ## Repeated headers and the empty chunked body -/

namespace HttpData

/-- C29: for every header name `k` and values `v1`, `v2`, on a request that has no
header `k` yet, after `setResponseHeader(k, v1)` followed by
`setResponseHeader(k, v2)` the header map holds exactly one entry for `k` and its
value is `v1`, so the response carries one header line for `k`, with `v1`. The
second call changes nothing, on any request: the first value set for a name is
kept and later values for it are dropped. -/
theorem setResponseHeader_keeps_first (d : HttpData) (k v1 v2 : string)
    (hwf : StdMap.WF d.response_header)
    (hnew : StdMap.find d.response_header k = none) :
    (d.setResponseHeader k v1).setResponseHeader k v2 = d.setResponseHeader k v1 ∧
    StdMap.find ((d.setResponseHeader k v1).setResponseHeader k v2).response_header k =
      some v1 ∧
    StdMap.count ((d.setResponseHeader k v1).setResponseHeader k v2).response_header k = 1 ∧
    (∀ v, (k, v) ∈ ((d.setResponseHeader k v1).setResponseHeader k v2).response_header →
      v = v1) ∧
    header_lines ((d.setResponseHeader k v1).setResponseHeader k v2) =
      header_lines (d.setResponseHeader k v1) := by
  have hf : StdMap.find (d.setResponseHeader k v1).response_header k = some v1 := by
    show StdMap.find (StdMap.insert d.response_header k v1) k = some v1
    rw [StdMap.find_insert_self, hnew]
    rfl
  have hwf1 : StdMap.WF (d.setResponseHeader k v1).response_header :=
    StdMap.WF_insert _ _ hwf
  have hsame : (d.setResponseHeader k v1).setResponseHeader k v2 = d.setResponseHeader k v1 := by
    show { d.setResponseHeader k v1 with
      response_header := StdMap.insert (d.setResponseHeader k v1).response_header k v2 } = _
    rw [StdMap.insert_of_find_some v2 hf]
  rw [hsame]
  refine ⟨rfl, hf, ?_, ?_, rfl⟩
  · rw [StdMap.count_eq _ _ hwf1, hf]
    rfl
  · intro v hv
    have := StdMap.find_of_mem hwf1 hv
    rw [hf] at this
    cases this
    rfl

/-- C29 on a fresh request: `Content-Type` set to `text/html` and then to
`image/png` stays `text/html`. -/
theorem setResponseHeader_keeps_first_witness :
    StdMap.find (((HttpData.new 0).setResponseHeader "Content-Type".data
        "text/html".data).setResponseHeader "Content-Type".data
        "image/png".data).response_header "Content-Type".data = some "text/html".data :=
  (setResponseHeader_keeps_first (HttpData.new 0) "Content-Type".data "text/html".data
    "image/png".data List.Pairwise.nil rfl).2.1

set_option maxRecDepth 20000 in
/-- C30, counterexample: a completed request with status 200 and the headers
`Transfer-Encoding: chunked` and `X` with the one-byte value NUL, and the empty
body. The bytes that `sendResponse` leaves in `resBuf` end inside the header line
of `X`: there is no blank line and neither terminator after it. -/
theorem sendResponse_empty_chunk_counterexample :
    (((((HttpData.new 0).on_message_complete.setResponseStatus 200).setResponseHeader
        "Transfer-Encoding".data "chunked".data).setResponseHeader
        "X".data "\x00".data).sendResponse []).map HttpData.resBuf =
      some (some "HTTP/1.1 200 OK\r\nTransfer-Encoding: chunked\r\nX: ".data) ∧
    (((((HttpData.new 0).on_message_complete.setResponseStatus 200).setResponseHeader
        "Transfer-Encoding".data "chunked".data).setResponseHeader
        "X".data "\x00".data).sendResponse []).map HttpData.resBuf ≠
      some (some ("HTTP/1.1 200 OK\r\nTransfer-Encoding: chunked\r\nX: \x00\r\n\r\n".data ++
        "0\r\n\r\n0\r\n\r\n".data)) := by
  refine ⟨by decide, by decide⟩

/-- C30, amended: for every completed request with `Transfer-Encoding: chunked`
whose response headers hold no NUL character and whose response text for the empty
body is shorter than `2^31` bytes, `sendResponse("")` returns and the bytes that it
leaves in `resBuf` are the status line, the header lines, the blank line and then
exactly `0` CRLF CRLF `0` CRLF CRLF: the chunk of length zero, which reads as a
terminator, followed by the terminator. -/
theorem sendResponse_empty_chunk (d : HttpData)
    (hc : d.complete = true) (hwf : StdMap.WF d.response_header)
    (hm : ("Transfer-Encoding".data, "chunked".data) ∈ d.response_header)
    (hnh : ∀ hd ∈ d.response_header, (∀ c ∈ hd.1, c ≠ NUL) ∧ (∀ c ∈ hd.2, c ≠ NUL))
    (hlen : (response_stream d []).length < 2147483648) :
    d.sendResponse [] =
      some { d with
        resBuf := some (status_line d ++ header_lines d ++ CRLF ++ "0\r\n\r\n0\r\n\r\n".data)
        resBuf_len :=
          (status_line d ++ header_lines d ++ CRLF ++ "0\r\n\r\n0\r\n\r\n".data).length
        async_sends := d.async_sends + 1 } ∧
    body_part d [] = "0\r\n\r\n0\r\n\r\n".data := by
  constructor
  · rw [chunked_resBuf d [] hc hwf hm hnh (by simp) hlen]
    rfl
  · rw [body_part, isChunked_of_mem d hwf hm, if_pos rfl]
    rfl

set_option maxRecDepth 20000 in
/-- C30, amended, on the request of the gateway handler with the empty body. -/
theorem sendResponse_empty_chunk_witness :
    (((((HttpData.new 0).on_message_complete.setResponseStatus 200).setResponseHeaders
        [("Connection".data, "keep-alive".data), ("Transfer-Encoding".data, "chunked".data),
         ("Content-Type".data, "text/html".data)]).sendResponse []).map HttpData.resBuf) =
      some (some ("HTTP/1.1 200 OK\r\n".data ++
        "Connection: keep-alive\r\nContent-Type: text/html\r\nTransfer-Encoding: chunked\r\n".data ++
        "\r\n".data ++ "0\r\n\r\n0\r\n\r\n".data)) :=
  (congrArg (Option.map HttpData.resBuf) (sendResponse_empty_chunk
    (((HttpData.new 0).on_message_complete.setResponseStatus 200).setResponseHeaders
        [("Connection".data, "keep-alive".data), ("Transfer-Encoding".data, "chunked".data),
         ("Content-Type".data, "text/html".data)])
    rfl (by unfold StdMap.WF; decide) (by decide) (by decide) (by decide)).1).trans
    (by decide)

end HttpData

/-! ## Reads of the server: completeness and parse errors -/

namespace HttpServer

theorem apply_complete (wrapper : HttpData) (cb : parser_callback)
    (h : cb ≠ parser_callback.on_message_complete) :
    (parser_callback.apply wrapper cb).complete = wrapper.complete := by
  cases cb with
  | on_message_complete => exact absurd rfl h
  | on_url u => rfl
  | on_header_field => rfl
  | on_header_value => rfl
  | on_headers_complete m => rfl
  | on_body mem len =>
    show (if to_int len > -1 then _ else wrapper).complete = wrapper.complete
    split_ifs <;> rfl

theorem foldl_apply_complete (cbs : List parser_callback) (wrapper : HttpData)
    (h : parser_callback.on_message_complete ∉ cbs) :
    (cbs.foldl parser_callback.apply wrapper).complete = wrapper.complete := by
  induction cbs generalizing wrapper with
  | nil => rfl
  | cons cb cbs ih =>
    rw [List.foldl_cons, ih _ (fun hm => h (List.mem_cons_of_mem _ hm)),
      apply_complete wrapper cb (fun e => h (by rw [e]; simp))]

/-- C24, counterexample: with caching disabled, a read of 10 bytes that holds only
the request line up to the URL `/p`, all of which the parser accepts (`on_url` is
called, `on_message_complete` is not). `http_read` calls the dispatch callback,
with a record whose `complete` flag is false. -/
theorem http_read_dispatch_incomplete_counterexample :
    (http_read { enable_cache := false } (HttpServer.new [])
        (HttpData.http_on_connect 0) 10
        { callbacks := [parser_callback.on_url "/p".data], parsed := 10 } 0).map
        (fun r => r.2.2) =
      some [uv_call.uv_async_init,
       uv_call.send_to_lambda { HttpData.http_on_connect 0 with request_url := "/p".data }] ∧
    ({ HttpData.http_on_connect 0 with request_url := "/p".data } : HttpData).complete =
      false := by
  refine ⟨by decide, by decide⟩

/-- C24, amended: with caching disabled, on a record whose server pointer is set,
after every read of `nread ≥ 0` bytes that the parser accepts in full `http_read`
returns and calls the dispatch callback exactly once (its calls are
`uv_async_init` and then the callback), whether or not the `complete` flag of the
request is true; after a read in which `on_message_complete` has not fired the flag
is what it was before. What waits for `complete` is the response: on the record
handed to the handler, while `complete` is false, `sendResponse` does nothing. -/
theorem http_read_dispatch_any (p : parameters) (server : HttpServer) (wrapper : HttpData)
    (nread : Int) (run : parser_run) (now : Int) (hn : 0 ≤ nread)
    (hp : nread ≤ run.parsed) (hs : wrapper.server = true)
    (he : p.enable_cache = false) :
    http_read p server wrapper nread run now =
      some (server, run.callbacks.foldl parser_callback.apply wrapper,
        [uv_call.uv_async_init,
         uv_call.send_to_lambda (run.callbacks.foldl parser_callback.apply wrapper)]) ∧
    (parser_callback.on_message_complete ∉ run.callbacks →
      (run.callbacks.foldl parser_callback.apply wrapper).complete = wrapper.complete) ∧
    ((run.callbacks.foldl parser_callback.apply wrapper).complete = false →
      ∀ body, (run.callbacks.foldl parser_callback.apply wrapper).sendResponse body =
        some (run.callbacks.foldl parser_callback.apply wrapper)) := by
  have hp' : ¬ run.parsed < nread := by omega
  refine ⟨?_, foldl_apply_complete _ _, ?_⟩
  · rw [http_read_of_server p server wrapper nread run now hn hs]
    simp [he, hp']
  · intro hc body
    simp [HttpData.sendResponse, hc]

/-- C24, amended, on a read that holds only the request line: the handler is
called with the incomplete record. -/
theorem http_read_dispatch_any_witness :
    http_read { enable_cache := false } (HttpServer.new [])
        (HttpData.http_on_connect 0) 10
        { callbacks := [parser_callback.on_url "/p".data], parsed := 10 } 0 =
      some (HttpServer.new [], { HttpData.http_on_connect 0 with request_url := "/p".data },
        [uv_call.uv_async_init,
         uv_call.send_to_lambda
          { HttpData.http_on_connect 0 with request_url := "/p".data }]) :=
  (http_read_dispatch_any { enable_cache := false } (HttpServer.new [])
    (HttpData.http_on_connect 0) 10
    { callbacks := [parser_callback.on_url "/p".data], parsed := 10 } 0 (by decide)
    (by decide) rfl rfl).1

set_option maxRecDepth 20000 in
/-- C25, the code on the failing input. A read of 25 bytes of which the parser
consumes 20: the complete request for `/p` and then bytes it rejects. With caching
disabled `http_read` calls `uv_close` and then, all the same, `uv_async_init` and
the dispatch callback. With caching enabled and `/p` in the cache it calls
`uv_close` and then writes the cached bytes. -/
theorem http_read_parse_error_goes_on :
    (http_read { enable_cache := false } (HttpServer.new [])
        (HttpData.http_on_connect 0) 25
        { callbacks := [parser_callback.on_url "/p".data,
            parser_callback.on_message_complete], parsed := 20 } 0).map (fun r => r.2.2) =
      some [uv_call.uv_close, uv_call.uv_async_init,
       uv_call.send_to_lambda
        { HttpData.http_on_connect 0 with request_url := "/p".data, complete := true }] ∧
    (http_read { enable_cache := true }
        { cache := [("/p".data, cache_entry_t.mk 0 400000 "HTTP/1.1 200 OK\r\n\r\nA".data)]
          cache_url := [("/p".data, true)] }
        (HttpData.http_on_connect 0) 25
        { callbacks := [parser_callback.on_url "/p".data,
            parser_callback.on_message_complete], parsed := 20 } 5).map (fun r => r.2.2) =
      some [uv_call.uv_close, uv_call.uv_write (some "HTTP/1.1 200 OK\r\n\r\nA".data) 20] := by
  refine ⟨by decide, by decide⟩

end HttpServer

/-! ## The handler of main -/

set_option maxRecDepth 40000 in
/-- The reply that the handler of `main` gives for `/favicon.ico` on a request
that had no header before: `sendResponse(" ")` returns, and the record keeps the
icon content type. -/
theorem sendResponse_favicon (D : HttpData)
    (hh : D.response_header =
      [("Connection".data, "keep-alive".data),
       ("Content-Type".data, "image/vnd.microsoft.icon".data),
       ("Transfer-Encoding".data, "chunked".data)])
    (hst : D.response_status = 200) :
    ∃ D', D.sendResponse " ".data = some D' ∧
      StdMap.find D'.response_header "Content-Type".data =
        some "image/vnd.microsoft.icon".data := by
  by_cases hc : D.complete = true
  · have hlen : (HttpData.response_stream D " ".data).length < 2147483648 := by
      simp only [HttpData.response_stream, HttpData.isChunked, hh, hst]
      decide
    have hs := strlen_le (HttpData.response_stream D " ".data)
    refine ⟨_, HttpData.sendResponse_complete D _ hc (by omega), ?_⟩
    show StdMap.find D.response_header _ = _
    rw [hh]
    decide
  · have hf : D.complete = false := by simpa using hc
    refine ⟨D, by simp [HttpData.sendResponse, hf], ?_⟩
    rw [hh]
    decide

set_option maxRecDepth 40000 in
/-- C26, scenario S6: for every request the handler of `main` calls
`bal.load_balance` if and only if the request URL is not exactly `/favicon.ico`.
For `/favicon.ico` it calls `setResponseHeader("Content-Type",
"image/vnd.microsoft.icon")` and then `sendResponse(" ")`, and nothing else; for
every other URL it returns and calls `load_balance` exactly once, with the request,
and does not call `sendResponse`, so that the response buffer and the wake handle
of the request are untouched. -/
theorem main_handler_favicon (req : HttpData) :
    (((main_handler req).2.any handler_call.is_load_balance = true) ↔
      req.request_url ≠ "/favicon.ico".data) ∧
    (req.request_url = "/favicon.ico".data →
      (main_handler req).2 = [handler_call.sendResponse " ".data] ∧
      (main_handler req).1 =
        (((((req.setResponseStatus 200).setResponseHeader "Connection".data
          "keep-alive".data).setResponseHeader "Transfer-Encoding".data
          "chunked".data).setResponseHeader "Content-Type".data
          "image/vnd.microsoft.icon".data).sendResponse " ".data) ∧
      (req.response_header = [] →
        ∃ req', (main_handler req).1 = some req' ∧
          StdMap.find req'.response_header "Content-Type".data =
            some "image/vnd.microsoft.icon".data)) ∧
    (req.request_url ≠ "/favicon.ico".data →
      ∃ req', (main_handler req).1 = some req' ∧
        (main_handler req).2 = [handler_call.load_balance req'] ∧
        (main_handler req).2.filter handler_call.is_sendResponse = [] ∧
        req' =
          ((((req.setResponseStatus 200).setResponseHeader "Connection".data
            "keep-alive".data).setResponseHeader "Transfer-Encoding".data
            "chunked".data).setResponseHeader "Content-Type".data "text/html".data) ∧
        req'.resBuf = req.resBuf ∧
        req'.async_sends = req.async_sends) := by
  have hurl : (((req.setResponseStatus 200).setResponseHeader "Connection".data
      "keep-alive".data).setResponseHeader "Transfer-Encoding".data
      "chunked".data).request_url = req.request_url := rfl
  by_cases h : req.request_url = "/favicon.ico".data
  · have hm : main_handler req =
        ((((((req.setResponseStatus 200).setResponseHeader "Connection".data
          "keep-alive".data).setResponseHeader "Transfer-Encoding".data
          "chunked".data).setResponseHeader "Content-Type".data
          "image/vnd.microsoft.icon".data).sendResponse " ".data),
          [handler_call.sendResponse " ".data]) := by
      unfold main_handler
      simp only [hurl, h, if_true]
    rw [hm]
    refine ⟨?_, ?_, ?_⟩
    · simp [handler_call.is_load_balance, h]
    · intro _
      refine ⟨rfl, rfl, ?_⟩
      intro hempty
      have hh : (((((req.setResponseStatus 200).setResponseHeader "Connection".data
          "keep-alive".data).setResponseHeader "Transfer-Encoding".data
          "chunked".data).setResponseHeader "Content-Type".data
          "image/vnd.microsoft.icon".data)).response_header =
          [("Connection".data, "keep-alive".data),
           ("Content-Type".data, "image/vnd.microsoft.icon".data),
           ("Transfer-Encoding".data, "chunked".data)] := by
        simp only [HttpData.setResponseHeader, HttpData.setResponseStatus, hempty]
        decide
      exact sendResponse_favicon _ hh rfl
    · intro hne
      exact absurd h hne
  · have hm : main_handler req =
        (some ((((req.setResponseStatus 200).setResponseHeader "Connection".data
          "keep-alive".data).setResponseHeader "Transfer-Encoding".data
          "chunked".data).setResponseHeader "Content-Type".data "text/html".data),
          [handler_call.load_balance
            ((((req.setResponseStatus 200).setResponseHeader "Connection".data
              "keep-alive".data).setResponseHeader "Transfer-Encoding".data
              "chunked".data).setResponseHeader "Content-Type".data "text/html".data)]) := by
      unfold main_handler
      simp only [hurl, h, if_false]
    rw [hm]
    refine ⟨?_, ?_, ?_⟩
    · simp [handler_call.is_load_balance, h]
    · intro heq
      exact absurd heq h
    · intro _
      exact ⟨_, rfl, rfl, rfl, rfl, rfl, rfl⟩

set_option maxRecDepth 20000 in
/-- C26 on a completed request for `/favicon.ico`: the handler answers it itself,
and the Balancer is not called. -/
theorem main_handler_favicon_witness :
    (main_handler
        (parser_callback.apply (parser_callback.apply (HttpData.http_on_connect 0)
          (parser_callback.on_url "/favicon.ico".data))
          parser_callback.on_message_complete)).2 = [handler_call.sendResponse " ".data] :=
  ((main_handler_favicon
    (parser_callback.apply (parser_callback.apply (HttpData.http_on_connect 0)
      (parser_callback.on_url "/favicon.ico".data))
      parser_callback.on_message_complete)).2.1 (by decide)).1

/-! ## The callbacks of the worker pipe -/

namespace WorkerChannel

set_option maxRecDepth 20000 in
/-- C23, the code on the failing input. The worker holds job 7, whose record is a
completed request with status 200. For the reply of three bytes `a`, NUL, `b`
(`nread = 3`) `on_ipc_read` passes the one-byte body `a` to `sendResponse`, fewer
bytes than were received. For the reply of two bytes `ab` (`nread = 2`) with the
bytes `cd` and a NUL lying behind them in the buffer it passes the body `abcd`,
more bytes than were received. -/
theorem on_ipc_read_body_not_nread :
    on_ipc_read { worker := BalancerWorker.mk (some 7) (some 7) 1, pipe_closed := false
                  delivered := [] }
        ((HttpData.http_on_connect 0).on_message_complete.setResponseStatus 200) 3
        "a\x00b".data [] =
      (((HttpData.http_on_connect 0).on_message_complete.setResponseStatus
          200).sendResponse "a".data).map
        (fun data => ({ worker := BalancerWorker.mk none (some 7) 1, pipe_closed := false
                        delivered := [(7, "a".data)] }, data)) ∧
    (((HttpData.http_on_connect 0).on_message_complete.setResponseStatus
        200).sendResponse "a".data).map HttpData.resBuf =
      some (some "HTTP/1.1 200 OK\r\n\r\na".data) ∧
    on_ipc_read { worker := BalancerWorker.mk (some 7) (some 7) 1, pipe_closed := false
                  delivered := [] }
        ((HttpData.http_on_connect 0).on_message_complete.setResponseStatus 200) 2
        "ab".data "cd\x00".data =
      (((HttpData.http_on_connect 0).on_message_complete.setResponseStatus
          200).sendResponse "abcd".data).map
        (fun data => ({ worker := BalancerWorker.mk none (some 7) 1, pipe_closed := false
                        delivered := [(7, "abcd".data)] }, data)) ∧
    (((HttpData.http_on_connect 0).on_message_complete.setResponseStatus
        200).sendResponse "abcd".data).map HttpData.resBuf =
      some (some "HTTP/1.1 200 OK\r\n\r\nabcd".data) := by
  refine ⟨by decide, by decide, by decide, by decide⟩

/-- A closed pipe whose worker holds a job stays so under every step. -/
theorem step_closed_busy (c c' : WorkerChannel) (job : balancer_job)
    (hs : Step c c') (hcl : c.pipe_closed = true) (hj : c.worker.current_job = some job) :
    c'.pipe_closed = true ∧ c'.worker.current_job = some job ∧ c'.delivered = c.delivered := by
  cases hs with
  | process job' =>
    have hp : c.worker.process job' = (false, c.worker) := by
      simp [BalancerWorker.process, hj]
    simp [process, hp, hcl, hj]
  | async_pipe_write => exact ⟨hcl, hj, rfl⟩
  | on_ipc_write status =>
    unfold on_ipc_write
    split_ifs
    · exact ⟨rfl, hj, rfl⟩
    · exact ⟨hcl, hj, rfl⟩
  | on_ipc_read _ data data' nread reply behind hopen hread =>
    rw [hcl] at hopen
    exact absurd hopen (by decide)

theorem later_closed_busy (c c' : WorkerChannel) (job : balancer_job)
    (hl : Later c c') (hcl : c.pipe_closed = true) (hj : c.worker.current_job = some job) :
    c'.pipe_closed = true ∧ c'.worker.current_job = some job ∧ c'.delivered = c.delivered := by
  induction hl with
  | now => exact ⟨hcl, hj, rfl⟩
  | step c1 c2 _ hs ih =>
    obtain ⟨h1, h2, h3⟩ := ih
    obtain ⟨k1, k2, k3⟩ := step_closed_busy c1 c2 job hs h1 h2
    exact ⟨k1, k2, by rw [k3, h3]⟩

/-- C27: let a worker hold a job, and let `c1` be its channel after an IPC write
error (`on_ipc_write` with `status < 0`) or after an IPC read error or end of file
(`on_ipc_read` with `nread ≤ 0`). These callbacks close the pipe, leave the slot
as it is and do not call `sendResponse`. In every state `c2` that follows `c1`,
the slot still holds that job, `isWorking()` is true, every `process` call
returns false, so that a probe of `load_balance` on this worker fails and leaves
it unchanged, and `sendResponse` has not been called for the job. -/
theorem closed_channel_stays_busy (c c1 c2 : WorkerChannel) (job : balancer_job)
    (hj : c.worker.current_job = some job)
    (herr : (∃ status : Int, status < 0 ∧ c1 = c.on_ipc_write status) ∨
      (∃ (data data' : HttpData) (nread : Int) (reply behind : string), nread ≤ 0 ∧
        c.on_ipc_read data nread reply behind = some (c1, data')))
    (hl : Later c1 c2) :
    c1 = { c with pipe_closed := true } ∧
    (∀ (data : HttpData) (nread : Int) (reply behind : string), nread ≤ 0 →
      c.on_ipc_read data nread reply behind = some ({ c with pipe_closed := true }, data)) ∧
    c2.worker.current_job = some job ∧
    c2.worker.isWorking = true ∧
    (∀ job', (c2.worker.process job').1 = false ∧ (c2.process job').2 = c2) ∧
    (∀ (b : Balancer) (x : Nat) (job' : balancer_job), b.workers[x]? = some c2.worker →
      Balancer.probe b x job' = some (false, { b with probes := b.probes ++ [x] })) ∧
    c2.delivered = c.delivered := by
  have hread : ∀ (data : HttpData) (nread : Int) (reply behind : string), nread ≤ 0 →
      c.on_ipc_read data nread reply behind = some ({ c with pipe_closed := true }, data) := by
    intro data nread reply behind hn
    have : ¬ nread > 0 := by omega
    simp [on_ipc_read, this]
  have hc1 : c1 = { c with pipe_closed := true } := by
    rcases herr with ⟨status, hs, rfl⟩ | ⟨data, data', nread, reply, behind, hn, hr⟩
    · simp [on_ipc_write, hs]
    · rw [hread data nread reply behind hn] at hr
      cases hr
      rfl
  have hcl1 : c1.pipe_closed = true := by rw [hc1]
  have hj1 : c1.worker.current_job = some job := by rw [hc1]; exact hj
  have hd1 : c1.delivered = c.delivered := by rw [hc1]
  obtain ⟨-, h2, h3⟩ := later_closed_busy c1 c2 job hl hcl1 hj1
  have hp : ∀ job', c2.worker.process job' = (false, c2.worker) := by
    intro job'
    simp [BalancerWorker.process, h2]
  refine ⟨hc1, hread, h2, by simp [BalancerWorker.isWorking, h2], ?_, ?_, by rw [h3, hd1]⟩
  · intro job'
    exact ⟨by rw [hp], by simp [process, hp]⟩
  · intro b x job' hx
    exact Balancer.probe_busy b x job'
      ((Balancer.busy_iff b x).2 ⟨c2.worker, hx, by rw [h2]; simp⟩)

/-- C27 on a worker that holds job 7 when its write fails with status -32: after
a later `process(9)` the slot still holds job 7. -/
theorem closed_channel_stays_busy_witness :
    (({ worker := BalancerWorker.mk (some 7) (some 7) 1, pipe_closed := true
        delivered := [] } : WorkerChannel).process 9).2.worker.current_job = some 7 :=
  (closed_channel_stays_busy
    { worker := BalancerWorker.mk (some 7) (some 7) 1, pipe_closed := false, delivered := [] }
    { worker := BalancerWorker.mk (some 7) (some 7) 1, pipe_closed := true, delivered := [] }
    (({ worker := BalancerWorker.mk (some 7) (some 7) 1, pipe_closed := true
        delivered := [] } : WorkerChannel).process 9).2
    7 rfl (Or.inl ⟨-32, by decide, by decide⟩)
    (Later.step _ _ _ (Later.now _) (Step.process _ 9))).2.2.1

end WorkerChannel

end V8Renderer
